import Mathlib

/-!
Verification development for the `taskflow` synchronization engine
(`scripts/task-sync.mjs`).

The JavaScript source is shallowly embedded below:
* strings are modelled as Lean `String` / `List Char` (JS strings are
  sequences of code units; all the data handled here is code-point safe,
  and SQLite's `BINARY` collation agrees with code-point order on the
  ASCII data the engine produces);
* the SQLite tables `tasks_v2`, `task_transitions_v2`, `projects` and the
  `sync_state` singleton are modelled as explicit state (`Db`,
  `SyncState`); each SQL statement of the script becomes a pure state
  transformer, and statements that can hit a `CHECK`/foreign-key
  constraint return `Except`;
* `JS Map` insertion/lookup semantics (insert keeps first position,
  overwrites value; iteration in insertion order) are modelled by
  `mapOf`/`mapGet`;
* `Array.prototype.sort` with a comparator is a stable sort; it is
  modelled by a stable insertion sort, with `localeCompare` modelled as
  code-point lexicographic comparison (they agree on the ASCII ids and
  `P<digit>` priorities the repository uses);
* SHA-256 (`node:crypto` `createHash('sha256')`) is implemented in full
  over `Nat` bytes, and digest input is the UTF-8 encoding of the
  canonical string, as in `hash.update(data)`.
-/

namespace TaskFlow

/-! ### Characters, whitespace, trimming -/

/-- JS `\s` (and `trim()`) whitespace, restricted to the characters that can
occur in this data (ASCII whitespace plus NBSP). -/
def isJsSpace (c : Char) : Bool :=
  c = ' ' || c = '\t' || c = '\n' || c = '\r' ||
  c = Char.ofNat 11 || c = Char.ofNat 12 || c = Char.ofNat 160

/-- Characters allowed in a task id by the regex class `[a-z0-9-]`. -/
def isIdChar (c : Char) : Bool :=
  ('a'.toNat ≤ c.toNat && c.toNat ≤ 'z'.toNat) ||
  ('0'.toNat ≤ c.toNat && c.toNat ≤ '9'.toNat) || c = '-'

/-- JS `\d`. -/
def isDigitChar (c : Char) : Bool :=
  '0'.toNat ≤ c.toNat && c.toNat ≤ '9'.toNat

/-- `String.prototype.trim` on a character list. -/
def jsTrimList (l : List Char) : List Char :=
  ((l.dropWhile isJsSpace).reverse.dropWhile isJsSpace).reverse

/-- `String.prototype.trim`. -/
def jsTrimS (s : String) : String :=
  String.mk (jsTrimList s.data)

/-- ASCII `toLowerCase` (the section-heading strings are ASCII). -/
def lowerChar (c : Char) : Char :=
  if 'A'.toNat ≤ c.toNat && c.toNat ≤ 'Z'.toNat then Char.ofNat (c.toNat + 32) else c

/-- `String.prototype.toLowerCase` on a character list. -/
def lowerList (l : List Char) : List Char := l.map lowerChar

/-- `content.split(/\r?\n/)`: split into lines, `\n` or `\r\n` separated.
A trailing separator yields a trailing empty line, as in JS; a carriage
return not followed by a newline stays inside its line. -/
def splitLines : List Char → List (List Char)
  | [] => [[]]
  | c :: rest =>
    if c = '\n' then [] :: splitLines rest
    else if c = '\r' then
      match rest with
      | [] => [['\r']]
      | d :: rest2 =>
        if d = '\n' then [] :: splitLines rest2
        else
          match splitLines (d :: rest2) with
          | l :: ls => ('\r' :: l) :: ls
          | [] => [['\r']]
    else
      match splitLines rest with
      | l :: ls => (c :: l) :: ls
      | [] => [[c]]

/-! ### Code-point string comparison and stable sorting

`a.localeCompare(b)` is modelled as code-point lexicographic comparison
(the comparator is only ever applied to ASCII ids / `P<digit>` priorities,
where the two agree), and SQLite's `ORDER BY id` uses `BINARY` collation,
which is also code-point order on ASCII. -/

/-- Strict lexicographic order on character lists (by code point). -/
def strLtB : List Char → List Char → Bool
  | [], [] => false
  | [], _ :: _ => true
  | _ :: _, [] => false
  | a :: as, b :: bs =>
    if a.toNat < b.toNat then true
    else if b.toNat < a.toNat then false
    else strLtB as bs

/-- Total lexicographic order on character lists. -/
def strLeB (a b : List Char) : Bool := !(strLtB b a)

/-- `a.localeCompare(b) ≤ 0`, the "keep `a` first" outcome of the comparator. -/
def idLeB (a b : String) : Bool := strLeB a.data b.data

/-- Stable insertion used by the sort model: an element is placed before the
first list element it compares `le` to, matching stable `Array.sort`. -/
def ordInsert (le : α → α → Bool) (a : α) : List α → List α
  | [] => [a]
  | b :: l => if le a b then a :: b :: l else b :: ordInsert le a l

/-- Stable sort (models `Array.prototype.sort` with a consistent comparator). -/
def sortBy (le : α → α → Bool) : List α → List α
  | [] => []
  | a :: l => ordInsert le a (sortBy le l)

/-! ### JS `Map` built from `entries` -/

/-- `map.set(k, v)`: overwrite in place if the key exists (keeping its
original position), append otherwise. -/
def mapSet (m : List (String × α)) (k : String) (v : α) : List (String × α) :=
  if m.any (fun e => e.1 = k) then
    m.map (fun e => if e.1 = k then (k, v) else e)
  else m ++ [(k, v)]

/-- `new Map(pairs)`. -/
def mapOf (pairs : List (String × α)) : List (String × α) :=
  pairs.foldl (fun m e => mapSet m e.1 e.2) []

/-- `map.get(k)` (`undefined` becomes `none`). -/
def mapGet (m : List (String × α)) (k : String) : Option α :=
  match m.find? (fun e => e.1 = k) with
  | some e => some e.2
  | none => none

/-- `map.has(k)`. -/
def hasKey (m : List (String × α)) (k : String) : Bool :=
  m.any (fun e => e.1 = k)

/-! ### Task records -/

/-- A task record: the fields produced by `parseTaskFile` and selected by
`getDbTasks` (`SELECT id, project_id, title, status, priority, owner_model,
notes, source_file FROM tasks_v2`). `owner_model`/`notes` are `NULL`able. -/
structure Task where
  id : String
  project_id : String
  title : String
  status : String
  priority : String
  owner_model : Option String
  notes : Option String
  source_file : String
deriving DecidableEq, Repr

/-- A full `tasks_v2` row (the record fields plus the timestamps the sync
engine maintains; `legacy_key` is never touched by the script and is
omitted). -/
structure DbTask where
  id : String
  project_id : String
  title : String
  status : String
  priority : String
  owner_model : Option String
  notes : Option String
  source_file : String
  created_at : String
  updated_at : String
deriving DecidableEq, Repr

/-- Projection of a stored row to the record shape read by `getDbTasks`. -/
def DbTask.toRec (r : DbTask) : Task :=
  ⟨r.id, r.project_id, r.title, r.status, r.priority, r.owner_model, r.notes, r.source_file⟩

/-- A `task_transitions_v2` row as inserted by the script
(`actor_model` stays `NULL` and is omitted; `at` defaults in SQL and does
not influence any claim). -/
structure Transition where
  task_id : String
  from_status : Option String
  to_status : String
  reason : Option String
  actor : String
deriving DecidableEq, Repr

/-- The `sync_state` singleton row (`id = 1`). -/
structure SyncState where
  lock_owner : Option String
  lock_until : Option String
  last_sync_at : Option String
  last_result : Option String
  files_hash : Option String
  db_hash : Option String
deriving DecidableEq, Repr

/-- Database state: project ids (the other `projects` columns are never read
back by the engine), task rows, the append-only transition log, and the
singleton. -/
structure Db where
  projects : List String
  tasks : List DbTask
  transitions : List Transition
  sync : SyncState
deriving DecidableEq, Repr

/-! ### Record parser (`parseTaskFile`) -/

/-- `expect pre l` consumes the literal prefix `pre` from `l`. -/
def expect : List Char → List Char → Option (List Char)
  | [], r => some r
  | _ :: _, [] => none
  | c :: cs, d :: ds => if c = d then expect cs ds else none

/-- One optional bracket tag `(?:\[([^\]]*)\])?`: an opening bracket, the
longest `]`-free run, a closing bracket. -/
def takeTag : List Char → Option (List Char × List Char)
  | '[' :: rest =>
    match rest.dropWhile (fun c => c ≠ ']') with
    | ']' :: rest2 => some (rest.takeWhile (fun c => c ≠ ']'), rest2)
    | _ => none
  | _ => none

/-- `\s*(.+)$`: greedy spaces then a non-empty remainder.  When the input is
non-empty but all whitespace, regex backtracking leaves exactly the last
character for `(.+)`. -/
def matchTitle (r : List Char) : Option (List Char) :=
  if r.isEmpty then none
  else
    let d := r.dropWhile isJsSpace
    if d.isEmpty then some [r.getLastD ' '] else some d

/-- Matches `\s*(?:\[([^\]]*)\])?\s*(?:\[([^\]]*)\])?\s*(.+)$` after the id.
Backtracking order of the two greedy optional groups: both tags, then the
first tag only, then no tag.  (The "second group only" alternative consumes
exactly the same characters as "first tag only" and can never succeed where
it fails, and the downstream tag classifier treats the two group slots
identically.) -/
def tailMatch (r : List Char) : Option (Option (List Char) × Option (List Char) × List Char) :=
  let fallbackC := (matchTitle r).map (fun ti => (none, none, ti))
  match takeTag (r.dropWhile isJsSpace) with
  | none => fallbackC
  | some (t1, r2) =>
    let branchA :=
      match takeTag (r2.dropWhile isJsSpace) with
      | some (t2, r4) => (matchTitle r4).map (fun ti => (some t1, some t2, ti))
      | none => none
    let branchB := (matchTitle r2).map (fun ti => (some t1, none, ti))
    (branchA.orElse (fun _ => branchB)).orElse (fun _ => fallbackC)

/-- `TASK_RE = /^- \[([ x])\] \(task:([a-z0-9-]+)\)\s*(?:\[([^\]]*)\])?\s*(?:\[([^\]]*)\])?\s*(.+)$/`.
Returns `(checkbox, id, tag1, tag2, rawTitle)`; the checkbox state is parsed
but never used downstream. -/
def parseTaskLine (line : List Char) : Option (Char × String × Option String × Option String × String) :=
  match expect ['-', ' ', '['] line with
  | none => none
  | some r =>
    match r with
    | [] => none
    | c :: r =>
      if c = ' ' || c = 'x' then
        match expect [']', ' ', '(', 't', 'a', 's', 'k', ':'] r with
        | none => none
        | some r =>
          let id := r.takeWhile isIdChar
          if id.isEmpty then none
          else
            match expect [')'] (r.dropWhile isIdChar) with
            | none => none
            | some r =>
              match tailMatch r with
              | none => none
              | some (t1, t2, ti) =>
                some (c, String.mk id, t1.map String.mk, t2.map String.mk, String.mk ti)
      else none

/-- The tag loop: `let priority = 'P2', model = null; for (const tag of
[tag1, tag2]) { if (!tag) continue; if (/^P\d$/.test(tag)) priority = tag;
else model = tag }`. -/
def isPriorityTag (s : String) : Bool :=
  match s.data with
  | ['P', d] => isDigitChar d
  | _ => false

/-- Folds one optional tag into `(priority, model)`; the empty string is
falsy in JS and is skipped. -/
def classifyTag (acc : String × Option String) (tag : Option String) : String × Option String :=
  match tag with
  | none => acc
  | some t =>
    if t = "" then acc
    else if isPriorityTag t then (t, acc.2)
    else (acc.1, some t)

def classifyTags (t1 t2 : Option String) : String × Option String :=
  classifyTag (classifyTag ("P2", none) t1) t2

/-- `STATUS_MAP` lookup on the normalized heading text. -/
def statusMap (s : String) : Option String :=
  if s = "in progress" then some "in_progress"
  else if s = "pending validation" then some "pending_validation"
  else if s = "backlog" then some "backlog"
  else if s = "done" then some "done"
  else if s = "blocked" then some "blocked"
  else none

/-- `line.match(/^## (.+)$/)` followed by the `STATUS_MAP[...] || null`
lookup: `none` when the line is not a section heading at all, `some st` with
the new (possibly `none`) status context when it is. -/
def headerStatusOf (line : List Char) : Option (Option String) :=
  match expect ['#', '#', ' '] line with
  | none => none
  | some rest =>
    if rest.isEmpty then none
    else some (statusMap (String.mk (lowerList (jsTrimList rest))))

/-- `lines[i+1].match(/^\s+- note:\s*(.+)$/)` with `.trim()` applied to the
captured group. -/
def noteOf (line : List Char) : Option String :=
  if (line.takeWhile isJsSpace).isEmpty then none
  else
    match expect ['-', ' ', 'n', 'o', 't', 'e', ':'] (line.dropWhile isJsSpace) with
    | none => none
    | some r => (matchTitle r).map (fun ti => String.mk (jsTrimList ti))

/-- The status context in scope after visiting one line: a heading line
replaces it, every other line keeps it. -/
def nextStatus (line : List Char) (cur : Option String) : Option String :=
  match headerStatusOf line with
  | some newStatus => newStatus
  | none => cur

/-- The records (zero or one) contributed by one visited line: with a status
context in scope, a line matching `TASK_RE` yields a record whose note is
looked ahead on the following line. -/
def lineRecords (slug : String) (line : List Char) (rest : List (List Char))
    (cur : Option String) : List Task :=
  match headerStatusOf line with
  | some _ => []
  | none =>
    match cur with
    | none => []
    | some st =>
      match parseTaskLine line with
      | none => []
      | some (_, tid, t1, t2, rawTitle) =>
        let pm := classifyTags t1 t2
        let notes :=
          match rest with
          | next :: _ => noteOf next
          | [] => none
        [{ id := tid
           project_id := slug
           title := jsTrimS rawTitle
           status := st
           priority := pm.1
           owner_model := pm.2
           notes := notes
           source_file := "tasks/" ++ slug ++ "-tasks.md" }]

/-- The body of `parseTaskFile`'s line loop (the note line following a
record is itself still visited, and never matches anything). -/
def parseLoop (slug : String) : List (List Char) → Option String → List Task
  | [], _ => []
  | line :: rest, cur =>
    lineRecords slug line rest cur ++ parseLoop slug rest (nextStatus line cur)

/-- `parseTaskFile` on the content of `tasks/<slug>-tasks.md`. -/
def parseTaskFileContent (slug : String) (content : String) : List Task :=
  parseLoop slug (splitLines content.data) none

/-! ### Fingerprint (`hashTasks`) -/

/-- `t.owner_model || ''` / `t.notes || ''`. -/
def ownerKey (o : Option String) : String := o.getD ""

/-- Join pieces with a single-character separator (`Array.prototype.join`). -/
def joinSepL (c : Char) : List (List Char) → List Char
  | [] => []
  | [p] => p
  | p :: q :: ps => p ++ c :: joinSepL c (q :: ps)

/-- The fixed-order field projection entering the fingerprint. -/
def hashProj (t : Task) : List (List Char) :=
  [t.id.data, t.status.data, t.priority.data, (ownerKey t.owner_model).data,
   t.title.data, (ownerKey t.notes).data]

/-- The per-task projection line
`` `${t.id}|${t.status}|${t.priority}|${t.owner_model || ''}|${t.title}|${t.notes || ''}` ``. -/
def lineOf (t : Task) : List Char :=
  joinSepL '|' (hashProj t)

/-- No projected field of the task contains a delimiter of the canonical
digest input (`|` between fields, newline between records). -/
def delimFreeTask (t : Task) : Bool :=
  (hashProj t).all (fun p => !p.any (fun c => c = '|' || c = '\n'))

/-- `[...tasks].sort((a, b) => a.id.localeCompare(b.id))`. -/
def sortById (l : List Task) : List Task :=
  sortBy (fun a b => idLeB a.id b.id) l

/-- The digest input of `hashTasks`: canonical sort, field projection,
newline join. -/
def canonicalData (l : List Task) : List Char :=
  joinSepL '\n' ((sortById l).map lineOf)

/-! #### SHA-256 over `Nat` bytes -/

/-- UTF-8 encoding of a character list (how `hash.update(string)` consumes a
JS string). -/
def utf8Char (c : Char) : List Nat :=
  let n := c.toNat
  if n < 128 then [n]
  else if n < 2048 then [192 + n / 64, 128 + n % 64]
  else if n < 65536 then [224 + n / 4096, 128 + n / 64 % 64, 128 + n % 64]
  else [240 + n / 262144, 128 + n / 4096 % 64, 128 + n / 64 % 64, 128 + n % 64]

def utf8Bytes (l : List Char) : List Nat :=
  l.flatMap utf8Char

def w32 : Nat := 4294967296

def rotr32 (n x : Nat) : Nat :=
  ((x >>> n) ||| (x <<< (32 - n))) % w32

def sha256K : List Nat :=
  [1116352408, 1899447441, 3049323471, 3921009573, 961987163,
   1508970993, 2453635748, 2870763221, 3624381080, 310598401,
   607225278, 1426881987, 1925078388, 2162078206, 2614888103,
   3248222580, 3835390401, 4022224774, 264347078, 604807628,
   770255983, 1249150122, 1555081692, 1996064986, 2554220882,
   2821834349, 2952996808, 3210313671, 3336571891, 3584528711,
   113926993, 338241895, 666307205, 773529912, 1294757372,
   1396182291, 1695183700, 1986661051, 2177026350, 2456956037,
   2730485921, 2820302411, 3259730800, 3345764771, 3516065817,
   3600352804, 4094571909, 275423344, 430227734, 506948616,
   659060556, 883997877, 958139571, 1322822218, 1537002063,
   1747873779, 1955562222, 2024104815, 2227730452, 2361852424,
   2428436474, 2756734187, 3204031479, 3329325298]

def sha256H0 : List Nat :=
  [1779033703, 3144134277, 1013904242, 2773480762, 1359893119,
   2600822924, 528734635, 1541459225]

/-- Standard SHA-256 padding: `0x80`, zeros to 56 mod 64, 8-byte big-endian
bit length. -/
def sha256Pad (msg : List Nat) : List Nat :=
  let bitLen := msg.length * 8
  let zeros := (120 - (msg.length + 1) % 64) % 64
  msg ++ [128] ++ List.replicate zeros 0 ++
    ((List.range 8).map (fun i => bitLen >>> (8 * (7 - i)) % 256))

/-- Split into 64-byte chunks. -/
def chunk64 : List Nat → List (List Nat)
  | [] => []
  | b :: rest => (b :: rest.take 63) :: chunk64 (rest.drop 63)
termination_by l => l.length
decreasing_by
  simp only [List.length_cons, List.length_drop]
  omega

/-- Big-endian 32-bit words from bytes. -/
def wordsOfBytes : List Nat → List Nat
  | b0 :: b1 :: b2 :: b3 :: rest =>
    (((b0 * 256 + b1) * 256 + b2) * 256 + b3) :: wordsOfBytes rest
  | _ => []

/-- One message-schedule extension step. -/
def schedStep (w : List Nat) : List Nat :=
  let i := w.length
  let g := fun j => w.getD j 0
  let s0 := (rotr32 7 (g (i - 15))).xor ((rotr32 18 (g (i - 15))).xor ((g (i - 15)) >>> 3)) % w32
  let s1 := (rotr32 17 (g (i - 2))).xor ((rotr32 19 (g (i - 2))).xor ((g (i - 2)) >>> 10)) % w32
  w ++ [(g (i - 16) + s0 + g (i - 7) + s1) % w32]

def schedule (w16 : List Nat) : List Nat :=
  (List.range 48).foldl (fun w _ => schedStep w) w16

/-- One compression round. -/
def shaRound (w : List Nat) (st : Nat × Nat × Nat × Nat × Nat × Nat × Nat × Nat) (i : Nat) :
    Nat × Nat × Nat × Nat × Nat × Nat × Nat × Nat :=
  match st with
  | (a, b, c, d, e, f, g, h) =>
    let s1 := (rotr32 6 e).xor ((rotr32 11 e).xor (rotr32 25 e)) % w32
    let ch := ((e.land f).xor ((w32 - 1 - e).land g)) % w32
    let t1 := (h + s1 + ch + sha256K.getD i 0 + w.getD i 0) % w32
    let s0 := (rotr32 2 a).xor ((rotr32 13 a).xor (rotr32 22 a)) % w32
    let mj := ((a.land b).xor ((a.land c).xor (b.land c))) % w32
    let t2 := (s0 + mj) % w32
    ((t1 + t2) % w32, a, b, c, (d + t1) % w32, e, f, g)

/-- Process one 64-byte chunk. -/
def shaChunk (hs : List Nat) (chunk : List Nat) : List Nat :=
  let w := schedule (wordsOfBytes chunk)
  let init : Nat × Nat × Nat × Nat × Nat × Nat × Nat × Nat :=
    (hs.getD 0 0, hs.getD 1 0, hs.getD 2 0, hs.getD 3 0,
     hs.getD 4 0, hs.getD 5 0, hs.getD 6 0, hs.getD 7 0)
  match (List.range 64).foldl (shaRound w) init with
  | (a, b, c, d, e, f, g, h) =>
    [(hs.getD 0 0 + a) % w32, (hs.getD 1 0 + b) % w32, (hs.getD 2 0 + c) % w32,
     (hs.getD 3 0 + d) % w32, (hs.getD 4 0 + e) % w32, (hs.getD 5 0 + f) % w32,
     (hs.getD 6 0 + g) % w32, (hs.getD 7 0 + h) % w32]

def hexDigitChar (n : Nat) : Char :=
  if n < 10 then Char.ofNat ('0'.toNat + n) else Char.ofNat ('a'.toNat + n - 10)

/-- 8 lowercase hex digits of a 32-bit word. -/
def wordHex (n : Nat) : List Char :=
  (List.range 8).map (fun i => hexDigitChar (n >>> (4 * (7 - i)) % 16))

/-- Full SHA-256 hex digest of a byte list. -/
def sha256HexBytes (msg : List Nat) : List Char :=
  ((chunk64 (sha256Pad msg)).foldl shaChunk sha256H0).flatMap wordHex

/-- `createHash('sha256').update(data).digest('hex').slice(0, 16)` over the
canonical projection of a task set. -/
def hashTasks (l : List Task) : String :=
  String.mk ((sha256HexBytes (utf8Bytes (canonicalData l))).take 16)

/-! ### Diff engine (`diffTasks`) -/

/-- `x || null` on a nullable string field (the empty string is falsy). -/
def normOwner : Option String → Option String
  | some s => if s = "" then none else some s
  | none => none

/-- JS template interpolation of a nullable value (`null` prints `"null"`). -/
def showNull (o : Option String) : String := o.getD "null"

inductive Diff where
  | file_only (id : String) (task : Task)
  | changed (id : String) (changes : List String) (fileTask dbTask : Task)
  | db_only (id : String) (task : Task)
deriving DecidableEq, Repr

/-- The `changes` array pushed for a pair of records with the same id:
status, priority, owner (compared after `|| null` coercion), title. -/
def changesOf (ft dt : Task) : List String :=
  (if ft.status = dt.status then [] else ["status: " ++ dt.status ++ " → " ++ ft.status]) ++
  (if ft.priority = dt.priority then [] else ["priority: " ++ dt.priority ++ " → " ++ ft.priority]) ++
  (if normOwner ft.owner_model = normOwner dt.owner_model then []
   else ["model: " ++ showNull dt.owner_model ++ " → " ++ showNull ft.owner_model]) ++
  (if ft.title = dt.title then [] else ["title changed"])

/-- `diffTasks(fileTasks, dbTasks)`: iterate the file map against the db map,
then report db-only ids; iteration order is `Map` insertion order. -/
def diffTasks (fileTasks dbTasks : List Task) : List Diff :=
  ((mapOf (fileTasks.map (fun t => (t.id, t)))).filterMap (fun e =>
    match mapGet (mapOf (dbTasks.map (fun t => (t.id, t)))) e.1 with
    | none => some (Diff.file_only e.1 e.2)
    | some dt =>
      if (changesOf e.2 dt).isEmpty then none
      else some (Diff.changed e.1 (changesOf e.2 dt) e.2 dt))) ++
  ((mapOf (dbTasks.map (fun t => (t.id, t)))).filterMap (fun e =>
    if hasKey (mapOf (fileTasks.map (fun t => (t.id, t)))) e.1 then none
    else some (Diff.db_only e.1 e.2)))

/-- The fields `diffTasks` compares for a pair of records with the same id
(owner after the `|| null` coercion; notes and timestamps excluded). -/
def comparedEq (ft dt : Task) : Prop :=
  ft.status = dt.status ∧ ft.priority = dt.priority ∧
  normOwner ft.owner_model = normOwner dt.owner_model ∧ ft.title = dt.title

instance (ft dt : Task) : Decidable (comparedEq ft dt) := by
  unfold comparedEq; infer_instance

/-- Field equality of two records on every projected field ("field-equal"):
the compared fields plus the note, nullable fields up to the `'' / NULL`
coercion both the fingerprint and the diff apply. -/
def projEq (ft dt : Task) : Prop :=
  ft.status = dt.status ∧ ft.priority = dt.priority ∧ ft.title = dt.title ∧
  ownerKey ft.owner_model = ownerKey dt.owner_model ∧
  ownerKey ft.notes = ownerKey dt.notes

instance (ft dt : Task) : Decidable (projEq ft dt) := by
  unfold projEq; infer_instance

/-! ### Reading the store (`getDbTasks`) -/

/-- `SELECT ... FROM tasks_v2 ORDER BY id` followed by the record projection. -/
def dbRecords (db : Db) : List Task :=
  sortById (db.tasks.map DbTask.toRec)

/-! ### Merge/upsert engine (`syncFilesToDb`) -/

/-- The five-value status `CHECK` constraint of `tasks_v2`. -/
def statusEnum : List String :=
  ["backlog", "in_progress", "pending_validation", "done", "blocked"]

/-- The priority `CHECK` constraint of `tasks_v2`. -/
def prioEnum : List String := ["P0", "P1", "P2", "P3", "P9"]

/-- Constraints the upsert statement can violate: the two `CHECK`
enumerations and the `project_id` foreign key. -/
def rowValid (projects : List String) (t : Task) : Bool :=
  statusEnum.contains t.status && prioEnum.contains t.priority &&
  projects.contains t.project_id

/-- The `ON CONFLICT(id) DO UPDATE` arm: mutable fields are overwritten,
`notes = COALESCE(excluded.notes, tasks_v2.notes)`, and `updated_at`
advances only when a comparison-relevant field changed
(owner compared via `COALESCE(x, '')`). -/
def updateRow (r : DbTask) (t : Task) (now : String) : DbTask :=
  { r with
    title := t.title
    status := t.status
    priority := t.priority
    owner_model := t.owner_model
    notes := match t.notes with | some n => some n | none => r.notes
    source_file := t.source_file
    updated_at :=
      if r.title = t.title ∧ r.status = t.status ∧ r.priority = t.priority ∧
         ownerKey r.owner_model = ownerKey t.owner_model
      then r.updated_at else now }

/-- The `INSERT` arm of the upsert (both timestamps default to now). -/
def newRow (t : Task) (now : String) : DbTask :=
  ⟨t.id, t.project_id, t.title, t.status, t.priority, t.owner_model, t.notes,
   t.source_file, now, now⟩

/-- The row-level effect of the upsert: conflict-update the row carrying
the same primary key, or insert a fresh row. -/
def upsertRows (rows : List DbTask) (t : Task) (now : String) : List DbTask :=
  if rows.any (fun r => r.id = t.id) then
    rows.map (fun r => if r.id = t.id then updateRow r t now else r)
  else rows ++ [newRow t now]

/-- One prepared-`upsert.run(...)` execution: constraint check, then insert
or conflict-update of the row with the same primary key. -/
def upsert (db : Db) (t : Task) (now : String) : Except String Db :=
  if rowValid db.projects t then
    Except.ok { db with tasks := upsertRows db.tasks t now }
  else
    Except.error ("constraint violation on task " ++ t.id)

/-- The task id a diff would upsert (none for a db-only diff). -/
def diffTaskId : Diff → Option String
  | Diff.file_only _ t => some t.id
  | Diff.changed _ _ ft _ => some ft.id
  | Diff.db_only _ _ => none

/-- `insertTransition.run(taskId, from, to, reason)` with `actor = 'sync'`. -/
def addTransition (db : Db) (taskId : String) (fromSt : Option String) (toSt : String)
    (reason : String) : Db :=
  { db with transitions := db.transitions ++ [⟨taskId, fromSt, toSt, some reason, "sync"⟩] }

/-- The apply loop of `syncFilesToDb`: each diff issues its statements
independently (no enclosing transaction); a thrown constraint error stops
the loop with all earlier statements already committed. -/
def runDiffs (now : String) : List Diff → Db → Db × Except String Unit
  | [], db => (db, Except.ok ())
  | Diff.file_only _ t :: rest, db =>
    match upsert db t now with
    | Except.error e => (db, Except.error e)
    | Except.ok db' =>
      runDiffs now rest (addTransition db' t.id none t.status "added via file sync")
  | Diff.changed _ changes ft dt :: rest, db =>
    match upsert db ft now with
    | Except.error e => (db, Except.error e)
    | Except.ok db' =>
      if dt.status = ft.status then runDiffs now rest db'
      else runDiffs now rest
        (addTransition db' ft.id (some dt.status) ft.status
          ("file sync: " ++ String.intercalate ", " changes))
  | Diff.db_only _ _ :: rest, db => runDiffs now rest db

/-- Auto-creation of projects referenced by file tasks but missing from the
`projects` table (`INSERT OR IGNORE`; only the id is ever read back). -/
def autoCreateProjects (fileTasks : List Task) (db : Db) : Db :=
  { db with
    projects := fileTasks.foldl
      (fun ps t => if ps.contains t.project_id then ps else ps ++ [t.project_id])
      db.projects }

/-- `syncFilesToDb(fileTasks, dbTasks, diffs)` as invoked from `main`:
project auto-creation, the apply loop over `diffTasks fileTasks (getDbTasks)`,
and on success the fingerprint update of the singleton.  The files are
re-parsed unchanged, so the re-parse yields `fileTasks` again. -/
def syncFilesToDb (fileTasks : List Task) (db : Db) (now : String) : Db × Except String Unit :=
  let db0 := autoCreateProjects fileTasks db
  let diffs := diffTasks fileTasks (dbRecords db0)
  match runDiffs now diffs db0 with
  | (db', Except.error e) => (db', Except.error e)
  | (db', Except.ok ()) =>
    let fh := hashTasks fileTasks
    let dh := hashTasks (dbRecords db')
    ({ db' with sync := { db'.sync with files_hash := some fh, db_hash := some dh } },
     Except.ok ())

/-- The diff entry produced for one file-side record (against the db map):
used to state the unfolding of `diffTasks` when ids are unique. -/
def diffLeft (D : List Task) (ft : Task) : Option Diff :=
  match D.find? (fun t => t.id = ft.id) with
  | none => some (Diff.file_only ft.id ft)
  | some dt =>
    if (changesOf ft dt).isEmpty then none
    else some (Diff.changed ft.id (changesOf ft dt) ft dt)

/-- The diff entry produced for one db-side record (against the file map). -/
def diffRight (F : List Task) (dt : Task) : Option Diff :=
  if F.any (fun t => t.id = dt.id) then none else some (Diff.db_only dt.id dt)

/-- `SELECT ... WHERE id = x` on the task rows (the primary key makes the
row unique). -/
def findRow (rows : List DbTask) (x : String) : Option DbTask :=
  rows.find? (fun r => r.id = x)

/-- The transition row the apply loop appends for one diff: one per added
record (`NULL` previous status), one per changed record exactly when the
status differs, none otherwise. -/
def expectedTransition : Diff → Option Transition
  | Diff.file_only _ t => some ⟨t.id, none, t.status, some "added via file sync", "sync"⟩
  | Diff.changed _ changes ft dt =>
    if dt.status = ft.status then none
    else some ⟨ft.id, some dt.status, ft.status,
               some ("file sync: " ++ String.intercalate ", " changes), "sync"⟩
  | Diff.db_only _ _ => none

/-! ### Drift check (`check` mode) -/

structure CheckResult where
  diffs : List Diff
  fileHash : String
  dbHash : String
  exitCode : Nat
deriving Repr

/-- The read-only `check` mode: diff, both fingerprints, exit 0 on no
drift and exit 1 otherwise. -/
def checkRun (fileTasks dbTasks : List Task) : CheckResult :=
  let diffs := diffTasks fileTasks dbTasks
  ⟨diffs, hashTasks fileTasks, hashTasks dbTasks, if diffs.isEmpty then 0 else 1⟩

/-! ### Lease lock (`acquireLock` / `releaseLock`) -/

/-- A calendar instant (UTC), used to render the two timestamp formats the
script compares. -/
structure DateTime where
  year : Nat
  month : Nat
  day : Nat
  hour : Nat
  minute : Nat
  second : Nat
deriving DecidableEq, Repr

/-- Semantic order on instants: seconds since an epoch-style encoding. -/
def DateTime.encode (d : DateTime) : Nat :=
  ((((d.year * 13 + d.month) * 32 + d.day) * 24 + d.hour) * 60 + d.minute) * 60 + d.second

def dtLt (a b : DateTime) : Bool := a.encode < b.encode

def pad2 (n : Nat) : String :=
  if n < 10 then "0" ++ toString n else toString n

/-- `new Date(...).toISOString()`: `YYYY-MM-DDTHH:MM:SS.sssZ` (the script
always produces whole-second `.000` here only when ms = 0; the `T`/`Z` and
millisecond field are what matters for the comparison). -/
def isoOf (d : DateTime) : String :=
  toString d.year ++ "-" ++ pad2 d.month ++ "-" ++ pad2 d.day ++ "T" ++
  pad2 d.hour ++ ":" ++ pad2 d.minute ++ ":" ++ pad2 d.second ++ ".000Z"

/-- SQLite `datetime('now')`: `YYYY-MM-DD HH:MM:SS`. -/
def sqliteOf (d : DateTime) : String :=
  toString d.year ++ "-" ++ pad2 d.month ++ "-" ++ pad2 d.day ++ " " ++
  pad2 d.hour ++ ":" ++ pad2 d.minute ++ ":" ++ pad2 d.second

/-- SQLite `BINARY` text comparison `lock_until < datetime('now')`; a `NULL`
`lock_until` makes the comparison `NULL` (not true). -/
def untilExpiredB (lockUntil : Option String) (nowStr : String) : Bool :=
  match lockUntil with
  | some u => strLtB u.data nowStr.data
  | none => false

/-- The single conditional `UPDATE` of `acquireLock`: succeeds (changes = 1)
iff `lock_owner IS NULL OR lock_until < datetime('now')`; on success it
stores the caller and the ISO-rendered 60-second expiry. -/
def acquireLock (s : SyncState) (owner untilStr nowStr : String) : SyncState × Bool :=
  if s.lock_owner.isNone || untilExpiredB s.lock_until nowStr then
    ({ s with lock_owner := some owner, lock_until := some untilStr }, true)
  else (s, false)

/-- `releaseLock(result)`: unconditionally clears owner and expiry and
records the outcome and timestamp, with no check that the caller still
holds the lease. -/
def releaseLock (s : SyncState) (result now : String) : SyncState :=
  { s with lock_owner := none, lock_until := none,
           last_sync_at := some now, last_result := some result }

/-! ### Projector (`projectDbToFiles`), per project file -/

def STATUS_ORDER : List String :=
  ["in_progress", "pending_validation", "blocked", "backlog", "done"]

def statusHeaderName (st : String) : String :=
  if st = "in_progress" then "In Progress"
  else if st = "pending_validation" then "Pending Validation"
  else if st = "blocked" then "Blocked"
  else if st = "backlog" then "Backlog"
  else "Done"

/-- Section ordering: `a.priority.localeCompare(b.priority) || a.id.localeCompare(b.id)`. -/
def prioIdLeB (a b : Task) : Bool :=
  if a.priority = b.priority then idLeB a.id b.id else idLeB a.priority b.priority

def sortSection (l : List Task) : List Task := sortBy prioIdLeB l

/-- One rendered task line. -/
def renderTaskLineStr (t : Task) : String :=
  "- " ++ (if t.status = "done" then "[x]" else "[ ]") ++ " (task:" ++ t.id ++ ") [" ++
  t.priority ++ "]" ++
  (match t.owner_model with
   | some o => if o = "" then "" else " [" ++ o ++ "]"
   | none => "") ++
  " " ++ t.title

/-- A task line plus its optional note line (`if (t.notes)` is false for
`null` and for the empty string). -/
def taskBlock (t : Task) : String :=
  renderTaskLineStr t ++ "\n" ++
  (match t.notes with
   | some n => if n = "" then "" else "  - note: " ++ n ++ "\n"
   | none => "")

/-- One `## <Heading>` section of the projected file. -/
def sectionBlock (tasks : List Task) (st : String) : String :=
  "## " ++ statusHeaderName st ++ "\n" ++
  (let sec := sortSection (tasks.filter (fun t => t.status = st))
   if sec.isEmpty then "\n" else String.join (sec.map taskBlock) ++ "\n")

/-- The full projected content of one project's task file: the preserved
preamble, a blank line, then the five sections in canonical order. -/
def projectFile (header : String) (tasks : List Task) : String :=
  header ++ "\n\n" ++ String.join (STATUS_ORDER.map (sectionBlock tasks))

/-- The record a stored task parses back to after projection: the project
slug and source file come from the file, an empty owner tag is not emitted
(and reads back as `null`), and the note is re-trimmed. -/
def reparse (slug : String) (t : Task) : Task :=
  { t with
    project_id := slug
    source_file := "tasks/" ++ slug ++ "-tasks.md"
    owner_model := normOwner t.owner_model
    notes :=
      match t.notes with
      | some n => if n = "" then none else some (jsTrimS n)
      | none => none }

/-- Does the title start with a complete `[...]` bracket group (which, with
no owner tag emitted, the second optional tag group of `TASK_RE` would
swallow)? -/
def titleStartsWithTag (title : String) : Bool :=
  (takeTag title.data).isSome

/-- Syntactic canonicity of one stored row, the conditions under which the
projected text parses back to the same record: a well-formed id, a
non-empty trim-stable single-line title that cannot be mistaken for a tag
when no owner tag is emitted, a constraint-conforming status and priority,
an owner tag (when emitted) that is bracket-free, newline-free and not
shaped like a priority tag, and a newline-free note. -/
def canonicalTask (t : Task) : Bool :=
  !t.id.data.isEmpty && t.id.data.all isIdChar &&
  statusEnum.contains t.status &&
  isPriorityTag t.priority &&
  !t.title.data.isEmpty && jsTrimS t.title = t.title &&
  !t.title.data.any (fun c => c = '\n' || c = '\r') &&
  (ownerKey t.owner_model ≠ "" || !titleStartsWithTag t.title) &&
  (match t.owner_model with
   | some o =>
     o = "" || (!o.data.any (fun c => c = ']' || c = '\n' || c = '\r') && !isPriorityTag o)
   | none => true) &&
  (match t.notes with
   | some n => !n.data.any (fun c => c = '\n' || c = '\r')
   | none => true)

/-- Join lines with a newline appended after every line — the shape of every
string the projector concatenates below the preamble. -/
def linesJoin : List (List Char) → List Char
  | [] => []
  | l :: ls => l ++ '\n' :: linesJoin ls

/-- The lines of one rendered task block (`taskBlock` without the
terminating newlines). -/
def taskLines (t : Task) : List (List Char) :=
  (renderTaskLineStr t).data ::
  (match t.notes with
   | some n => if n = "" then [] else [("  - note: " ++ n).data]
   | none => [])

/-- The lines of one rendered section (`sectionBlock` without the
terminating newlines). -/
def sectionLines (tasks : List Task) (st : String) : List (List Char) :=
  ("## " ++ statusHeaderName st).data ::
  (let sec := sortSection (tasks.filter (fun t => t.status = st))
   if sec.isEmpty then [[]] else sec.flatMap taskLines ++ [[]])

/-- All lines of the projected file body, below the preamble and the blank
line following it. -/
def bodyLines (tasks : List Task) : List (List Char) :=
  STATUS_ORDER.flatMap (sectionLines tasks)

deriving instance DecidableEq for Except

/-! ## Theorems -/

/-! ### JS `Map` lemmas -/

theorem mapSet_append_of_not_mem {α} (m : List (String × α)) (k : String) (v : α)
    (h : m.any (fun e => e.1 = k) = false) : mapSet m k v = m ++ [(k, v)] := by
  simp only [mapSet, h]
  simp

theorem mapOf_go_eq {α} (ps : List (String × α)) :
    ∀ acc : List (String × α), ((acc ++ ps).map Prod.fst).Nodup →
      ps.foldl (fun m e => mapSet m e.1 e.2) acc = acc ++ ps := by
  induction ps with
  | nil => intro acc _; simp
  | cons e ps ih =>
    intro acc h
    have hmem : e.1 ∉ acc.map Prod.fst := by
      simp only [List.map_append, List.nodup_append] at h
      intro hc
      exact h.2.2 hc (by simp)
    have hk : acc.any (fun x => x.1 = e.1) = false := by
      rw [List.any_eq_false]
      intro x hx
      simp only [decide_eq_true_eq]
      intro hxe
      exact hmem (hxe ▸ List.mem_map_of_mem Prod.fst hx)
    rw [List.foldl_cons]
    show List.foldl _ (mapSet acc e.1 e.2) ps = _
    rw [mapSet_append_of_not_mem acc e.1 e.2 hk]
    have h' : (((acc ++ [(e.1, e.2)]) ++ ps).map Prod.fst).Nodup := by
      simpa [List.append_assoc] using h
    rw [ih (acc ++ [(e.1, e.2)]) h']
    simp [List.append_assoc]

theorem mapOf_eq_self {α} (ps : List (String × α)) (h : (ps.map Prod.fst).Nodup) :
    mapOf ps = ps := by
  have := mapOf_go_eq ps [] (by simpa using h)
  simpa [mapOf] using this

theorem taskPairs_keys (l : List Task) :
    (l.map (fun t => (t.id, t))).map Prod.fst = l.map Task.id := by
  rw [List.map_map]
  rfl

theorem mapOf_taskPairs (l : List Task) (h : (l.map Task.id).Nodup) :
    mapOf (l.map (fun t => (t.id, t))) = l.map (fun t => (t.id, t)) :=
  mapOf_eq_self _ (by rw [taskPairs_keys]; exact h)

theorem mapGet_taskPairs (l : List Task) (k : String) :
    mapGet (l.map (fun t => (t.id, t))) k = l.find? (fun t => t.id = k) := by
  unfold mapGet
  rw [List.find?_map]
  have : ((fun e : String × Task => decide (e.1 = k)) ∘ fun t => (t.id, t)) =
      fun t : Task => decide (t.id = k) := rfl
  rw [this]
  cases h : l.find? (fun t => t.id = k) <;> simp

theorem hasKey_taskPairs (l : List Task) (k : String) :
    hasKey (l.map (fun t => (t.id, t))) k = l.any (fun t => t.id = k) := by
  unfold hasKey
  induction l with
  | nil => rfl
  | cons t l ih =>
    simp only [List.map_cons, List.any_cons]
    rw [ih]

/-- A general invariant of `mapOf` entries. -/
theorem mapOf_entry_prop {α} (P : String × α → Prop) (ps : List (String × α))
    (hps : ∀ e ∈ ps, P e) : ∀ e ∈ mapOf ps, P e := by
  unfold mapOf
  suffices h : ∀ acc : List (String × α), (∀ e ∈ acc, P e) →
      ∀ e ∈ ps.foldl (fun m e => mapSet m e.1 e.2) acc, P e by
    exact h [] (by simp)
  induction ps with
  | nil => intro acc hacc e he; exact hacc e he
  | cons x ps ih =>
    intro acc hacc e he
    have hx : P x := hps x (by simp)
    have hps' : ∀ e ∈ ps, P e := fun e he => hps e (by simp [he])
    refine ih hps' (mapSet acc x.1 x.2) ?_ e he
    intro e' he'
    unfold mapSet at he'
    by_cases hc : acc.any (fun e => e.1 = x.1)
    · simp only [hc, if_true] at he'
      obtain ⟨a, ha, hae⟩ := List.mem_map.mp he'
      by_cases hax : a.1 = x.1
      · simp only [hax, if_true] at hae
        exact hae ▸ hx
      · simp only [hax, if_false] at hae
        exact hae ▸ hacc a ha
    · simp only [Bool.not_eq_true] at hc
      simp only [hc, Bool.false_eq_true, if_false, List.mem_append] at he'
      rcases he' with h | h
      · exact hacc e' h
      · simp only [List.mem_singleton] at h
        exact h ▸ hx

/-! ### `changesOf` characterization -/

theorem changesOf_eq_nil (ft dt : Task) :
    changesOf ft dt = [] ↔ comparedEq ft dt := by
  unfold changesOf comparedEq
  split_ifs <;> simp_all

/-- `changesOf ft ft.toRec`-style reflexivity: a record never differs from
itself on the compared fields. -/
theorem changesOf_self (ft dt : Task)
    (h1 : ft.status = dt.status) (h2 : ft.priority = dt.priority)
    (h3 : normOwner ft.owner_model = normOwner dt.owner_model) (h4 : ft.title = dt.title) :
    changesOf ft dt = [] :=
  (changesOf_eq_nil ft dt).mpr ⟨h1, h2, h3, h4⟩

theorem normOwner_eq_key (x : Option String) :
    normOwner x = if ownerKey x = "" then none else some (ownerKey x) := by
  cases x <;> rfl

theorem normOwner_eq_iff_ownerKey (a b : Option String) :
    normOwner a = normOwner b ↔ ownerKey a = ownerKey b := by
  rw [normOwner_eq_key a, normOwner_eq_key b]
  by_cases ha : ownerKey a = "" <;> by_cases hb : ownerKey b = ""
  · rw [if_pos ha, if_pos hb, ha, hb]; simp
  · rw [if_pos ha, if_neg hb]
    constructor
    · intro h; simp at h
    · intro h; exact absurd (ha ▸ h).symm hb
  · rw [if_neg ha, if_pos hb]
    constructor
    · intro h; simp at h
    · intro h; exact absurd (hb ▸ h) ha
  · rw [if_neg ha, if_neg hb]; simp

/-! ### `diffTasks` unfolding under unique ids -/

theorem diffTasks_eq_of_nodup (F D : List Task)
    (hF : (F.map Task.id).Nodup) (hD : (D.map Task.id).Nodup) :
    diffTasks F D = F.filterMap (diffLeft D) ++ D.filterMap (diffRight F) := by
  unfold diffTasks
  rw [mapOf_taskPairs F hF, mapOf_taskPairs D hD, List.filterMap_map, List.filterMap_map]
  congr 1
  · apply List.filterMap_congr
    intro ft _
    show (match mapGet (D.map (fun t => (t.id, t))) ft.id with
      | none => some (Diff.file_only ft.id ft)
      | some dt =>
        if (changesOf ft dt).isEmpty then none
        else some (Diff.changed ft.id (changesOf ft dt) ft dt)) = diffLeft D ft
    rw [mapGet_taskPairs]
    unfold diffLeft
    cases D.find? (fun t => t.id = ft.id) <;> simp
  · apply List.filterMap_congr
    intro dt _
    show (if hasKey (F.map (fun t => (t.id, t))) dt.id then none
          else some (Diff.db_only dt.id dt)) = diffRight F dt
    rw [hasKey_taskPairs]
    rfl

/-! ### Upsert and apply-loop lemmas -/

theorem updateRow_id (r : DbTask) (t : Task) (now : String) :
    (updateRow r t now).id = r.id := rfl

theorem newRow_id (t : Task) (now : String) : (newRow t now).id = t.id := rfl

/-- The conflict-update map only rewrites rows carrying the conflicting id. -/
theorem filter_map_update (rows : List DbTask) (t : Task) (now : String)
    (x : String) (hx : x ≠ t.id) :
    (rows.map (fun r => if r.id = t.id then updateRow r t now else r)).filter
        (fun r => r.id = x) =
      rows.filter (fun r => r.id = x) := by
  induction rows with
  | nil => rfl
  | cons r rows ih =>
    simp only [List.map_cons, List.filter_cons]
    by_cases hr : r.id = t.id
    · rw [if_pos hr]
      have h1 : decide ((updateRow r t now).id = x) = false := by
        rw [updateRow_id, hr]; exact decide_eq_false (fun h => hx h.symm)
      have h2 : decide (r.id = x) = false := by
        rw [hr]; exact decide_eq_false (fun h => hx h.symm)
      simp only [h1, h2, Bool.false_eq_true, if_false]
      exact ih
    · rw [if_neg hr]
      cases h : decide (r.id = x) <;> simp only [h, Bool.false_eq_true, if_false, if_true] <;>
        rw [ih]

theorem find_map_update_frame (rows : List DbTask) (t : Task) (now : String)
    (x : String) (hx : x ≠ t.id) :
    (rows.map (fun r => if r.id = t.id then updateRow r t now else r)).find?
        (fun r => r.id = x) =
      rows.find? (fun r => r.id = x) := by
  induction rows with
  | nil => rfl
  | cons r rows ih =>
    simp only [List.map_cons, List.find?_cons]
    by_cases hr : r.id = t.id
    · rw [if_pos hr]
      have h1 : decide ((updateRow r t now).id = x) = false := by
        rw [updateRow_id, hr]; exact decide_eq_false (fun h => hx h.symm)
      have h2 : decide (r.id = x) = false := by
        rw [hr]; exact decide_eq_false (fun h => hx h.symm)
      rw [h1, h2]
      exact ih
    · rw [if_neg hr]
      cases h : decide (r.id = x) <;> [exact ih; rfl]

theorem upsertRows_filter_frame (rows : List DbTask) (t : Task) (now : String)
    (x : String) (hx : x ≠ t.id) :
    (upsertRows rows t now).filter (fun r => r.id = x) =
      rows.filter (fun r => r.id = x) := by
  unfold upsertRows
  split
  · exact filter_map_update rows t now x hx
  · rw [List.filter_append]
    have h : ([newRow t now].filter (fun r => r.id = x)) = [] := by
      have : decide ((newRow t now).id = x) = false := by
        rw [newRow_id]; exact decide_eq_false (fun h => hx h.symm)
      simp [List.filter_cons, this]
    rw [h, List.append_nil]

theorem upsertRows_findRow_frame (rows : List DbTask) (t : Task) (now : String)
    (x : String) (hx : x ≠ t.id) :
    findRow (upsertRows rows t now) x = findRow rows x := by
  unfold upsertRows findRow
  split
  · exact find_map_update_frame rows t now x hx
  · rw [List.find?_append]
    have h : [newRow t now].find? (fun r => r.id = x) = none := by
      have : decide ((newRow t now).id = x) = false := by
        rw [newRow_id]; exact decide_eq_false (fun h => hx h.symm)
      simp [List.find?_cons, this]
    rw [h]
    cases rows.find? (fun r => r.id = x) <;> rfl

theorem findRow_isSome_iff_any (rows : List DbTask) (x : String) :
    rows.any (fun r => r.id = x) = (findRow rows x).isSome := by
  unfold findRow
  induction rows with
  | nil => rfl
  | cons r rows ih =>
    simp only [List.any_cons, List.find?_cons]
    cases h : decide (r.id = x) <;> simp only [h, Bool.false_or, Bool.true_or]
    · exact ih
    · rfl

theorem find_map_update_hit (rows : List DbTask) (t : Task) (now : String)
    (r : DbTask) (hr : rows.find? (fun r => r.id = t.id) = some r) :
    (rows.map (fun r => if r.id = t.id then updateRow r t now else r)).find?
        (fun rr => rr.id = t.id) = some (updateRow r t now) := by
  induction rows with
  | nil => simp at hr
  | cons a rows ih =>
    simp only [List.find?_cons] at hr
    simp only [List.map_cons, List.find?_cons]
    by_cases ha : a.id = t.id
    · rw [if_pos ha]
      rw [decide_eq_true ha] at hr
      have h2 : decide ((updateRow a t now).id = t.id) = true := by
        rw [updateRow_id]; exact decide_eq_true ha
      rw [h2]
      simp only [Option.some.injEq] at hr
      rw [hr]
    · rw [if_neg ha]
      rw [decide_eq_false ha] at hr
      rw [decide_eq_false ha]
      exact ih hr

theorem upsertRows_findRow_hit_update (rows : List DbTask) (t : Task) (now : String)
    (r : DbTask) (hr : findRow rows t.id = some r) :
    findRow (upsertRows rows t now) t.id = some (updateRow r t now) := by
  have hany : rows.any (fun x => x.id = t.id) = true := by
    rw [findRow_isSome_iff_any, hr]; rfl
  unfold upsertRows findRow
  rw [if_pos hany]
  exact find_map_update_hit rows t now r hr

theorem upsertRows_findRow_hit_insert (rows : List DbTask) (t : Task) (now : String)
    (hr : findRow rows t.id = none) :
    findRow (upsertRows rows t now) t.id = some (newRow t now) := by
  have hany : rows.any (fun x => x.id = t.id) = false := by
    rw [findRow_isSome_iff_any, hr]; rfl
  unfold upsertRows findRow
  rw [if_neg (by simp [hany])]
  unfold findRow at hr
  rw [List.find?_append, hr]
  have : decide ((newRow t now).id = t.id) = true := by
    rw [newRow_id]; exact decide_eq_true rfl
  simp [List.find?_cons, this]

theorem upsertRows_nodup (rows : List DbTask) (t : Task) (now : String)
    (hn : (rows.map DbTask.id).Nodup) :
    ((upsertRows rows t now).map DbTask.id).Nodup := by
  unfold upsertRows
  split
  · have : (rows.map (fun r => if r.id = t.id then updateRow r t now else r)).map DbTask.id =
        rows.map DbTask.id := by
      rw [List.map_map]
      apply List.map_congr_left
      intro r _
      by_cases hr : r.id = t.id <;> simp [hr, updateRow_id]
    rw [this]
    exact hn
  · next hany =>
    rw [List.map_append]
    simp only [List.map_cons, List.map_nil, newRow_id]
    rw [List.nodup_append]
    refine ⟨hn, List.nodup_singleton _, ?_⟩
    intro a ha hb
    simp only [List.mem_singleton] at hb
    subst hb
    obtain ⟨r, hrmem, hrid⟩ := List.mem_map.mp ha
    exact hany (by rw [List.any_eq_true]; exact ⟨r, hrmem, by simp [hrid]⟩)

theorem upsert_projects (db : Db) (t : Task) (now : String) (db' : Db)
    (h : upsert db t now = Except.ok db') :
    db'.projects = db.projects ∧ db'.transitions = db.transitions ∧
      db'.sync = db.sync ∧ db'.tasks = upsertRows db.tasks t now := by
  unfold upsert at h
  split at h
  · cases h; exact ⟨rfl, rfl, rfl, rfl⟩
  · cases h

theorem addTransition_fields (db : Db) (a : String) (b : Option String) (c d : String) :
    (addTransition db a b c d).tasks = db.tasks ∧
    (addTransition db a b c d).projects = db.projects ∧
    (addTransition db a b c d).sync = db.sync ∧
    (addTransition db a b c d).transitions =
      db.transitions ++ [⟨a, b, c, some d, "sync"⟩] := ⟨rfl, rfl, rfl, rfl⟩

/-- Everything the apply loop leaves untouched: the `projects` table and the
singleton row. -/
theorem runDiffs_frame (now : String) (ds : List Diff) (db : Db) :
    (runDiffs now ds db).1.projects = db.projects ∧
    (runDiffs now ds db).1.sync = db.sync := by
  induction ds generalizing db with
  | nil => exact ⟨rfl, rfl⟩
  | cons d ds ih =>
    rcases d with ⟨i, t⟩ | ⟨i, changes, ft, dt⟩ | ⟨i, t⟩
    · simp only [runDiffs]
      cases h : upsert db t now with
      | error e => exact ⟨rfl, rfl⟩
      | ok db' =>
        obtain ⟨hp, _, hs, _⟩ := upsert_projects db t now db' h
        simpa [addTransition, hp, hs] using
          ih (addTransition db' t.id none t.status "added via file sync")
    · simp only [runDiffs]
      cases h : upsert db ft now with
      | error e => exact ⟨rfl, rfl⟩
      | ok db' =>
        obtain ⟨hp, _, hs, _⟩ := upsert_projects db ft now db' h
        by_cases hst : dt.status = ft.status
        · simpa [hst, hp, hs] using ih db'
        · simpa [addTransition, hst, hp, hs] using
            ih (addTransition db' ft.id (some dt.status) ft.status
              ("file sync: " ++ String.intercalate ", " changes))
    · simp only [runDiffs]
      exact ih db

/-- Rows whose id is not targeted by any diff are untouched by the apply
loop (also on failure paths). -/
theorem runDiffs_filter_frame (now : String) (ds : List Diff) (db : Db) (x : String)
    (hx : ∀ d ∈ ds, diffTaskId d ≠ some x) :
    (runDiffs now ds db).1.tasks.filter (fun r => r.id = x) =
      db.tasks.filter (fun r => r.id = x) := by
  induction ds generalizing db with
  | nil => rfl
  | cons d ds ih =>
    have hd : diffTaskId d ≠ some x := hx d (by simp)
    have hds : ∀ d ∈ ds, diffTaskId d ≠ some x := fun d hmem => hx d (by simp [hmem])
    rcases d with ⟨i, t⟩ | ⟨i, changes, ft, dt⟩ | ⟨i, t⟩
    · have hne : x ≠ t.id := fun h => hd (by simp [diffTaskId, h])
      simp only [runDiffs]
      cases h : upsert db t now with
      | error e => rfl
      | ok db' =>
        obtain ⟨_, _, _, ht⟩ := upsert_projects db t now db' h
        rw [ih _ hds]
        rw [(addTransition_fields db' t.id none t.status "added via file sync").1, ht]
        exact upsertRows_filter_frame db.tasks t now x hne
    · have hne : x ≠ ft.id := fun h => hd (by simp [diffTaskId, h])
      simp only [runDiffs]
      cases h : upsert db ft now with
      | error e => rfl
      | ok db' =>
        obtain ⟨_, _, _, ht⟩ := upsert_projects db ft now db' h
        dsimp only
        by_cases hst : dt.status = ft.status
        · rw [if_pos hst]
          rw [ih _ hds, ht]
          exact upsertRows_filter_frame db.tasks ft now x hne
        · rw [if_neg hst]
          rw [ih _ hds]
          rw [(addTransition_fields db' ft.id (some dt.status) ft.status
            ("file sync: " ++ String.intercalate ", " changes)).1, ht]
          exact upsertRows_filter_frame db.tasks ft now x hne
    · simp only [runDiffs]
      exact ih db hds

/-- The transitions appended by a successful apply loop are exactly the
expected ones, in diff order. -/
theorem runDiffs_transitions (now : String) (ds : List Diff) (db : Db)
    (h : (runDiffs now ds db).2 = Except.ok ()) :
    (runDiffs now ds db).1.transitions =
      db.transitions ++ ds.filterMap expectedTransition := by
  induction ds generalizing db with
  | nil => simp [runDiffs]
  | cons d ds ih =>
    rcases d with ⟨i, t⟩ | ⟨i, changes, ft, dt⟩ | ⟨i, t⟩
    · simp only [runDiffs] at h ⊢
      cases hu : upsert db t now with
      | error e => rw [hu] at h; exact absurd h (by simp)
      | ok db' =>
        rw [hu] at h
        dsimp only at h ⊢
        obtain ⟨_, htr, _, _⟩ := upsert_projects db t now db' hu
        rw [ih _ h]
        rw [(addTransition_fields db' t.id none t.status "added via file sync").2.2.2, htr]
        simp [expectedTransition]
    · simp only [runDiffs] at h ⊢
      cases hu : upsert db ft now with
      | error e => rw [hu] at h; exact absurd h (by simp)
      | ok db' =>
        rw [hu] at h
        dsimp only at h ⊢
        obtain ⟨_, htr, _, _⟩ := upsert_projects db ft now db' hu
        by_cases hst : dt.status = ft.status
        · simp only [if_pos hst] at h ⊢
          rw [ih _ h, htr]
          simp [expectedTransition, hst]
        · simp only [if_neg hst] at h ⊢
          rw [ih _ h]
          rw [(addTransition_fields db' ft.id (some dt.status) ft.status
            ("file sync: " ++ String.intercalate ", " changes)).2.2.2, htr]
          simp [expectedTransition, hst]
    · simp only [runDiffs] at h ⊢
      rw [ih _ h]
      simp [expectedTransition]

/-- Every diff produced by `diffTasks` targets a file-side id. -/
theorem diffTasks_target_ids (F D : List Task) :
    ∀ d ∈ diffTasks F D, ∀ x, diffTaskId d = some x → x ∈ F.map Task.id := by
  intro d hd x hdx
  unfold diffTasks at hd
  rw [List.mem_append] at hd
  rcases hd with hd | hd
  · obtain ⟨e, he, hfe⟩ := List.mem_filterMap.mp hd
    have hP : e.2.id = e.1 ∧ e.1 ∈ F.map Task.id := by
      refine mapOf_entry_prop (fun e => e.2.id = e.1 ∧ e.1 ∈ F.map Task.id) _ ?_ e he
      intro e' he'
      obtain ⟨t, ht, hte⟩ := List.mem_map.mp he'
      refine ⟨by rw [← hte], by rw [← hte]; exact List.mem_map_of_mem Task.id ht⟩
    rcases hm : mapGet (mapOf (D.map (fun t => (t.id, t)))) e.1 with _ | dt
    · rw [hm] at hfe
      simp only [Option.some.injEq] at hfe
      rw [← hfe] at hdx
      simp only [diffTaskId, Option.some.injEq] at hdx
      rw [← hdx, hP.1]
      exact hP.2
    · rw [hm] at hfe
      dsimp only at hfe
      by_cases hc : (changesOf e.2 dt).isEmpty
      · rw [if_pos hc] at hfe; cases hfe
      · rw [if_neg hc] at hfe
        simp only [Option.some.injEq] at hfe
        rw [← hfe] at hdx
        simp only [diffTaskId, Option.some.injEq] at hdx
        rw [← hdx, hP.1]
        exact hP.2
  · obtain ⟨e, _, hfe⟩ := List.mem_filterMap.mp hd
    by_cases hc : hasKey (mapOf (F.map (fun t => (t.id, t)))) e.1
    · rw [if_pos hc] at hfe; cases hfe
    · rw [if_neg hc] at hfe
      simp only [Option.some.injEq] at hfe
      rw [← hfe] at hdx
      simp [diffTaskId] at hdx

/-- The apply direction only rewrites the sync fingerprints on the
singleton; the task rows it produces are those of the inner apply loop. -/
theorem syncFilesToDb_tasks (F : List Task) (db : Db) (now : String) :
    (syncFilesToDb F db now).1.tasks =
      (runDiffs now (diffTasks F (dbRecords (autoCreateProjects F db)))
        (autoCreateProjects F db)).1.tasks := by
  dsimp only [syncFilesToDb]
  cases hrun : runDiffs now (diffTasks F (dbRecords (autoCreateProjects F db)))
      (autoCreateProjects F db) with
  | mk db' ex =>
    cases ex with
    | error e => rfl
    | ok u => cases u; rfl

/-- Claim C7: a record present in the store but absent from the text files
is never deleted and none of its fields are modified by a text→store apply
(whether or not the apply succeeds): the row set carrying its id is exactly
the same before and after. -/
theorem dbOnly_rows_untouched (F : List Task) (db : Db) (now : String) (x : String)
    (hx : x ∉ F.map Task.id) :
    (syncFilesToDb F db now).1.tasks.filter (fun r => r.id = x) =
      db.tasks.filter (fun r => r.id = x) := by
  rw [syncFilesToDb_tasks]
  have htargets : ∀ d ∈ diffTasks F (dbRecords (autoCreateProjects F db)),
      diffTaskId d ≠ some x := by
    intro d hd heq
    exact hx (diffTasks_target_ids F _ d hd x heq)
  rw [runDiffs_filter_frame now _ _ x htargets]
  rfl

/-- Claim C7 witness: a store row `q-001` absent from the parsed text is
bit-for-bit preserved by a concrete apply. -/
theorem dbOnly_rows_untouched_witness :
    ("q-001" ∉ ([⟨"p-001", "p", "A", "backlog", "P2", none, none, "s"⟩] : List Task).map Task.id) ∧
    (syncFilesToDb [⟨"p-001", "p", "A", "backlog", "P2", none, none, "s"⟩]
        ⟨["p", "q"],
         [⟨"q-001", "q", "Old", "done", "P1", some "m", some "n", "s", "t0", "t0"⟩],
         [], ⟨none, none, none, none, none, none⟩⟩ "t1").1.tasks.filter
        (fun r => r.id = "q-001") =
      ([⟨"q-001", "q", "Old", "done", "P1", some "m", some "n", "s", "t0", "t0"⟩] :
        List DbTask).filter (fun r => r.id = "q-001") :=
  ⟨by decide,
   dbOnly_rows_untouched [⟨"p-001", "p", "A", "backlog", "P2", none, none, "s"⟩]
     ⟨["p", "q"],
      [⟨"q-001", "q", "Old", "done", "P1", some "m", some "n", "s", "t0", "t0"⟩],
      [], ⟨none, none, none, none, none, none⟩⟩ "t1" "q-001" (by decide)⟩

/-- Claim C8: a successful text→store apply appends exactly one transition
per added record (absent previous status, new status = the record's status)
and one per changed record whose status differs from the stored value (with
matching from/to), in diff order, and nothing else. -/
theorem transitions_audit (F : List Task) (db : Db) (now : String)
    (h : (syncFilesToDb F db now).2 = Except.ok ()) :
    (syncFilesToDb F db now).1.transitions =
      db.transitions ++ (diffTasks F (dbRecords db)).filterMap expectedTransition := by
  dsimp only [syncFilesToDb] at h ⊢
  cases hrun : runDiffs now (diffTasks F (dbRecords (autoCreateProjects F db)))
      (autoCreateProjects F db) with
  | mk db' ex =>
    cases ex with
    | error e => rw [hrun] at h; exact Except.noConfusion h
    | ok u =>
      cases u
      dsimp only
      have hok : (runDiffs now (diffTasks F (dbRecords (autoCreateProjects F db)))
          (autoCreateProjects F db)).2 = Except.ok () := by rw [hrun]
      have := runDiffs_transitions now
        (diffTasks F (dbRecords (autoCreateProjects F db))) (autoCreateProjects F db) hok
      rw [hrun] at this
      exact this

/-- Claim C8 witness: the §8 audit scenario — a stored `backlog` task moved
to `in_progress` by one apply and to `done` by a second yields exactly the
two transitions, in order, with matching from/to pairs. -/
theorem transitions_audit_witness :
    (syncFilesToDb [⟨"p-001", "p", "T", "done", "P2", none, none, "s"⟩]
        (syncFilesToDb [⟨"p-001", "p", "T", "in_progress", "P2", none, none, "s"⟩]
          ⟨["p"], [⟨"p-001", "p", "T", "backlog", "P2", none, none, "s", "t0", "t0"⟩],
           [], ⟨none, none, none, none, none, none⟩⟩ "t1").1 "t2").2 = Except.ok () ∧
    (syncFilesToDb [⟨"p-001", "p", "T", "done", "P2", none, none, "s"⟩]
        (syncFilesToDb [⟨"p-001", "p", "T", "in_progress", "P2", none, none, "s"⟩]
          ⟨["p"], [⟨"p-001", "p", "T", "backlog", "P2", none, none, "s", "t0", "t0"⟩],
           [], ⟨none, none, none, none, none, none⟩⟩ "t1").1 "t2").1.transitions =
      [⟨"p-001", some "backlog", "in_progress",
        some "file sync: status: backlog → in_progress", "sync"⟩,
       ⟨"p-001", some "in_progress", "done",
        some "file sync: status: in_progress → done", "sync"⟩] := by
  refine ⟨by decide, ?_⟩
  rw [transitions_audit _ _ _ (by decide)]
  rw [transitions_audit _ _ _ (by decide)]
  decide

/-! ### Sorting and keyed-search lemmas -/

theorem ordInsert_perm {α} (le : α → α → Bool) (a : α) (l : List α) :
    (ordInsert le a l).Perm (a :: l) := by
  induction l with
  | nil => exact List.Perm.refl _
  | cons b l ih =>
    unfold ordInsert
    split
    · exact List.Perm.refl _
    · exact ((ih.cons b).trans (List.Perm.swap a b l))

theorem sortBy_perm {α} (le : α → α → Bool) (l : List α) : (sortBy le l).Perm l := by
  induction l with
  | nil => exact List.Perm.refl _
  | cons a l ih =>
    unfold sortBy
    exact (ordInsert_perm le a (sortBy le l)).trans (ih.cons a)

theorem find_by_key_unique {β} (key : β → String) (l : List β) (x : String) (t : β)
    (hn : (l.map key).Nodup) (ht : t ∈ l) (hx : key t = x) :
    l.find? (fun r => key r = x) = some t := by
  induction l with
  | nil => cases ht
  | cons a l ih =>
    have hn' := List.nodup_cons.mp (show (key a :: l.map key).Nodup from hn)
    simp only [List.find?_cons]
    rcases List.mem_cons.mp ht with rfl | hmem
    · rw [decide_eq_true hx]
    · by_cases ha : key a = x
      · exfalso
        exact hn'.1 (by
          rw [ha, ← hx]
          exact List.mem_map_of_mem key hmem)
      · rw [decide_eq_false ha]
        exact ih hn'.2 hmem

theorem find_by_key_none {β} (key : β → String) (l : List β) (x : String) :
    l.find? (fun r => key r = x) = none ↔ x ∉ l.map key := by
  rw [List.find?_eq_none]
  constructor
  · intro h hmem
    obtain ⟨a, ha, hax⟩ := List.mem_map.mp hmem
    exact absurd (decide_eq_true hax) (by simpa using h a ha)
  · intro h a ha
    simp only [decide_eq_true_eq]
    intro hax
    exact h (hax ▸ List.mem_map_of_mem key ha)

theorem dbRecords_ids_perm (db : Db) :
    ((dbRecords db).map Task.id).Perm (db.tasks.map DbTask.id) := by
  unfold dbRecords sortById
  have h1 : ((sortBy (fun a b => idLeB a.id b.id) (db.tasks.map DbTask.toRec)).map Task.id).Perm
      ((db.tasks.map DbTask.toRec).map Task.id) :=
    (sortBy_perm (fun a b => idLeB a.id b.id) (db.tasks.map DbTask.toRec)).map Task.id
  refine h1.trans ?_
  rw [List.map_map]
  exact List.Perm.refl _

theorem dbRecords_nodup (db : Db) (hn : (db.tasks.map DbTask.id).Nodup) :
    ((dbRecords db).map Task.id).Nodup :=
  (dbRecords_ids_perm db).nodup_iff.mpr hn

theorem mem_dbRecords (db : Db) (rec : Task) :
    rec ∈ dbRecords db ↔ ∃ row ∈ db.tasks, row.toRec = rec := by
  unfold dbRecords sortById
  rw [(sortBy_perm (fun a b => idLeB a.id b.id) (db.tasks.map DbTask.toRec)).mem_iff,
    List.mem_map]

/-- A `findRow` hit on unique ids transfers to the record projection. -/
theorem dbRecords_find_of_findRow (db : Db) (x : String) (row : DbTask)
    (hn : (db.tasks.map DbTask.id).Nodup) (h : findRow db.tasks x = some row) :
    (dbRecords db).find? (fun t => t.id = x) = some row.toRec := by
  have hmem : row ∈ db.tasks := List.mem_of_find?_eq_some h
  have hid : row.id = x := by simpa using List.find?_some h
  refine find_by_key_unique Task.id (dbRecords db) x row.toRec
    (dbRecords_nodup db hn) ((mem_dbRecords db row.toRec).mpr ⟨row, hmem, rfl⟩) hid

theorem dbRecords_find_none (db : Db) (x : String)
    (h : findRow db.tasks x = none) :
    (dbRecords db).find? (fun t => t.id = x) = none := by
  rw [find_by_key_none Task.id]
  intro hmem
  obtain ⟨rec, hrec, hrecid⟩ := List.mem_map.mp hmem
  obtain ⟨row, hrow, hrowrec⟩ := (mem_dbRecords db rec).mp hrec
  have : row.id = x := by rw [← hrecid, ← hrowrec]; rfl
  have hnone := (find_by_key_none DbTask.id db.tasks x).mp h
  exact hnone (this ▸ List.mem_map_of_mem DbTask.id hrow)

/-! ### Apply-loop composition lemmas -/

theorem runDiffs_append (now : String) (ds1 ds2 : List Diff) (db : Db) :
    runDiffs now (ds1 ++ ds2) db =
      match runDiffs now ds1 db with
      | (db', Except.ok _) => runDiffs now ds2 db'
      | (db', Except.error e) => (db', Except.error e) := by
  induction ds1 generalizing db with
  | nil => simp [runDiffs]
  | cons d ds1 ih =>
    rcases d with ⟨i, t⟩ | ⟨i, changes, ft, dt⟩ | ⟨i, t⟩
    · simp only [List.cons_append, runDiffs]
      cases upsert db t now with
      | error e => rfl
      | ok db' => exact ih _
    · simp only [List.cons_append, runDiffs]
      cases upsert db ft now with
      | error e => rfl
      | ok db' =>
        by_cases hst : dt.status = ft.status
        · simp only [if_pos hst]; exact ih _
        · simp only [if_neg hst]; exact ih _
    · simp only [List.cons_append, runDiffs]
      exact ih _

theorem runDiffs_dbOnly_noop (now : String) (ds : List Diff) (db : Db)
    (h : ∀ d ∈ ds, ∃ i t, d = Diff.db_only i t) :
    runDiffs now ds db = (db, Except.ok ()) := by
  induction ds with
  | nil => rfl
  | cons d ds ih =>
    obtain ⟨i, t, rfl⟩ := h d (by simp)
    simp only [runDiffs]
    exact ih (fun d hd => h d (by simp [hd]))

theorem diffRight_shape (F : List Task) (dt : Task) (d : Diff)
    (h : diffRight F dt = some d) : ∃ i t, d = Diff.db_only i t := by
  unfold diffRight at h
  split at h
  · cases h
  · exact ⟨dt.id, dt, by cases h; rfl⟩

theorem diffLeft_none (D : List Task) (ft : Task) (h : diffLeft D ft = none) :
    ∃ dt, D.find? (fun t => t.id = ft.id) = some dt ∧ changesOf ft dt = [] := by
  unfold diffLeft at h
  cases hf : D.find? (fun t => t.id = ft.id) with
  | none => rw [hf] at h; cases h
  | some dt =>
    rw [hf] at h
    dsimp only at h
    by_cases hc : (changesOf ft dt).isEmpty
    · exact ⟨dt, rfl, by simpa using hc⟩
    · rw [if_neg hc] at h; cases h

theorem diffLeft_some (D : List Task) (ft : Task) (d : Diff) (h : diffLeft D ft = some d) :
    (D.find? (fun t => t.id = ft.id) = none ∧ d = Diff.file_only ft.id ft) ∨
    (∃ dt, D.find? (fun t => t.id = ft.id) = some dt ∧ (changesOf ft dt).isEmpty = false ∧
      d = Diff.changed ft.id (changesOf ft dt) ft dt) := by
  unfold diffLeft at h
  cases hf : D.find? (fun t => t.id = ft.id) with
  | none =>
    rw [hf] at h
    exact Or.inl ⟨rfl, by cases h; rfl⟩
  | some dt =>
    rw [hf] at h
    dsimp only at h
    by_cases hc : (changesOf ft dt).isEmpty
    · rw [if_pos hc] at h; cases h
    · rw [if_neg hc] at h
      exact Or.inr ⟨dt, rfl, by simpa using hc, by cases h; rfl⟩

/-- A record hits the same stored row through `dbRecords` as through
`findRow`, and a successful apply of the file-driven diffs establishes, for
every file record, a stored row that is diff-equal to it, while leaving all
other rows (and the id uniqueness invariant) intact. -/
theorem runDiffs_establish (now : String) (db0 : Db)
    (hn0 : (db0.tasks.map DbTask.id).Nodup) :
    ∀ (F1 : List Task) (dbCur : Db),
      (F1.map Task.id).Nodup →
      ((dbCur.tasks.map DbTask.id).Nodup) →
      ((runDiffs now (F1.filterMap (diffLeft (dbRecords db0))) dbCur).2 = Except.ok ()) →
      (∀ ft ∈ F1, findRow dbCur.tasks ft.id = findRow db0.tasks ft.id) →
      (∀ ft ∈ F1, ∃ row,
          findRow (runDiffs now (F1.filterMap (diffLeft (dbRecords db0))) dbCur).1.tasks ft.id
            = some row ∧ changesOf ft row.toRec = []) ∧
      (∀ x, x ∉ F1.map Task.id →
          findRow (runDiffs now (F1.filterMap (diffLeft (dbRecords db0))) dbCur).1.tasks x
            = findRow dbCur.tasks x) ∧
      (((runDiffs now (F1.filterMap (diffLeft (dbRecords db0))) dbCur).1.tasks.map
          DbTask.id).Nodup) := by
  intro F1
  induction F1 with
  | nil =>
    intro dbCur _ hnCur _ _
    exact ⟨fun ft hft => absurd hft (List.not_mem_nil ft), fun x _ => rfl, hnCur⟩
  | cons ft F1' ih =>
    intro dbCur hnF hnCur hok hframe
    have hnF' : (F1'.map Task.id).Nodup :=
      (List.nodup_cons.mp (show (ft.id :: F1'.map Task.id).Nodup from hnF)).2
    have hftid : ft.id ∉ F1'.map Task.id :=
      (List.nodup_cons.mp (show (ft.id :: F1'.map Task.id).Nodup from hnF)).1
    cases hd : diffLeft (dbRecords db0) ft with
    | none =>
      obtain ⟨dt0, hf0, hch⟩ := diffLeft_none (dbRecords db0) ft hd
      have hds : (ft :: F1').filterMap (diffLeft (dbRecords db0)) =
          F1'.filterMap (diffLeft (dbRecords db0)) := by
        rw [List.filterMap_cons, hd]
      rw [hds] at hok ⊢
      have hframe' : ∀ ft' ∈ F1', findRow dbCur.tasks ft'.id = findRow db0.tasks ft'.id :=
        fun ft' hmem => hframe ft' (by simp [hmem])
      obtain ⟨h1, h2, h3⟩ := ih dbCur hnF' hnCur hok hframe'
      refine ⟨?_, ?_, h3⟩
      · intro ft' hmem
        rcases List.mem_cons.mp hmem with rfl | hmem'
        · -- the unchanged stored row satisfies the diff
          obtain ⟨row0, hrow0mem, hrow0rec⟩ := (mem_dbRecords db0 dt0).mp
            (List.mem_of_find?_eq_some hf0)
          have hdt0id : dt0.id = ft'.id := by simpa using List.find?_some hf0
          have hrow0id : row0.id = ft'.id := by
            rw [← hdt0id, ← hrow0rec]; rfl
          have hfindrow : findRow db0.tasks ft'.id = some row0 :=
            find_by_key_unique DbTask.id db0.tasks ft'.id row0 hn0 hrow0mem hrow0id
          refine ⟨row0, ?_, by rw [hrow0rec]; exact hch⟩
          rw [h2 ft'.id hftid, hframe ft' (by simp), hfindrow]
        · exact h1 ft' hmem'
      · intro x hx
        exact h2 x (by
          intro hmem
          exact hx (by simp [hmem]))
    | some d =>
      have hds : (ft :: F1').filterMap (diffLeft (dbRecords db0)) =
          d :: F1'.filterMap (diffLeft (dbRecords db0)) := by
        rw [List.filterMap_cons, hd]
      rw [hds] at hok ⊢
      rcases diffLeft_some (dbRecords db0) ft d hd with ⟨hf0, rfl⟩ | ⟨dt0, hf0, hc0, rfl⟩
      · -- added record: fresh insert
        have hnone : findRow db0.tasks ft.id = none := by
          cases hcur : findRow db0.tasks ft.id with
          | none => rfl
          | some r =>
            exact absurd (dbRecords_find_of_findRow db0 ft.id r hn0 hcur) (by rw [hf0]; simp)
        have hcurnone : findRow dbCur.tasks ft.id = none := by
          rw [hframe ft (by simp), hnone]
        simp only [runDiffs] at hok ⊢
        cases hu : upsert dbCur ft now with
        | error e => rw [hu] at hok; exact Except.noConfusion hok
        | ok db' =>
          rw [hu] at hok
          dsimp only at hok ⊢
          obtain ⟨_, _, _, htasks⟩ := upsert_projects dbCur ft now db' hu
          set dbNext := addTransition db' ft.id none ft.status "added via file sync" with hdbNext
          have hNextTasks : dbNext.tasks = upsertRows dbCur.tasks ft now := by
            rw [hdbNext, (addTransition_fields db' ft.id none ft.status _).1, htasks]
          have hNextNodup : (dbNext.tasks.map DbTask.id).Nodup := by
            rw [hNextTasks]; exact upsertRows_nodup dbCur.tasks ft now hnCur
          have hframe' : ∀ ft' ∈ F1', findRow dbNext.tasks ft'.id = findRow db0.tasks ft'.id := by
            intro ft' hmem
            have hne : ft'.id ≠ ft.id := by
              intro he
              exact hftid (he ▸ List.mem_map_of_mem Task.id hmem)
            rw [hNextTasks, upsertRows_findRow_frame dbCur.tasks ft now ft'.id hne]
            exact hframe ft' (by simp [hmem])
          obtain ⟨h1, h2, h3⟩ := ih dbNext hnF' hNextNodup hok hframe'
          refine ⟨?_, ?_, h3⟩
          · intro ft' hmem
            rcases List.mem_cons.mp hmem with rfl | hmem'
            · refine ⟨newRow ft' now, ?_, ?_⟩
              · rw [h2 ft'.id hftid, hNextTasks,
                  upsertRows_findRow_hit_insert dbCur.tasks ft' now hcurnone]
              · exact changesOf_self ft' (newRow ft' now).toRec rfl rfl rfl rfl
            · exact h1 ft' hmem'
          · intro x hx
            have hxne : x ≠ ft.id := fun he => hx (by simp [he])
            rw [h2 x (fun hmem => hx (by simp [hmem])), hNextTasks,
              upsertRows_findRow_frame dbCur.tasks ft now x hxne]
      · -- changed record: conflict update
        obtain ⟨row0, hrow0mem, hrow0rec⟩ := (mem_dbRecords db0 dt0).mp
          (List.mem_of_find?_eq_some hf0)
        have hdt0id : dt0.id = ft.id := by simpa using List.find?_some hf0
        have hrow0id : row0.id = ft.id := by rw [← hdt0id, ← hrow0rec]; rfl
        have hfindrow : findRow db0.tasks ft.id = some row0 :=
          find_by_key_unique DbTask.id db0.tasks ft.id row0 hn0 hrow0mem hrow0id
        have hcurhit : findRow dbCur.tasks ft.id = some row0 := by
          rw [hframe ft (by simp), hfindrow]
        simp only [runDiffs] at hok ⊢
        cases hu : upsert dbCur ft now with
        | error e => rw [hu] at hok; exact Except.noConfusion hok
        | ok db' =>
          rw [hu] at hok
          dsimp only at hok ⊢
          obtain ⟨_, _, _, htasks⟩ := upsert_projects dbCur ft now db' hu
          have hcore : ∀ dbNext : Db, dbNext.tasks = upsertRows dbCur.tasks ft now →
              ((runDiffs now (F1'.filterMap (diffLeft (dbRecords db0))) dbNext).2 =
                Except.ok ()) →
              (∀ ft' ∈ ft :: F1', ∃ row,
                findRow (runDiffs now (F1'.filterMap (diffLeft (dbRecords db0)))
                  dbNext).1.tasks ft'.id = some row ∧ changesOf ft' row.toRec = []) ∧
              (∀ x, x ∉ (ft :: F1').map Task.id →
                findRow (runDiffs now (F1'.filterMap (diffLeft (dbRecords db0)))
                  dbNext).1.tasks x = findRow dbCur.tasks x) ∧
              (((runDiffs now (F1'.filterMap (diffLeft (dbRecords db0)))
                  dbNext).1.tasks.map DbTask.id).Nodup) := by
            intro dbNext hNextTasks hok'
            have hNextNodup : (dbNext.tasks.map DbTask.id).Nodup := by
              rw [hNextTasks]; exact upsertRows_nodup dbCur.tasks ft now hnCur
            have hframe' : ∀ ft' ∈ F1',
                findRow dbNext.tasks ft'.id = findRow db0.tasks ft'.id := by
              intro ft' hmem
              have hne : ft'.id ≠ ft.id := by
                intro he
                exact hftid (he ▸ List.mem_map_of_mem Task.id hmem)
              rw [hNextTasks, upsertRows_findRow_frame dbCur.tasks ft now ft'.id hne]
              exact hframe ft' (by simp [hmem])
            obtain ⟨h1, h2, h3⟩ := ih dbNext hnF' hNextNodup hok' hframe'
            refine ⟨?_, ?_, h3⟩
            · intro ft' hmem
              rcases List.mem_cons.mp hmem with rfl | hmem'
              · refine ⟨updateRow row0 ft' now, ?_, ?_⟩
                · rw [h2 ft'.id hftid, hNextTasks,
                    upsertRows_findRow_hit_update dbCur.tasks ft' now row0 hcurhit]
                · exact changesOf_self ft' (updateRow row0 ft' now).toRec rfl rfl rfl rfl
              · exact h1 ft' hmem'
            · intro x hx
              have hxne : x ≠ ft.id := fun he => hx (by simp [he])
              rw [h2 x (fun hmem => hx (by simp [hmem])), hNextTasks,
                upsertRows_findRow_frame dbCur.tasks ft now x hxne]
          by_cases hst : dt0.status = ft.status
          · rw [if_pos hst] at hok ⊢
            exact hcore db' htasks hok
          · rw [if_neg hst] at hok ⊢
            refine hcore (addTransition db' ft.id (some dt0.status) ft.status
              ("file sync: " ++ String.intercalate ", " (changesOf ft dt0))) ?_ hok
            rw [(addTransition_fields db' ft.id (some dt0.status) ft.status _).1, htasks]

theorem projFold_mono (F : List Task) :
    ∀ (ps : List String) (x : String), ps.contains x = true →
      (F.foldl (fun ps t => if ps.contains t.project_id then ps else ps ++ [t.project_id])
        ps).contains x = true := by
  induction F with
  | nil => intro ps x h; exact h
  | cons t F ih =>
    intro ps x h
    simp only [List.foldl_cons]
    by_cases hc : ps.contains t.project_id
    · rw [if_pos hc]; exact ih ps x h
    · rw [if_neg hc]
      refine ih _ x ?_
      have : x ∈ ps ++ [t.project_id] :=
        List.mem_append.mpr (Or.inl (List.mem_of_elem_eq_true h))
      exact List.elem_eq_true_of_mem this

theorem projFold_contains (F : List Task) :
    ∀ (ps : List String), ∀ t ∈ F,
      (F.foldl (fun ps t => if ps.contains t.project_id then ps else ps ++ [t.project_id])
        ps).contains t.project_id = true := by
  induction F with
  | nil => intro ps t ht; cases ht
  | cons t0 F ih =>
    intro ps t ht
    simp only [List.foldl_cons]
    rcases List.mem_cons.mp ht with rfl | hmem
    · by_cases hc : ps.contains t.project_id
      · rw [if_pos hc]; exact projFold_mono F ps t.project_id hc
      · rw [if_neg hc]
        exact projFold_mono F _ t.project_id
          (List.elem_eq_true_of_mem (List.mem_append.mpr (Or.inr (by simp))))
    · by_cases hc : ps.contains t0.project_id
      · rw [if_pos hc]; exact ih ps t hmem
      · rw [if_neg hc]; exact ih _ t hmem

theorem autoCreate_contains (F : List Task) (db : Db) :
    ∀ t ∈ F, (autoCreateProjects F db).projects.contains t.project_id = true := by
  intro t ht
  exact projFold_contains F db.projects t ht

theorem autoCreate_eq_of_contains (F : List Task) (db : Db)
    (h : ∀ t ∈ F, db.projects.contains t.project_id = true) :
    autoCreateProjects F db = db := by
  unfold autoCreateProjects
  have hfold : F.foldl
      (fun ps t => if ps.contains t.project_id then ps else ps ++ [t.project_id])
      db.projects = db.projects := by
    have hgen : ∀ (G : List Task), (∀ t ∈ G, db.projects.contains t.project_id = true) →
        G.foldl (fun ps t => if ps.contains t.project_id then ps else ps ++ [t.project_id])
          db.projects = db.projects := by
      intro G
      induction G with
      | nil => intro _; rfl
      | cons t G ih =>
        intro hG
        simp only [List.foldl_cons]
        rw [if_pos (hG t (by simp))]
        exact ih (fun t' ht' => hG t' (by simp [ht']))
    exact hgen F h
  rw [hfold]

theorem syncFilesToDb_ok_destruct (F : List Task) (db : Db) (now : String)
    (h : (syncFilesToDb F db now).2 = Except.ok ()) :
    (runDiffs now (diffTasks F (dbRecords (autoCreateProjects F db)))
      (autoCreateProjects F db)).2 = Except.ok () ∧
    (syncFilesToDb F db now).1 =
      { (runDiffs now (diffTasks F (dbRecords (autoCreateProjects F db)))
          (autoCreateProjects F db)).1 with
        sync := { (runDiffs now (diffTasks F (dbRecords (autoCreateProjects F db)))
            (autoCreateProjects F db)).1.sync with
          files_hash := some (hashTasks F),
          db_hash := some (hashTasks (dbRecords
            (runDiffs now (diffTasks F (dbRecords (autoCreateProjects F db)))
              (autoCreateProjects F db)).1)) } } := by
  dsimp only [syncFilesToDb] at h ⊢
  cases hrun : runDiffs now (diffTasks F (dbRecords (autoCreateProjects F db)))
      (autoCreateProjects F db) with
  | mk dbR ex =>
    cases ex with
    | error e => rw [hrun] at h; exact Except.noConfusion h
    | ok u => cases u; exact ⟨rfl, rfl⟩

/-- The second run of the apply direction over an already-synchronized
store: every remaining diff is db-only, the apply loop is a no-op, and the
rewritten fingerprints coincide with the stored ones. -/
theorem syncFilesToDb_second_run (F : List Task) (db1 : Db) (now2 : String)
    (hF : (F.map Task.id).Nodup)
    (hn1 : (db1.tasks.map DbTask.id).Nodup)
    (hproj : ∀ t ∈ F, db1.projects.contains t.project_id = true)
    (hrows : ∀ ft ∈ F, ∃ row, findRow db1.tasks ft.id = some row ∧ changesOf ft row.toRec = [])
    (hsyncF : db1.sync.files_hash = some (hashTasks F))
    (hsyncD : db1.sync.db_hash = some (hashTasks (dbRecords db1))) :
    (∀ d ∈ diffTasks F (dbRecords db1), ∃ i t, d = Diff.db_only i t) ∧
    syncFilesToDb F db1 now2 = (db1, Except.ok ()) := by
  have hauto : autoCreateProjects F db1 = db1 := autoCreate_eq_of_contains F db1 hproj
  have hpart1 : F.filterMap (diffLeft (dbRecords db1)) = [] := by
    rw [List.filterMap_eq_nil_iff]
    intro ft hft
    obtain ⟨row, hfind, hch⟩ := hrows ft hft
    unfold diffLeft
    rw [dbRecords_find_of_findRow db1 ft.id row hn1 hfind]
    dsimp only
    rw [if_pos (by rw [hch]; rfl)]
  have hdiff : diffTasks F (dbRecords db1) =
      (dbRecords db1).filterMap (diffRight F) := by
    rw [diffTasks_eq_of_nodup F (dbRecords db1) hF (dbRecords_nodup db1 hn1), hpart1,
      List.nil_append]
  have hshape : ∀ d ∈ diffTasks F (dbRecords db1), ∃ i t, d = Diff.db_only i t := by
    intro d hd
    rw [hdiff] at hd
    obtain ⟨dt, _, hdt⟩ := List.mem_filterMap.mp hd
    exact diffRight_shape F dt d hdt
  refine ⟨hshape, ?_⟩
  have hnoop : runDiffs now2 (diffTasks F (dbRecords db1)) db1 = (db1, Except.ok ()) :=
    runDiffs_dbOnly_noop now2 _ db1 hshape
  dsimp only [syncFilesToDb]
  rw [hauto, hnoop]
  dsimp only
  rw [← hsyncF, ← hsyncD]

/-- Claim C5: applying text→store twice with no intervening text edit is
idempotent.  After a successful first apply, every diff of the second run
is db-only (so the second run issues no upsert and no transition), the
second run returns the store bit-for-bit unchanged — every task row
including its `updated_at`, the transition log, the projects table and the
singleton (so the before/after fingerprints of the second run coincide). -/
theorem filesToDb_idempotent (F : List Task) (db : Db) (now1 now2 : String)
    (hF : (F.map Task.id).Nodup)
    (hrows : (db.tasks.map DbTask.id).Nodup)
    (h1 : (syncFilesToDb F db now1).2 = Except.ok ()) :
    (∀ d ∈ diffTasks F (dbRecords (syncFilesToDb F db now1).1), ∃ i t, d = Diff.db_only i t) ∧
    syncFilesToDb F (syncFilesToDb F db now1).1 now2 =
      ((syncFilesToDb F db now1).1, Except.ok ()) := by
  obtain ⟨hrunOk, hdb1⟩ := syncFilesToDb_ok_destruct F db now1 h1
  have hn0' : ((autoCreateProjects F db).tasks.map DbTask.id).Nodup := hrows
  have hdiff1 : diffTasks F (dbRecords (autoCreateProjects F db)) =
      F.filterMap (diffLeft (dbRecords (autoCreateProjects F db))) ++
        (dbRecords (autoCreateProjects F db)).filterMap (diffRight F) :=
    diffTasks_eq_of_nodup F _ hF (dbRecords_nodup _ hn0')
  -- split the first run into the file-driven part and the db-only tail
  rw [hdiff1] at hrunOk hdb1
  rw [runDiffs_append] at hrunOk hdb1
  cases hres : runDiffs now1
      (F.filterMap (diffLeft (dbRecords (autoCreateProjects F db))))
      (autoCreateProjects F db) with
  | mk dbA exA =>
    rw [hres] at hrunOk hdb1
    cases exA with
    | error e => exact absurd hrunOk (by simp)
    | ok u =>
      cases u
      dsimp only at hrunOk hdb1
      have hshape2 : ∀ d ∈ (dbRecords (autoCreateProjects F db)).filterMap (diffRight F),
          ∃ i t, d = Diff.db_only i t := by
        intro d hd
        obtain ⟨dt, _, hdt⟩ := List.mem_filterMap.mp hd
        exact diffRight_shape F dt d hdt
      rw [runDiffs_dbOnly_noop now1 _ dbA hshape2] at hrunOk hdb1
      -- first-run row analysis
      have hpart1ok : (runDiffs now1
          (F.filterMap (diffLeft (dbRecords (autoCreateProjects F db))))
          (autoCreateProjects F db)).2 = Except.ok () := by rw [hres]
      obtain ⟨hEst, hFr, hNodup⟩ := runDiffs_establish now1 (autoCreateProjects F db) hn0'
        F (autoCreateProjects F db) hF hn0' hpart1ok (fun _ _ => rfl)
      rw [hres] at hEst hFr hNodup
      -- hypotheses of the second-run lemma for db1
      have hdbA_proj : dbA.projects = (autoCreateProjects F db).projects := by
        have := (runDiffs_frame now1
          (F.filterMap (diffLeft (dbRecords (autoCreateProjects F db))))
          (autoCreateProjects F db)).1
        rw [hres] at this
        exact this
      have hsyncF1 : (syncFilesToDb F db now1).1.sync.files_hash = some (hashTasks F) := by
        rw [hdb1]
      have hsyncD1 : (syncFilesToDb F db now1).1.sync.db_hash =
          some (hashTasks (dbRecords (syncFilesToDb F db now1).1)) := by
        rw [hdb1]; rfl
      have htasks1 : (syncFilesToDb F db now1).1.tasks = dbA.tasks := by rw [hdb1]
      have hn1 : ((syncFilesToDb F db now1).1.tasks.map DbTask.id).Nodup := by
        rw [htasks1]; exact hNodup
      have hproj1 : ∀ t ∈ F, (syncFilesToDb F db now1).1.projects.contains t.project_id
          = true := by
        intro t ht
        have : (syncFilesToDb F db now1).1.projects = dbA.projects := by rw [hdb1]
        rw [this, hdbA_proj]
        exact autoCreate_contains F db t ht
      have hrows1 : ∀ ft ∈ F, ∃ row,
          findRow (syncFilesToDb F db now1).1.tasks ft.id = some row ∧
            changesOf ft row.toRec = [] := by
        intro ft hft
        rw [htasks1]
        exact hEst ft hft
      exact syncFilesToDb_second_run F (syncFilesToDb F db now1).1 now2
        hF hn1 hproj1 hrows1 hsyncF1 hsyncD1

/-- Claim C5 witness: a concrete first apply (one added task, one changed
task) followed by a second apply that returns the store unchanged. -/
theorem filesToDb_idempotent_witness :
    (((([⟨"p-001", "p", "A", "in_progress", "P1", some "m", some "n", "s"⟩,
         ⟨"p-002", "p", "B", "backlog", "P2", none, none, "s"⟩] : List Task).map
        Task.id).Nodup) ∧
      ((([⟨"p-001", "p", "Old", "backlog", "P2", none, some "keep", "s", "t0", "t0"⟩] :
          List DbTask).map DbTask.id).Nodup) ∧
      (syncFilesToDb
        [⟨"p-001", "p", "A", "in_progress", "P1", some "m", some "n", "s"⟩,
         ⟨"p-002", "p", "B", "backlog", "P2", none, none, "s"⟩]
        ⟨["p"], [⟨"p-001", "p", "Old", "backlog", "P2", none, some "keep", "s", "t0", "t0"⟩],
         [], ⟨none, none, none, none, none, none⟩⟩ "t1").2 = Except.ok ()) ∧
    syncFilesToDb
        [⟨"p-001", "p", "A", "in_progress", "P1", some "m", some "n", "s"⟩,
         ⟨"p-002", "p", "B", "backlog", "P2", none, none, "s"⟩]
        (syncFilesToDb
          [⟨"p-001", "p", "A", "in_progress", "P1", some "m", some "n", "s"⟩,
           ⟨"p-002", "p", "B", "backlog", "P2", none, none, "s"⟩]
          ⟨["p"], [⟨"p-001", "p", "Old", "backlog", "P2", none, some "keep", "s", "t0", "t0"⟩],
           [], ⟨none, none, none, none, none, none⟩⟩ "t1").1 "t2" =
      ((syncFilesToDb
          [⟨"p-001", "p", "A", "in_progress", "P1", some "m", some "n", "s"⟩,
           ⟨"p-002", "p", "B", "backlog", "P2", none, none, "s"⟩]
          ⟨["p"], [⟨"p-001", "p", "Old", "backlog", "P2", none, some "keep", "s", "t0", "t0"⟩],
           [], ⟨none, none, none, none, none, none⟩⟩ "t1").1, Except.ok ()) :=
  ⟨⟨by decide, by decide, by decide⟩,
   (filesToDb_idempotent
     [⟨"p-001", "p", "A", "in_progress", "P1", some "m", some "n", "s"⟩,
      ⟨"p-002", "p", "B", "backlog", "P2", none, none, "s"⟩]
     ⟨["p"], [⟨"p-001", "p", "Old", "backlog", "P2", none, some "keep", "s", "t0", "t0"⟩],
      [], ⟨none, none, none, none, none, none⟩⟩ "t1" "t2"
     (by decide) (by decide) (by decide)).2⟩

/-- Claim C6 (amended): for a record upserted text→store onto an existing
row, the incoming note replaces the stored note exactly when it is present
(non-`NULL`): an absent incoming note preserves the stored note, while any
present incoming note — including the empty string, which the parser
produces from a whitespace-only note line — overwrites it. -/
theorem upsert_note_replacement (db : Db) (t : Task) (now : String) (r : DbTask)
    (hr : findRow db.tasks t.id = some r)
    (hv : rowValid db.projects t = true) :
    ∃ db', upsert db t now = Except.ok db' ∧
      (findRow db'.tasks t.id).map DbTask.notes =
        some (match t.notes with | some n => some n | none => r.notes) := by
  refine ⟨{ db with tasks := upsertRows db.tasks t now }, ?_, ?_⟩
  · unfold upsert
    rw [if_pos hv]
  · show (findRow (upsertRows db.tasks t now) t.id).map DbTask.notes = _
    rw [upsertRows_findRow_hit_update db.tasks t now r hr]
    rfl

/-- Claim C6 witness: a present-but-empty incoming note overwrites the
stored note "keep" with the empty string. -/
theorem upsert_note_replacement_witness :
    (findRow [⟨"a-001", "p", "T", "backlog", "P2", none, some "keep", "s", "t0", "t0"⟩]
        "a-001" =
      some ⟨"a-001", "p", "T", "backlog", "P2", none, some "keep", "s", "t0", "t0"⟩ ∧
     rowValid ["p"] ⟨"a-001", "p", "T", "backlog", "P1", none, some "", "s"⟩ = true) ∧
    (∃ db', upsert
        ⟨["p"], [⟨"a-001", "p", "T", "backlog", "P2", none, some "keep", "s", "t0", "t0"⟩],
         [], ⟨none, none, none, none, none, none⟩⟩
        ⟨"a-001", "p", "T", "backlog", "P1", none, some "", "s"⟩ "t1" = Except.ok db' ∧
      (findRow db'.tasks "a-001").map DbTask.notes = some (some "")) :=
  ⟨⟨by decide, by decide⟩,
   upsert_note_replacement
     ⟨["p"], [⟨"a-001", "p", "T", "backlog", "P2", none, some "keep", "s", "t0", "t0"⟩],
      [], ⟨none, none, none, none, none, none⟩⟩
     ⟨"a-001", "p", "T", "backlog", "P1", none, some "", "s"⟩ "t1"
     ⟨"a-001", "p", "T", "backlog", "P2", none, some "keep", "s", "t0", "t0"⟩
     (by decide) (by decide)⟩

/-! ### Lexicographic order facts and sorted-list uniqueness -/

theorem charToNat_inj (a b : Char) (h : a.toNat = b.toNat) : a = b := by
  have := congrArg Char.ofNat h
  rwa [Char.ofNat_toNat, Char.ofNat_toNat] at this

theorem strLtB_asymm : ∀ a b : List Char, strLtB a b = true → strLtB b a = false
  | [], [], h => by cases h
  | [], _ :: _, _ => rfl
  | _ :: _, [], h => by cases h
  | a :: as, b :: bs, h => by
    unfold strLtB at h ⊢
    by_cases h1 : a.toNat < b.toNat
    · rw [if_neg (by omega), if_pos h1]
    · rw [if_neg h1] at h
      by_cases h2 : b.toNat < a.toNat
      · rw [if_pos h2] at h; cases h
      · rw [if_neg h2] at h
        rw [if_neg h2, if_neg h1]
        exact strLtB_asymm as bs h

theorem strLtB_trans : ∀ a b c : List Char,
    strLtB a b = true → strLtB b c = true → strLtB a c = true
  | [], _, _ :: _, _, _ => rfl
  | [], _ :: _, [], _, h2 => by cases h2
  | [], [], [], h1, _ => by cases h1
  | _ :: _, [], _, h1, _ => by cases h1
  | a :: as, b :: bs, [], _, h2 => by cases h2
  | a :: as, b :: bs, c :: cs, h1, h2 => by
    unfold strLtB at h1 h2 ⊢
    by_cases hab : a.toNat < b.toNat
    · by_cases hbc : b.toNat < c.toNat
      · rw [if_pos (by omega)]
      · rw [if_neg hbc] at h2
        by_cases hcb : c.toNat < b.toNat
        · rw [if_pos hcb] at h2; cases h2
        · have : b.toNat = c.toNat := by omega
          rw [if_pos (by omega)]
    · rw [if_neg hab] at h1
      by_cases hba : b.toNat < a.toNat
      · rw [if_pos hba] at h1; cases h1
      · rw [if_neg hba] at h1
        have hab' : a.toNat = b.toNat := by omega
        by_cases hbc : b.toNat < c.toNat
        · rw [if_pos (by omega)]
        · rw [if_neg hbc] at h2
          by_cases hcb : c.toNat < b.toNat
          · rw [if_pos hcb] at h2; cases h2
          · rw [if_neg hcb] at h2
            rw [if_neg (by omega), if_neg (by omega)]
            exact strLtB_trans as bs cs h1 h2

theorem strLtB_trichotomy : ∀ a b : List Char,
    strLtB a b = true ∨ strLtB b a = true ∨ a = b
  | [], [] => Or.inr (Or.inr rfl)
  | [], _ :: _ => Or.inl rfl
  | _ :: _, [] => Or.inr (Or.inl rfl)
  | a :: as, b :: bs => by
    unfold strLtB
    by_cases hab : a.toNat < b.toNat
    · exact Or.inl (by rw [if_pos hab])
    · by_cases hba : b.toNat < a.toNat
      · exact Or.inr (Or.inl (by rw [if_pos hba]))
      · have hab' : a = b := charToNat_inj a b (by omega)
        subst hab'
        simp only [if_neg hab]
        rcases strLtB_trichotomy as bs with h | h | h
        · exact Or.inl h
        · exact Or.inr (Or.inl h)
        · exact Or.inr (Or.inr (by rw [h]))

theorem strLeB_total (a b : List Char) : strLeB a b = true ∨ strLeB b a = true := by
  unfold strLeB
  rcases strLtB_trichotomy a b with h | h | h
  · exact Or.inl (by rw [strLtB_asymm a b h]; rfl)
  · exact Or.inr (by rw [strLtB_asymm b a h]; rfl)
  · subst h
    rcases hs : strLtB a a with _ | _
    · exact Or.inl rfl
    · exact Bool.noConfusion ((strLtB_asymm a a hs).symm.trans hs)

theorem strLeB_trans (a b c : List Char)
    (h1 : strLeB a b = true) (h2 : strLeB b c = true) : strLeB a c = true := by
  unfold strLeB at h1 h2 ⊢
  rcases hs : strLtB c a with _ | _
  · rfl
  · exfalso
    rcases strLtB_trichotomy a b with hab | hab | hab
    · have : strLtB c b = true := strLtB_trans c a b hs hab
      rw [this] at h2; cases h2
    · rw [hab] at h1; cases h1
    · subst hab
      rw [hs] at h2; cases h2

theorem strLeB_antisymm (a b : List Char)
    (h1 : strLeB a b = true) (h2 : strLeB b a = true) : a = b := by
  unfold strLeB at h1 h2
  rcases strLtB_trichotomy a b with h | h | h
  · rw [h] at h2; cases h2
  · rw [h] at h1; cases h1
  · exact h

theorem mem_ordInsert {α} (le : α → α → Bool) (a x : α) (l : List α) :
    x ∈ ordInsert le a l ↔ x = a ∨ x ∈ l := by
  rw [(ordInsert_perm le a l).mem_iff]
  simp

theorem ordInsert_pairwise {α} (le : α → α → Bool)
    (htrans : ∀ a b c, le a b = true → le b c = true → le a c = true)
    (htotal : ∀ a b, le a b = true ∨ le b a = true) (a : α) :
    ∀ l : List α, l.Pairwise (fun x y => le x y = true) →
      (ordInsert le a l).Pairwise (fun x y => le x y = true) := by
  intro l
  induction l with
  | nil => intro _; simp [ordInsert]
  | cons b t ih =>
    intro hl
    have hbt := (List.pairwise_cons.mp hl).1
    have ht := (List.pairwise_cons.mp hl).2
    unfold ordInsert
    by_cases hab : le a b
    · rw [if_pos hab]
      refine List.pairwise_cons.mpr ⟨?_, hl⟩
      intro y hy
      rcases List.mem_cons.mp hy with rfl | hyt
      · exact hab
      · exact htrans a b y hab (hbt y hyt)
    · rw [if_neg hab]
      refine List.pairwise_cons.mpr ⟨?_, ih ht⟩
      intro y hy
      rcases (mem_ordInsert le a y t).mp hy with heq | hyt
      · subst heq
        rcases htotal y b with h | h
        · exact absurd h hab
        · exact h
      · exact hbt y hyt

theorem sortBy_pairwise {α} (le : α → α → Bool)
    (htrans : ∀ a b c, le a b = true → le b c = true → le a c = true)
    (htotal : ∀ a b, le a b = true ∨ le b a = true) (l : List α) :
    (sortBy le l).Pairwise (fun x y => le x y = true) := by
  induction l with
  | nil => simp [sortBy]
  | cons a l ih =>
    unfold sortBy
    exact ordInsert_pairwise le htrans htotal a (sortBy le l) ih

/-- Two sorted lists with pairwise-distinct keys that are permutations of
one another coincide. -/
theorem sorted_perm_eq_of_nodup_keys {β} (key : β → List Char) :
    ∀ (l1 l2 : List β), l1.Perm l2 → (l1.map key).Nodup →
      l1.Pairwise (fun x y => strLeB (key x) (key y) = true) →
      l2.Pairwise (fun x y => strLeB (key x) (key y) = true) →
      l1 = l2 := by
  intro l1
  induction l1 with
  | nil =>
    intro l2 hp _ _ _
    exact (hp.symm.eq_nil).symm
  | cons a t1 ih =>
    intro l2 hp hn hs1 hs2
    cases l2 with
    | nil => exact absurd hp.eq_nil (by simp)
    | cons b t2 =>
      have hamem : a ∈ b :: t2 := hp.mem_iff.mp (by simp)
      have hbmem : b ∈ a :: t1 := hp.symm.mem_iff.mp (by simp)
      have hab : a = b := by
        rcases List.mem_cons.mp hamem with h | hat2
        · exact h
        · rcases List.mem_cons.mp hbmem with h | hbt1
          · exact h.symm
          · have h1 : strLeB (key a) (key b) = true :=
              (List.pairwise_cons.mp hs1).1 b hbt1
            have h2 : strLeB (key b) (key a) = true :=
              (List.pairwise_cons.mp hs2).1 a hat2
            have hkey : key a = key b := strLeB_antisymm _ _ h1 h2
            exfalso
            have hn' := List.nodup_cons.mp (show (key a :: t1.map key).Nodup from hn)
            exact hn'.1 (hkey ▸ List.mem_map_of_mem key hbt1)
      subst hab
      have hp' : t1.Perm t2 := hp.cons_inv
      have hn' := (List.nodup_cons.mp (show (key a :: t1.map key).Nodup from hn)).2
      rw [ih t2 hp' hn' (List.pairwise_cons.mp hs1).2 (List.pairwise_cons.mp hs2).2]

theorem taskKey_nodup (l : List Task) (hn : (l.map Task.id).Nodup) :
    (l.map (fun t => t.id.data)).Nodup := by
  have : l.map (fun t => t.id.data) = (l.map Task.id).map String.data := by
    rw [List.map_map]; rfl
  rw [this]
  refine hn.map ?_
  intro a b h
  cases a; cases b
  exact congrArg String.mk h

theorem sortById_eq_of_perm (l1 l2 : List Task) (hp : l1.Perm l2)
    (hn : (l1.map Task.id).Nodup) : sortById l1 = sortById l2 := by
  have hperm : (sortById l1).Perm (sortById l2) :=
    ((sortBy_perm _ l1).trans hp).trans (sortBy_perm _ l2).symm
  have hnod : ((sortById l1).map (fun t => t.id.data)).Nodup := by
    refine ((sortBy_perm (fun a b => idLeB a.id b.id) l1).map
      (fun t => t.id.data)).nodup_iff.mpr ?_
    exact taskKey_nodup l1 hn
  have htr : ∀ a b c : Task, idLeB a.id b.id = true → idLeB b.id c.id = true →
      idLeB a.id c.id = true :=
    fun a b c h1 h2 => strLeB_trans a.id.data b.id.data c.id.data h1 h2
  have hto : ∀ a b : Task, idLeB a.id b.id = true ∨ idLeB b.id a.id = true :=
    fun a b => strLeB_total a.id.data b.id.data
  have hs1 := sortBy_pairwise (fun a b : Task => idLeB a.id b.id) htr hto l1
  have hs2 := sortBy_pairwise (fun a b : Task => idLeB a.id b.id) htr hto l2
  have hs1' : (sortById l1).Pairwise (fun x y => strLeB x.id.data y.id.data = true) :=
    List.Pairwise.imp (fun hxy => hxy) hs1
  have hs2' : (sortById l2).Pairwise (fun x y => strLeB x.id.data y.id.data = true) :=
    List.Pairwise.imp (fun hxy => hxy) hs2
  exact sorted_perm_eq_of_nodup_keys (fun t => t.id.data) (sortById l1) (sortById l2)
    hperm hnod hs1' hs2'

/-! ### Injectivity of the canonical digest input -/

theorem append_sep_inj (c : Char) :
    ∀ (p q A B : List Char), c ∉ p → c ∉ q →
      p ++ c :: A = q ++ c :: B → p = q ∧ A = B := by
  intro p
  induction p with
  | nil =>
    intro q A B _ hq h
    cases q with
    | nil => exact ⟨rfl, by simpa using h⟩
    | cons y q' =>
      simp only [List.nil_append, List.cons_append, List.cons.injEq] at h
      exact absurd (h.1 ▸ List.mem_cons_self y q') (by simpa [h.1] using hq)
  | cons x p' ih =>
    intro q A B hp hq h
    cases q with
    | nil =>
      simp only [List.cons_append, List.nil_append, List.cons.injEq] at h
      exact absurd (h.1 ▸ List.mem_cons_self x p') (by simpa [h.1] using hp)
    | cons y q' =>
      simp only [List.cons_append, List.cons.injEq] at h
      obtain ⟨rfl, h2⟩ := h
      obtain ⟨hpq, hAB⟩ := ih q' A B (fun hc => hp (List.mem_cons_of_mem x hc))
        (fun hc => hq (List.mem_cons_of_mem x hc)) h2
      exact ⟨by rw [hpq], hAB⟩

theorem joinSepL_inj_len (c : Char) :
    ∀ (xs ys : List (List Char)), xs.length = ys.length →
      (∀ p ∈ xs, c ∉ p) → (∀ p ∈ ys, c ∉ p) →
      joinSepL c xs = joinSepL c ys → xs = ys
  | [], [], _, _, _, _ => rfl
  | [], _ :: _, hlen, _, _, _ => by cases hlen
  | _ :: _, [], hlen, _, _, _ => by cases hlen
  | [p], [q], _, _, _, h => by rw [show p = q from h]
  | [p], q :: q2 :: qs, hlen, _, _, _ => by cases hlen
  | p :: p2 :: ps, [q], hlen, _, _, _ => by cases hlen
  | p :: p2 :: ps, q :: q2 :: qs, hlen, hx, hy, h => by
    unfold joinSepL at h
    obtain ⟨hpq, htail⟩ := append_sep_inj c p q _ _ (hx p (by simp)) (hy q (by simp)) h
    have := joinSepL_inj_len c (p2 :: ps) (q2 :: qs) (by simpa using hlen)
      (fun r hr => hx r (by simp [List.mem_cons.mp hr]))
      (fun r hr => hy r (by simp [List.mem_cons.mp hr])) htail
    rw [hpq, this]

theorem joinSepL_ne_nil_of_head (c : Char) (p : List Char) (rest : List (List Char))
    (hp : p ≠ []) : joinSepL c (p :: rest) ≠ [] := by
  cases rest with
  | nil => simpa [joinSepL] using hp
  | cons q rest' =>
    unfold joinSepL
    intro h
    cases p with
    | nil => exact absurd rfl hp
    | cons x p' => simp at h

theorem mem_join_head (c : Char) (p : List Char) (q : List Char) (rest : List (List Char))
    (h : p = joinSepL c (q :: rest)) (hrest : rest ≠ []) : c ∈ p := by
  cases rest with
  | nil => exact absurd rfl hrest
  | cons r rest' =>
    rw [h]
    unfold joinSepL
    exact List.mem_append.mpr (Or.inr (by simp))

theorem joinSepL_inj_ne (c : Char) :
    ∀ (xs ys : List (List Char)),
      (∀ p ∈ xs, p ≠ [] ∧ c ∉ p) → (∀ p ∈ ys, p ≠ [] ∧ c ∉ p) →
      joinSepL c xs = joinSepL c ys → xs = ys
  | [], [], _, _, _ => rfl
  | [], q :: qs, _, hy, h =>
    absurd h.symm (joinSepL_ne_nil_of_head c q qs (hy q (by simp)).1)
  | p :: ps, [], hx, _, h =>
    absurd h (joinSepL_ne_nil_of_head c p ps (hx p (by simp)).1)
  | [p], [q], _, _, h => by rw [show p = q from h]
  | [p], q :: q2 :: qs, hx, hy, h => by
    exact absurd (mem_join_head c p q (q2 :: qs) h (by simp)) (hx p (by simp)).2
  | p :: p2 :: ps, [q], hx, hy, h => by
    exact absurd (mem_join_head c q p (p2 :: ps) h.symm (by simp)) (hy q (by simp)).2
  | p :: p2 :: ps, q :: q2 :: qs, hx, hy, h => by
    unfold joinSepL at h
    obtain ⟨hpq, htail⟩ := append_sep_inj c p q _ _ (hx p (by simp)).2 (hy q (by simp)).2 h
    have := joinSepL_inj_ne c (p2 :: ps) (q2 :: qs)
      (fun r hr => hx r (by simp [List.mem_cons.mp hr]))
      (fun r hr => hy r (by simp [List.mem_cons.mp hr])) htail
    rw [hpq, this]

theorem delimFree_fields (t : Task) (h : delimFreeTask t = true) :
    ∀ p ∈ hashProj t, '|' ∉ p ∧ '\n' ∉ p := by
  intro p hp
  have hall := List.all_eq_true.mp h p hp
  simp only [Bool.not_eq_true'] at hall
  rw [List.any_eq_false] at hall
  constructor
  · intro hmem
    have := hall '|' hmem
    simp at this
  · intro hmem
    have := hall '\n' hmem
    simp at this

theorem mem_joinSepL (c x : Char) :
    ∀ (ps : List (List Char)), x ∈ joinSepL c ps → x = c ∨ ∃ p ∈ ps, x ∈ p
  | [], h => absurd h (by simp [joinSepL])
  | [p], h => Or.inr ⟨p, by simp, by simpa [joinSepL] using h⟩
  | p :: q :: ps, h => by
    unfold joinSepL at h
    rcases List.mem_append.mp h with h1 | h1
    · exact Or.inr ⟨p, by simp, h1⟩
    · rcases List.mem_cons.mp h1 with rfl | h2
      · exact Or.inl rfl
      · rcases mem_joinSepL c x (q :: ps) h2 with h3 | ⟨r, hr, hxr⟩
        · exact Or.inl h3
        · exact Or.inr ⟨r, List.mem_cons_of_mem p hr, hxr⟩

theorem lineOf_ne_nil (t : Task) : lineOf t ≠ [] := by
  unfold lineOf hashProj
  intro h
  rw [show joinSepL '|' [t.id.data, t.status.data, t.priority.data,
      (ownerKey t.owner_model).data, t.title.data, (ownerKey t.notes).data] =
      t.id.data ++ '|' :: joinSepL '|' [t.status.data, t.priority.data,
      (ownerKey t.owner_model).data, t.title.data, (ownerKey t.notes).data] from rfl] at h
  simp at h

theorem lineOf_no_newline (t : Task) (h : delimFreeTask t = true) : '\n' ∉ lineOf t := by
  intro hmem
  rcases mem_joinSepL '|' '\n' (hashProj t) hmem with h1 | ⟨p, hp, hxp⟩
  · cases h1
  · exact (delimFree_fields t h p hp).2 hxp

theorem lineOf_inj (t1 t2 : Task) (h1 : delimFreeTask t1 = true)
    (h2 : delimFreeTask t2 = true) (h : lineOf t1 = lineOf t2) :
    hashProj t1 = hashProj t2 := by
  refine joinSepL_inj_len '|' (hashProj t1) (hashProj t2) rfl ?_ ?_ h
  · exact fun p hp => (delimFree_fields t1 h1 p hp).1
  · exact fun p hp => (delimFree_fields t2 h2 p hp).1

theorem map_eq_of_keys_eq {β γ : Type} (key : β → List Char) (f : β → γ) :
    ∀ (l1 l2 : List β), l1.map key = l2.map key →
      (∀ a ∈ l1, ∀ b ∈ l2, key a = key b → f a = f b) →
      l1.map f = l2.map f := by
  intro l1
  induction l1 with
  | nil =>
    intro l2 hk _
    cases l2 with
    | nil => rfl
    | cons b l2 => cases hk
  | cons a l1 ih =>
    intro l2 hk hcross
    cases l2 with
    | nil => cases hk
    | cons b l2 =>
      simp only [List.map_cons, List.cons.injEq] at hk ⊢
      refine ⟨hcross a (by simp) b (by simp) hk.1, ?_⟩
      exact ih l2 hk.2 (fun x hx y hy => hcross x (by simp [hx]) y (by simp [hy]))

theorem lineOf_congr (a b : Task) (hid : a.id = b.id) (hp : projEq a b) :
    lineOf a = lineOf b := by
  unfold lineOf hashProj
  obtain ⟨h1, h2, h3, h4, h5⟩ := hp
  rw [hid, h1, h2, h3, h4, h5]

/-- Claim C9 (amended): the fingerprint is invariant under input ordering —
any two permutations of a task-record set with unique ids produce the same
digest; and on records whose projected fields are free of the unescaped
delimiters `|` and newline, the canonical digest input is injective in the
projected fields (distinct digests then hold only with overwhelming
probability, by collision resistance of the truncated SHA-256, outside this
model; with a delimiter inside a field the digest input can collide
exactly). -/
theorem hashTasks_canonicalization :
    (∀ l1 l2 : List Task, l1.Perm l2 → (l1.map Task.id).Nodup →
      hashTasks l1 = hashTasks l2) ∧
    (∀ l1 l2 : List Task, (∀ t ∈ l1, delimFreeTask t = true) →
      (∀ t ∈ l2, delimFreeTask t = true) →
      canonicalData l1 = canonicalData l2 →
      (sortById l1).map hashProj = (sortById l2).map hashProj) := by
  constructor
  · intro l1 l2 hp hn
    unfold hashTasks canonicalData
    rw [sortById_eq_of_perm l1 l2 hp hn]
  · intro l1 l2 h1 h2 hcd
    unfold canonicalData at hcd
    have hlines : (sortById l1).map lineOf = (sortById l2).map lineOf := by
      refine joinSepL_inj_ne '\n' _ _ ?_ ?_ hcd
      · intro p hp
        obtain ⟨t, ht, rfl⟩ := List.mem_map.mp hp
        exact ⟨lineOf_ne_nil t,
          lineOf_no_newline t (h1 t ((sortBy_perm _ l1).mem_iff.mp ht))⟩
      · intro p hp
        obtain ⟨t, ht, rfl⟩ := List.mem_map.mp hp
        exact ⟨lineOf_ne_nil t,
          lineOf_no_newline t (h2 t ((sortBy_perm _ l2).mem_iff.mp ht))⟩
    refine map_eq_of_keys_eq lineOf hashProj _ _ hlines ?_
    intro a ha b hb hkey
    exact lineOf_inj a b (h1 a ((sortBy_perm _ l1).mem_iff.mp ha))
      (h2 b ((sortBy_perm _ l2).mem_iff.mp hb)) hkey

/-- Claim C9 witness: reordering a two-record set leaves the fingerprint
unchanged, and equal canonical digest inputs of delimiter-free sets coincide
field-by-field after sorting. -/
theorem hashTasks_canonicalization_witness :
    hashTasks [⟨"a", "p", "T1", "backlog", "P1", some "m", none, "s"⟩,
               ⟨"b", "p", "T2", "done", "P2", none, some "n", "s"⟩] =
      hashTasks [⟨"b", "p", "T2", "done", "P2", none, some "n", "s"⟩,
                 ⟨"a", "p", "T1", "backlog", "P1", some "m", none, "s"⟩] ∧
    (sortById [⟨"a", "p", "T1", "backlog", "P1", some "m", none, "s"⟩,
               ⟨"b", "p", "T2", "done", "P2", none, some "n", "s"⟩]).map hashProj =
      (sortById [⟨"b", "p", "T2", "done", "P2", none, some "n", "s"⟩,
                 ⟨"a", "p", "T1", "backlog", "P1", some "m", none, "s"⟩]).map hashProj :=
  ⟨hashTasks_canonicalization.1
     [⟨"a", "p", "T1", "backlog", "P1", some "m", none, "s"⟩,
      ⟨"b", "p", "T2", "done", "P2", none, some "n", "s"⟩]
     [⟨"b", "p", "T2", "done", "P2", none, some "n", "s"⟩,
      ⟨"a", "p", "T1", "backlog", "P1", some "m", none, "s"⟩]
     (by decide) (by decide),
   hashTasks_canonicalization.2
     [⟨"a", "p", "T1", "backlog", "P1", some "m", none, "s"⟩,
      ⟨"b", "p", "T2", "done", "P2", none, some "n", "s"⟩]
     [⟨"b", "p", "T2", "done", "P2", none, some "n", "s"⟩,
      ⟨"a", "p", "T1", "backlog", "P1", some "m", none, "s"⟩]
     (by decide) (by decide) (by decide)⟩

/-- Claim C3 (amended): the drift check classifies difference in the
*compared* fields.  For two sides (unique ids) that are field-equal on
every projected field (id-membership, status, priority, title, and the
nullable owner/note up to the `'' / NULL` coercion) the check reports an
empty diff, matching fingerprints and exit 0.  For sides with a difference
in id-membership or a compared field (status, priority, coerced owner,
title) it reports a non-empty diff and exit 1.  (A difference only in the
note yields an empty diff and exit 0 — the counterexample — since the diff
comparison deliberately excludes notes.) -/
theorem driftCheck_symmetry (F D : List Task)
    (hF : (F.map Task.id).Nodup) (hD : (D.map Task.id).Nodup) :
    ((∀ ft ∈ F, ∃ dt ∈ D, dt.id = ft.id ∧ projEq ft dt) →
     (∀ dt ∈ D, ∃ ft ∈ F, ft.id = dt.id) →
     (checkRun F D).diffs = [] ∧ (checkRun F D).fileHash = (checkRun F D).dbHash ∧
       (checkRun F D).exitCode = 0) ∧
    (((∃ ft ∈ F, ∀ dt ∈ D, dt.id ≠ ft.id) ∨ (∃ dt ∈ D, ∀ ft ∈ F, ft.id ≠ dt.id) ∨
      (∃ ft ∈ F, ∃ dt ∈ D, dt.id = ft.id ∧ ¬ comparedEq ft dt)) →
     (checkRun F D).diffs ≠ [] ∧ (checkRun F D).exitCode = 1) := by
  constructor
  · intro hAB hBA
    have hdiffs : diffTasks F D = [] := by
      rw [diffTasks_eq_of_nodup F D hF hD]
      have hp1 : F.filterMap (diffLeft D) = [] := by
        rw [List.filterMap_eq_nil_iff]
        intro ft hft
        obtain ⟨dt, hdtD, hdtid, hpe⟩ := hAB ft hft
        have hfind : D.find? (fun t => t.id = ft.id) = some dt :=
          find_by_key_unique Task.id D ft.id dt hD hdtD hdtid
        unfold diffLeft
        rw [hfind]
        dsimp only
        rw [if_pos ?_]
        rw [(changesOf_eq_nil ft dt).mpr
          ⟨hpe.1, hpe.2.1, (normOwner_eq_iff_ownerKey _ _).mpr hpe.2.2.2.1, hpe.2.2.1⟩]
        rfl
      have hp2 : D.filterMap (diffRight F) = [] := by
        rw [List.filterMap_eq_nil_iff]
        intro dt hdt
        obtain ⟨ft, hftF, hftid⟩ := hBA dt hdt
        unfold diffRight
        rw [if_pos (List.any_eq_true.mpr ⟨ft, hftF, decide_eq_true hftid⟩)]
      rw [hp1, hp2]
      rfl
    have hhash : hashTasks F = hashTasks D := by
      unfold hashTasks canonicalData
      have hidsS : (F.map Task.id).Perm (D.map Task.id) := by
        rw [List.perm_ext_iff_of_nodup hF hD]
        intro x
        constructor
        · intro hx
          obtain ⟨ft, hft, hftx⟩ := List.mem_map.mp hx
          obtain ⟨dt, hdtD, hdtid, _⟩ := hAB ft hft
          exact (hftx ▸ hdtid) ▸ List.mem_map_of_mem Task.id hdtD
        · intro hx
          obtain ⟨dt, hdt, hdtx⟩ := List.mem_map.mp hx
          obtain ⟨ft, hftF, hftid⟩ := hBA dt hdt
          exact (hdtx ▸ hftid) ▸ List.mem_map_of_mem Task.id hftF
      have hkeysPerm : ((sortById F).map (fun t => t.id.data)).Perm
          ((sortById D).map (fun t => t.id.data)) := by
        refine (((sortBy_perm _ F).map (fun t => t.id.data)).trans ?_).trans
          ((sortBy_perm _ D).map (fun t => t.id.data)).symm
        have h1 : F.map (fun t => t.id.data) = (F.map Task.id).map String.data := by
          rw [List.map_map]; rfl
        have h2 : D.map (fun t => t.id.data) = (D.map Task.id).map String.data := by
          rw [List.map_map]; rfl
        rw [h1, h2]
        exact hidsS.map String.data
      have htr : ∀ a b c : Task, idLeB a.id b.id = true → idLeB b.id c.id = true →
          idLeB a.id c.id = true :=
        fun a b c hx hy => strLeB_trans a.id.data b.id.data c.id.data hx hy
      have hto : ∀ a b : Task, idLeB a.id b.id = true ∨ idLeB b.id a.id = true :=
        fun a b => strLeB_total a.id.data b.id.data
      have hsF := sortBy_pairwise (fun a b : Task => idLeB a.id b.id) htr hto F
      have hsD := sortBy_pairwise (fun a b : Task => idLeB a.id b.id) htr hto D
      have hkeys : (sortById F).map (fun t => t.id.data) =
          (sortById D).map (fun t => t.id.data) := by
        refine sorted_perm_eq_of_nodup_keys (fun k => k) _ _ hkeysPerm ?_ ?_ ?_
        · simp only [List.map_id']
          exact ((sortBy_perm (fun a b => idLeB a.id b.id) F).map
            (fun t => t.id.data)).nodup_iff.mpr (taskKey_nodup F hF)
        · exact (List.pairwise_map.mpr (List.Pairwise.imp (fun hxy => hxy) hsF))
        · exact (List.pairwise_map.mpr (List.Pairwise.imp (fun hxy => hxy) hsD))
      have hlines : (sortById F).map lineOf = (sortById D).map lineOf := by
        refine map_eq_of_keys_eq (fun t => t.id.data) lineOf _ _ hkeys ?_
        intro a ha b hb hkey
        have haF : a ∈ F := (sortBy_perm _ F).mem_iff.mp ha
        have hbD : b ∈ D := (sortBy_perm _ D).mem_iff.mp hb
        have hid : a.id = b.id := congrArg String.mk hkey
        obtain ⟨dt, hdtD, hdtid, hpe⟩ := hAB a haF
        have hbdt : b = dt :=
          List.inj_on_of_nodup_map hD hbD hdtD (by rw [hdtid, hid])
        rw [hbdt]
        exact lineOf_congr a dt (hdtid.symm) hpe
      rw [hlines]
    refine ⟨hdiffs, hhash, ?_⟩
    show (if (diffTasks F D).isEmpty then 0 else 1) = 0
    rw [hdiffs]
    rfl
  · intro hne
    have hdiffs : diffTasks F D ≠ [] := by
      rw [diffTasks_eq_of_nodup F D hF hD]
      rcases hne with ⟨ft, hft, hnone⟩ | ⟨dt, hdt, hnone⟩ | ⟨ft, hft, dt, hdt, hid, hneq⟩
      · have hfind : D.find? (fun t => t.id = ft.id) = none := by
          rw [List.find?_eq_none]
          intro dt hdt
          simpa using hnone dt hdt
        have hmem : Diff.file_only ft.id ft ∈ F.filterMap (diffLeft D) := by
          refine List.mem_filterMap.mpr ⟨ft, hft, ?_⟩
          unfold diffLeft
          rw [hfind]
        intro hnil
        rw [List.append_eq_nil] at hnil
        rw [hnil.1] at hmem
        cases hmem
      · have hany : F.any (fun t => t.id = dt.id) = false := by
          rw [List.any_eq_false]
          intro ft hft
          simpa using hnone ft hft
        have hmem : Diff.db_only dt.id dt ∈ D.filterMap (diffRight F) := by
          refine List.mem_filterMap.mpr ⟨dt, hdt, ?_⟩
          unfold diffRight
          rw [if_neg (by simp [hany])]
        intro hnil
        rw [List.append_eq_nil] at hnil
        rw [hnil.2] at hmem
        cases hmem
      · have hfind : D.find? (fun t => t.id = ft.id) = some dt :=
          find_by_key_unique Task.id D ft.id dt hD hdt hid
        have hch : changesOf ft dt ≠ [] := fun h => hneq ((changesOf_eq_nil ft dt).mp h)
        have hmem : Diff.changed ft.id (changesOf ft dt) ft dt ∈
            F.filterMap (diffLeft D) := by
          refine List.mem_filterMap.mpr ⟨ft, hft, ?_⟩
          unfold diffLeft
          rw [hfind]
          dsimp only
          rw [if_neg (by simpa using hch)]
        intro hnil
        rw [List.append_eq_nil] at hnil
        rw [hnil.1] at hmem
        cases hmem
    refine ⟨hdiffs, ?_⟩
    show (if (diffTasks F D).isEmpty then 0 else 1) = 1
    rw [if_neg (by simpa using hdiffs)]

/-- Claim C3 witness: a compared-field (status) difference yields a
non-empty diff and exit 1, while fully field-equal sides yield an empty
diff, matching fingerprints and exit 0. -/
theorem driftCheck_symmetry_witness :
    ((checkRun [⟨"a", "p", "T", "backlog", "P2", none, none, "s"⟩]
        [⟨"a", "q", "T", "backlog", "P2", some "", none, "s2"⟩]).diffs = [] ∧
      (checkRun [⟨"a", "p", "T", "backlog", "P2", none, none, "s"⟩]
        [⟨"a", "q", "T", "backlog", "P2", some "", none, "s2"⟩]).fileHash =
        (checkRun [⟨"a", "p", "T", "backlog", "P2", none, none, "s"⟩]
          [⟨"a", "q", "T", "backlog", "P2", some "", none, "s2"⟩]).dbHash ∧
      (checkRun [⟨"a", "p", "T", "backlog", "P2", none, none, "s"⟩]
        [⟨"a", "q", "T", "backlog", "P2", some "", none, "s2"⟩]).exitCode = 0) ∧
    ((checkRun [⟨"a", "p", "T", "in_progress", "P2", none, none, "s"⟩]
        [⟨"a", "p", "T", "backlog", "P2", none, none, "s"⟩]).diffs ≠ [] ∧
      (checkRun [⟨"a", "p", "T", "in_progress", "P2", none, none, "s"⟩]
        [⟨"a", "p", "T", "backlog", "P2", none, none, "s"⟩]).exitCode = 1) :=
  ⟨(driftCheck_symmetry [⟨"a", "p", "T", "backlog", "P2", none, none, "s"⟩]
      [⟨"a", "q", "T", "backlog", "P2", some "", none, "s2"⟩]
      (by decide) (by decide)).1 (by decide) (by decide),
   (driftCheck_symmetry [⟨"a", "p", "T", "in_progress", "P2", none, none, "s"⟩]
      [⟨"a", "p", "T", "backlog", "P2", none, none, "s"⟩]
      (by decide) (by decide)).2 (by decide)⟩

/-- Claim C1: the claim (and §4.4/§8 of the design, and the script's own
"60s TTL" comment) requires an acquisition attempt made after the recorded
expiry has passed to succeed.  The code stores `lock_until` in ISO-8601
format (`...T12:00:00.000Z`) but compares it as a string against SQLite's
`datetime('now')` format (`... 12:05:00`); since `'T' > ' '`, an expired
lease is not recognized as expired while the UTC date is unchanged: five
minutes after a lease with a 60-second TTL expired, acquisition still
fails. -/
theorem acquireLock_misses_same_day_expiry :
    dtLt ⟨2026, 10, 11, 12, 0, 0⟩ ⟨2026, 10, 11, 12, 5, 0⟩ = true ∧
    (acquireLock
        ⟨some "task-sync:files-to-db", some (isoOf ⟨2026, 10, 11, 12, 0, 0⟩),
         none, none, none, none⟩
        "task-sync:check" (isoOf ⟨2026, 10, 11, 12, 6, 0⟩)
        (sqliteOf ⟨2026, 10, 11, 12, 5, 0⟩)).2 = false := by
  decide

/-- Claim C10: `releaseLock` is unconditional: it clears owner and expiry
and records the outcome and timestamp for every prior state, with no check
that the caller holds the lease — in particular it clears a lease another
owner has just successfully acquired. -/
theorem releaseLock_unconditional (s : SyncState) (ownerB untilB nowB result now : String) :
    (releaseLock s result now).lock_owner = none ∧
    (releaseLock s result now).lock_until = none ∧
    (releaseLock s result now).last_result = some result ∧
    (releaseLock s result now).last_sync_at = some now ∧
    (releaseLock (acquireLock s ownerB untilB nowB).1 result now).lock_owner = none ∧
    (releaseLock (acquireLock s ownerB untilB nowB).1 result now).lock_until = none := by
  refine ⟨rfl, rfl, rfl, rfl, ?_, ?_⟩ <;> simp [releaseLock, acquireLock]

/-- Claim C2: the claim (and §7 of the design, which mandates an
all-or-nothing apply) requires a mid-batch failure to leave the store
unchanged.  The code issues each upsert independently with no enclosing
transaction: with two added records where the second violates the priority
`CHECK` constraint (priority tag `[P5]`), the apply aborts with the first
record already committed — a state matching neither the old snapshot
(empty) nor the new one (both records). -/
theorem syncFilesToDb_partial_on_midbatch_failure :
    (syncFilesToDb
        [⟨"p-001", "p", "A", "backlog", "P2", none, none, "tasks/p-tasks.md"⟩,
         ⟨"p-002", "p", "B", "backlog", "P5", none, none, "tasks/p-tasks.md"⟩]
        ⟨["p"], [], [], ⟨none, none, none, none, none, none⟩⟩
        "2026-01-01T00:00:00.000Z").2 =
      Except.error "constraint violation on task p-002" ∧
    ((syncFilesToDb
        [⟨"p-001", "p", "A", "backlog", "P2", none, none, "tasks/p-tasks.md"⟩,
         ⟨"p-002", "p", "B", "backlog", "P5", none, none, "tasks/p-tasks.md"⟩]
        ⟨["p"], [], [], ⟨none, none, none, none, none, none⟩⟩
        "2026-01-01T00:00:00.000Z").1.tasks.map (fun r => r.id)) = ["p-001"] := by
  constructor <;> decide

/-- Claim C3 counterexample: two record sets that differ in a field (the
note) on which the drift check reports an empty diff and exit code 0 — so
"at least one field difference implies a non-empty diff and non-zero
outcome" is false as stated (`diffTasks` compares only status, priority,
owner and title). -/
theorem notesOnlyDrift_reports_success :
    (⟨"a", "p", "T", "backlog", "P2", none, some "x", "s"⟩ : Task) ≠
      ⟨"a", "p", "T", "backlog", "P2", none, none, "s"⟩ ∧
    (checkRun [⟨"a", "p", "T", "backlog", "P2", none, some "x", "s"⟩]
        [⟨"a", "p", "T", "backlog", "P2", none, none, "s"⟩]).diffs = [] ∧
    (checkRun [⟨"a", "p", "T", "backlog", "P2", none, some "x", "s"⟩]
        [⟨"a", "p", "T", "backlog", "P2", none, none, "s"⟩]).exitCode = 0 := by
  refine ⟨by decide, by decide, by decide⟩

/-- Claim C6 counterexample: a note line whose text is all whitespace parses
to the empty-string note (not `null`), and `COALESCE(excluded.notes, ...)`
only guards `NULL` — so an empty (but present) incoming note erases the
stored note "keep", contradicting "an empty or absent incoming note leaves
the existing stored note unchanged". -/
theorem emptyNote_erases_storedNote :
    parseTaskFileContent "p" "## Backlog\n- [ ] (task:a-001) [P1] T\n  - note:   \n" =
      [⟨"a-001", "p", "T", "backlog", "P1", none, some "", "tasks/p-tasks.md"⟩] ∧
    ((syncFilesToDb
        (parseTaskFileContent "p" "## Backlog\n- [ ] (task:a-001) [P1] T\n  - note:   \n")
        ⟨["p"],
         [⟨"a-001", "p", "T", "backlog", "P2", none, some "keep", "tasks/p-tasks.md", "t0", "t0"⟩],
         [], ⟨none, none, none, none, none, none⟩⟩
        "t1").1.tasks.map (fun r => r.notes)) = [some ""] := by
  constructor <;> decide

/-- Claim C9 counterexample: the canonical projection joins fields with `|`
without escaping, so two sets differing in projected fields (owner and
title) can produce the very same digest input, hence identical fingerprints
with certainty — not "different with overwhelming probability". -/
theorem delimiterCollision_equalFingerprint :
    (⟨"id1", "p", "b|c", "backlog", "P2", some "a", none, "s"⟩ : Task) ≠
      ⟨"id1", "p", "c", "backlog", "P2", some "a|b", none, "s"⟩ ∧
    hashTasks [⟨"id1", "p", "b|c", "backlog", "P2", some "a", none, "s"⟩] =
      hashTasks [⟨"id1", "p", "c", "backlog", "P2", some "a|b", none, "s"⟩] := by
  constructor
  · decide
  · have h : canonicalData [⟨"id1", "p", "b|c", "backlog", "P2", some "a", none, "s"⟩] =
        canonicalData [⟨"id1", "p", "c", "backlog", "P2", some "a|b", none, "s"⟩] := by decide
    unfold hashTasks
    rw [h]

/-! ### Round trip (C4): line structure of the projected file -/

theorem splitLines_ne_nil : ∀ l : List Char, splitLines l ≠ [] := by
  intro l
  rw [splitLines.eq_def]
  match l with
  | [] => simp
  | c :: rest =>
    dsimp only
    split_ifs with h1 h2
    · simp
    · match rest with
      | [] => simp
      | d :: rest2 =>
        dsimp only
        split_ifs with h3
        · simp
        · cases splitLines (d :: rest2) <;> simp
    · cases splitLines rest <;> simp

theorem getLast?_tail (c : Char) (rest : List Char) (h : rest ≠ []) :
    (c :: rest).getLast? = rest.getLast? := by
  cases rest with
  | nil => exact absurd rfl h
  | cons d r => exact List.getLast?_cons_cons

theorem splitLines_cons_n (rest : List Char) :
    splitLines ('\n' :: rest) = [] :: splitLines rest := by
  rw [splitLines.eq_def]
  simp only [Char.reduceEq, reduceIte]

theorem splitLines_cons_rn (rest : List Char) :
    splitLines ('\r' :: '\n' :: rest) = [] :: splitLines rest := by
  rw [splitLines.eq_def]
  simp only [Char.reduceEq, reduceIte]

theorem splitLines_cons_r_other (d : Char) (rest : List Char) (hdn : d ≠ '\n') :
    splitLines ('\r' :: d :: rest) =
      match splitLines (d :: rest) with
      | l :: ls => ('\r' :: l) :: ls
      | [] => [['\r']] := by
  rw [splitLines.eq_def]
  simp only [Char.reduceEq, reduceIte, if_neg hdn]

theorem splitLines_cons_other (c : Char) (rest : List Char) (hcn : c ≠ '\n') (hcr : c ≠ '\r') :
    splitLines (c :: rest) =
      match splitLines rest with
      | l :: ls => (c :: l) :: ls
      | [] => [[c]] := by
  rw [splitLines.eq_def]
  simp only [if_neg hcn, if_neg hcr]

/-- Splitting a single newline-terminated line off the front. -/
theorem splitLines_line_cons (l x : List Char) (hn : '\n' ∉ l) (hr : '\r' ∉ l) :
    splitLines (l ++ '\n' :: x) = l :: splitLines x := by
  induction l with
  | nil =>
    show splitLines ('\n' :: x) = [] :: splitLines x
    exact splitLines_cons_n x
  | cons c l ih =>
    have hcn : c ≠ '\n' := fun h => hn (h ▸ List.mem_cons_self c l)
    have hcr : c ≠ '\r' := fun h => hr (h ▸ List.mem_cons_self c l)
    show splitLines (c :: (l ++ '\n' :: x)) = (c :: l) :: splitLines x
    rw [splitLines_cons_other c (l ++ '\n' :: x) hcn hcr,
        ih (fun h => hn (List.mem_cons_of_mem c h)) (fun h => hr (List.mem_cons_of_mem c h))]

/-- `split` distributes over concatenation at a newline, provided the left
part does not end in a carriage return (which would fuse with the
separator). -/
theorem splitLines_append (x : List Char) :
    ∀ (n : Nat) (a : List Char), a.length ≤ n → a.getLast? ≠ some '\r' →
      splitLines (a ++ '\n' :: x) = splitLines a ++ splitLines x := by
  intro n
  induction n with
  | zero =>
    intro a hl _
    have : a = [] := List.eq_nil_of_length_eq_zero (Nat.le_zero.mp hl)
    subst this
    show splitLines ('\n' :: x) = splitLines ([] : List Char) ++ splitLines x
    rw [splitLines_cons_n]
    rfl
  | succ n ih =>
    intro a hl ha
    match a with
    | [] =>
      show splitLines ('\n' :: x) = splitLines ([] : List Char) ++ splitLines x
      rw [splitLines_cons_n]
      rfl
    | c :: rest =>
      have hrest : rest.getLast? ≠ some '\r' := by
        cases rest with
        | nil => simp
        | cons d r =>
          rw [← getLast?_tail c (d :: r) (by simp)]
          exact ha
      have hlen : rest.length ≤ n := by
        simpa using Nat.lt_succ_iff.mp (Nat.lt_of_lt_of_le (by simp) hl)
      by_cases hcn : c = '\n'
      · subst hcn
        show splitLines ('\n' :: (rest ++ '\n' :: x)) = splitLines ('\n' :: rest) ++ splitLines x
        rw [splitLines_cons_n, splitLines_cons_n, ih rest hlen hrest]
        rfl
      · by_cases hcr : c = '\r'
        · subst hcr
          match rest with
          | [] => exact absurd (by simp) ha
          | d :: rest2 =>
            by_cases hdn : d = '\n'
            · subst hdn
              have hrest2 : rest2.getLast? ≠ some '\r' := by
                cases rest2 with
                | nil => simp
                | cons e r =>
                  rw [← getLast?_tail '\n' (e :: r) (by simp),
                      ← getLast?_tail '\r' ('\n' :: e :: r) (by simp)]
                  exact ha
              have hlen2 : rest2.length ≤ n := by
                have h2 : rest2.length + 2 ≤ n + 1 := by simpa using hl
                omega
              show splitLines ('\r' :: '\n' :: (rest2 ++ '\n' :: x)) =
                  splitLines ('\r' :: '\n' :: rest2) ++ splitLines x
              rw [splitLines_cons_rn, splitLines_cons_rn, ih rest2 hlen2 hrest2]
              rfl
            · show splitLines ('\r' :: d :: (rest2 ++ '\n' :: x)) =
                  splitLines ('\r' :: d :: rest2) ++ splitLines x
              rw [splitLines_cons_r_other d (rest2 ++ '\n' :: x) hdn,
                  splitLines_cons_r_other d rest2 hdn,
                  show d :: (rest2 ++ '\n' :: x) = (d :: rest2) ++ '\n' :: x from rfl,
                  ih (d :: rest2) (by simpa using hl) hrest]
              cases hsp : splitLines (d :: rest2) with
              | nil => exact absurd hsp (splitLines_ne_nil (d :: rest2))
              | cons l ls => rfl
        · show splitLines (c :: (rest ++ '\n' :: x)) = splitLines (c :: rest) ++ splitLines x
          rw [splitLines_cons_other c (rest ++ '\n' :: x) hcn hcr,
              splitLines_cons_other c rest hcn hcr,
              ih rest hlen hrest]
          cases hsp : splitLines rest with
          | nil => exact absurd hsp (splitLines_ne_nil rest)
          | cons l ls => rfl

theorem linesJoin_append (a b : List (List Char)) :
    linesJoin (a ++ b) = linesJoin a ++ linesJoin b := by
  induction a with
  | nil => rfl
  | cons l ls ih => simp [linesJoin, ih]

theorem splitLines_linesJoin (ls : List (List Char))
    (h : ∀ l ∈ ls, '\n' ∉ l ∧ '\r' ∉ l) :
    splitLines (linesJoin ls) = ls ++ [[]] := by
  induction ls with
  | nil => rfl
  | cons l ls ih =>
    show splitLines (l ++ '\n' :: linesJoin ls) = (l :: ls) ++ [[]]
    rw [splitLines_line_cons l (linesJoin ls) (h l (List.mem_cons_self l ls)).1
        (h l (List.mem_cons_self l ls)).2,
      ih (fun x hx => h x (List.mem_cons_of_mem l hx))]
    rfl

theorem foldl_append_data (l : List String) :
    ∀ s : String, (l.foldl (fun r t => r ++ t) s).data = s.data ++ (l.map String.data).flatten := by
  induction l with
  | nil => intro s; simp
  | cons a l ih =>
    intro s
    simp only [List.foldl_cons, List.map_cons, List.flatten_cons]
    rw [ih (s ++ a), String.data_append]
    simp [List.append_assoc]

theorem join_data (l : List String) :
    (String.join l).data = (l.map String.data).flatten := by
  have h := foldl_append_data l ""
  simpa using h

theorem linesJoin_flatMap {α : Type} (f : α → List (List Char)) (l : List α) :
    linesJoin (l.flatMap f) = (l.map (fun x => linesJoin (f x))).flatten := by
  induction l with
  | nil => rfl
  | cons a l ih => simp [List.flatMap_cons, linesJoin_append, ih]

theorem taskBlock_data (t : Task) :
    (taskBlock t).data = linesJoin (taskLines t) := by
  unfold taskBlock taskLines
  cases hnt : t.notes with
  | none => simp [String.data_append, linesJoin]
  | some n =>
    by_cases hn : n = ""
    · simp [hn, String.data_append, linesJoin]
    · simp [hn, String.data_append, linesJoin]

theorem sectionBlock_data (tasks : List Task) (st : String) :
    (sectionBlock tasks st).data = linesJoin (sectionLines tasks st) := by
  unfold sectionBlock sectionLines
  by_cases hsec : (sortSection (tasks.filter (fun t => t.status = st))).isEmpty
  · simp [hsec, String.data_append, linesJoin]
  · simp only [hsec, if_neg, Bool.false_eq_true, not_false_iff]
    rw [String.data_append, String.data_append, String.data_append, String.data_append,
      join_data, List.map_map]
    have hmap : (sortSection (tasks.filter (fun t => t.status = st))).map
        (String.data ∘ taskBlock) =
        (sortSection (tasks.filter (fun t => t.status = st))).map
        (fun t => linesJoin (taskLines t)) :=
      List.map_congr_left (fun t _ => taskBlock_data t)
    rw [hmap, linesJoin, linesJoin_append, linesJoin_flatMap]
    simp [linesJoin, String.data_append]

theorem bodyStr_data (tasks : List Task) :
    (String.join (STATUS_ORDER.map (sectionBlock tasks))).data = linesJoin (bodyLines tasks) := by
  rw [join_data, bodyLines, linesJoin_flatMap, List.map_map]
  congr 1
  exact List.map_congr_left (fun st _ => sectionBlock_data tasks st)

/-- Line decomposition of the full projected file. -/
theorem projectFile_lines (header : String) (tasks : List Task)
    (hlast : header.data.getLast? ≠ some '\r')
    (hbody : ∀ l ∈ bodyLines tasks, '\n' ∉ l ∧ '\r' ∉ l) :
    splitLines (projectFile header tasks).data =
      splitLines header.data ++ [] :: (bodyLines tasks ++ [[]]) := by
  unfold projectFile
  rw [String.data_append, String.data_append]
  have hsh : (("\n\n" : String).data ++
      (String.join (STATUS_ORDER.map (sectionBlock tasks))).data) =
      '\n' :: '\n' :: (String.join (STATUS_ORDER.map (sectionBlock tasks))).data := rfl
  rw [List.append_assoc, hsh,
    splitLines_append ('\n' :: (String.join (STATUS_ORDER.map (sectionBlock tasks))).data)
      header.data.length header.data (Nat.le_refl _) hlast,
    splitLines_cons_n, bodyStr_data, splitLines_linesJoin (bodyLines tasks) hbody]

/-! ### Round trip (C4): parsing one rendered task line -/

theorem isIdChar_no_break (c : Char) (h : isIdChar c = true) : c ≠ '\n' ∧ c ≠ '\r' := by
  constructor <;> rintro rfl <;> exact absurd h (by decide)

theorem isDigitChar_facts (c : Char) (h : isDigitChar c = true) :
    c ≠ '\n' ∧ c ≠ '\r' ∧ c ≠ ']' := by
  refine ⟨?_, ?_, ?_⟩ <;> rintro rfl <;> exact absurd h (by decide)

theorem trimStable_dropWhile (l : List Char) (h : jsTrimList l = l) :
    l.dropWhile isJsSpace = l := by
  have h1 : (jsTrimList l).length ≤ (l.dropWhile isJsSpace).length := by
    unfold jsTrimList
    rw [List.length_reverse]
    calc ((l.dropWhile isJsSpace).reverse.dropWhile isJsSpace).length
        ≤ (l.dropWhile isJsSpace).reverse.length := (List.dropWhile_sublist _).length_le
      _ = (l.dropWhile isJsSpace).length := List.length_reverse _
  rw [h] at h1
  have h2 : (l.dropWhile isJsSpace).length ≤ l.length := (List.dropWhile_sublist _).length_le
  cases l with
  | nil => rfl
  | cons c r =>
    by_cases hc : isJsSpace c
    · exfalso
      rw [List.dropWhile_cons_of_pos hc] at h1
      have h3 : (r.dropWhile isJsSpace).length ≤ r.length := (List.dropWhile_sublist _).length_le
      simp only [List.length_cons] at h1
      omega
    · rw [List.dropWhile_cons_of_neg hc]

theorem trimStable_head (c : Char) (r : List Char) (h : jsTrimList (c :: r) = c :: r) :
    isJsSpace c = false := by
  have hd := trimStable_dropWhile (c :: r) h
  by_cases hc : isJsSpace c
  · exfalso
    rw [List.dropWhile_cons_of_pos hc] at hd
    have h3 : (r.dropWhile isJsSpace).length ≤ r.length := (List.dropWhile_sublist _).length_le
    have hlen := congrArg List.length hd
    simp only [List.length_cons] at hlen
    omega
  · exact Bool.eq_false_iff.mpr hc

theorem expect_append (pre rest : List Char) : expect pre (pre ++ rest) = some rest := by
  induction pre with
  | nil => rfl
  | cons c cs ih => simp [expect, ih]

theorem takeWhile_append_stop {p : Char → Bool} (xs : List Char) (y : Char) (ys : List Char)
    (hxs : ∀ x ∈ xs, p x = true) (hy : p y = false) :
    (xs ++ y :: ys).takeWhile p = xs ∧ (xs ++ y :: ys).dropWhile p = y :: ys := by
  induction xs with
  | nil => simp [List.takeWhile_cons, List.dropWhile_cons, hy]
  | cons x xs ih =>
    have hx := hxs x (List.mem_cons_self x xs)
    have ih2 := ih (fun a ha => hxs a (List.mem_cons_of_mem x ha))
    simp [List.takeWhile_cons, List.dropWhile_cons, hx, ih2.1, ih2.2]

theorem matchTitle_space_cons (ti : List Char) (hne : ti.isEmpty = false)
    (hhead : ti.dropWhile isJsSpace = ti) :
    matchTitle (' ' :: ti) = some ti := by
  have h1 : (' ' :: ti).dropWhile isJsSpace = ti := by
    rw [List.dropWhile_cons_of_pos (by decide)]
    exact hhead
  simp [matchTitle, h1, hne]

theorem takeTag_append (content rest : List Char) (hnb : ∀ c ∈ content, c ≠ ']') :
    takeTag ('[' :: (content ++ ']' :: rest)) = some (content, rest) := by
  have hspan := takeWhile_append_stop (p := fun c => decide (c ≠ ']')) content ']' rest
      (fun x hx => decide_eq_true (hnb x hx)) (by decide)
  simp only [takeTag]
  rw [hspan.2, hspan.1]
  rfl

theorem string_mk_data (s : String) : String.mk s.data = s := rfl

theorem parseTaskLine_shape (cbc : Char) (hcb : cbc = ' ' ∨ cbc = 'x')
    (idc : List Char) (hid : idc.isEmpty = false) (hidc : ∀ c ∈ idc, isIdChar c = true)
    (tl : List Char) :
    parseTaskLine ('-' :: ' ' :: '[' :: cbc :: ']' :: ' ' :: '(' :: 't' :: 'a' :: 's' ::
        'k' :: ':' :: (idc ++ ')' :: tl)) =
      match tailMatch tl with
      | none => none
      | some (t1, t2, ti) =>
        some (cbc, String.mk idc, t1.map String.mk, t2.map String.mk, String.mk ti) := by
  have hcbT : (cbc = ' ' || cbc = 'x') = true := by
    rcases hcb with rfl | rfl <;> rfl
  unfold parseTaskLine
  rw [show expect ['-', ' ', '['] ('-' :: ' ' :: '[' :: cbc :: ']' :: ' ' :: '(' :: 't' ::
      'a' :: 's' :: 'k' :: ':' :: (idc ++ ')' :: tl)) =
      some (cbc :: ']' :: ' ' :: '(' :: 't' :: 'a' :: 's' :: 'k' :: ':' :: (idc ++ ')' :: tl))
      from rfl]
  dsimp only
  rw [if_pos hcbT]
  rw [show expect [']', ' ', '(', 't', 'a', 's', 'k', ':'] (']' :: ' ' :: '(' :: 't' :: 'a' ::
      's' :: 'k' :: ':' :: (idc ++ ')' :: tl)) = some (idc ++ ')' :: tl) from rfl]
  dsimp only
  rw [(takeWhile_append_stop (p := isIdChar) idc ')' tl hidc (by decide)).1,
      (takeWhile_append_stop (p := isIdChar) idc ')' tl hidc (by decide)).2]
  simp only [hid, Bool.false_eq_true, if_false]
  rw [show expect [')'] (')' :: tl) = some tl from rfl]

theorem tailMatch_owner (prio o ti : List Char)
    (hprio : ∀ c ∈ prio, c ≠ ']') (ho : ∀ c ∈ o, c ≠ ']')
    (hti : ti.isEmpty = false) (hthead : ti.dropWhile isJsSpace = ti) :
    tailMatch (' ' :: '[' :: (prio ++ ']' :: (' ' :: '[' :: (o ++ ']' :: ' ' :: ti)))) =
      some (some prio, some o, ti) := by
  unfold tailMatch
  have h1 : (' ' :: '[' :: (prio ++ ']' :: (' ' :: '[' :: (o ++ ']' :: ' ' :: ti)))).dropWhile
      isJsSpace = '[' :: (prio ++ ']' :: (' ' :: '[' :: (o ++ ']' :: ' ' :: ti))) := by
    rw [List.dropWhile_cons_of_pos (by decide), List.dropWhile_cons_of_neg (by decide)]
  rw [h1, takeTag_append prio _ hprio]
  dsimp only
  have h2 : (' ' :: '[' :: (o ++ ']' :: ' ' :: ti)).dropWhile isJsSpace =
      '[' :: (o ++ ']' :: ' ' :: ti) := by
    rw [List.dropWhile_cons_of_pos (by decide), List.dropWhile_cons_of_neg (by decide)]
  rw [h2, show (o ++ ']' :: ' ' :: ti) = (o ++ ']' :: (' ' :: ti)) from rfl,
      takeTag_append o (' ' :: ti) ho]
  dsimp only
  rw [matchTitle_space_cons ti hti hthead]
  rfl

theorem tailMatch_noowner (prio ti : List Char)
    (hprio : ∀ c ∈ prio, c ≠ ']')
    (hti : ti.isEmpty = false) (hthead : ti.dropWhile isJsSpace = ti)
    (htag : takeTag ti = none) :
    tailMatch (' ' :: '[' :: (prio ++ ']' :: (' ' :: ti))) = some (some prio, none, ti) := by
  unfold tailMatch
  have h1 : (' ' :: '[' :: (prio ++ ']' :: (' ' :: ti))).dropWhile isJsSpace =
      '[' :: (prio ++ ']' :: (' ' :: ti)) := by
    rw [List.dropWhile_cons_of_pos (by decide), List.dropWhile_cons_of_neg (by decide)]
  rw [h1, takeTag_append prio (' ' :: ti) hprio]
  dsimp only
  have h2 : (' ' :: ti).dropWhile isJsSpace = ti := by
    rw [List.dropWhile_cons_of_pos (by decide)]
    exact hthead
  rw [h2, htag]
  dsimp only
  rw [matchTitle_space_cons ti hti hthead]
  rfl

theorem isPriorityTag_shape (p : String) (h : isPriorityTag p = true) :
    ∃ d, p.data = ['P', d] ∧ isDigitChar d = true := by
  unfold isPriorityTag at h
  split at h
  · next d heq => exact ⟨d, heq, h⟩
  · exact absurd h (by simp)

theorem any_eq_false_forall {p : Char → Bool} {l : List Char} (h : l.any p = false) :
    ∀ c ∈ l, p c = false := by
  intro c hc
  by_contra hb
  have hp : p c = true := by revert hb; cases p c <;> simp
  have h2 : l.any p = true := List.any_eq_true.mpr ⟨c, hc, hp⟩
  rw [h2] at h
  cases h

/-- A canonical stored row renders to a line the task regex parses back to
the same checkbox, id, priority tag, owner tag (absent when the owner is
`NULL` or empty) and raw title. -/
theorem parseTaskLine_render (t : Task) (hctask : canonicalTask t = true) :
    parseTaskLine (renderTaskLineStr t).data =
      some ((if t.status = "done" then 'x' else ' '), t.id, some t.priority,
        normOwner t.owner_model, t.title) := by
  unfold canonicalTask at hctask
  simp only [Bool.and_eq_true] at hctask
  obtain ⟨⟨⟨⟨⟨⟨⟨⟨⟨h1, h2⟩, h3⟩, h4⟩, h5⟩, h6⟩, h7⟩, h8⟩, h9⟩, h10⟩ := hctask
  have hid : t.id.data.isEmpty = false := by simpa using h1
  have hidc : ∀ c ∈ t.id.data, isIdChar c = true := List.all_eq_true.mp h2
  obtain ⟨d, hpd, hdd⟩ := isPriorityTag_shape t.priority h4
  have hprioNoBr : ∀ c ∈ t.priority.data, c ≠ ']' := by
    rw [hpd]
    intro c hcm
    rcases List.mem_cons.mp hcm with rfl | hcm2
    · decide
    · rcases List.mem_cons.mp hcm2 with rfl | hcm3
      · exact (isDigitChar_facts c hdd).2.2
      · cases hcm3
  have htine : t.title.data.isEmpty = false := by simpa using h5
  have hthead : t.title.data.dropWhile isJsSpace = t.title.data :=
    trimStable_dropWhile _ (congrArg String.data (of_decide_eq_true h6))
  have hA1 : ("- " : String).data = ['-', ' '] := rfl
  have hA3 : (" (task:" : String).data = [' ', '(', 't', 'a', 's', 'k', ':'] := rfl
  have hA4 : (") [" : String).data = [')', ' ', '['] := rfl
  have hA5 : ("]" : String).data = [']'] := rfl
  have hA6 : (" [" : String).data = [' ', '['] := rfl
  have hA7 : (" " : String).data = [' '] := rfl
  have hA8 : ("" : String).data = [] := rfl
  obtain ⟨cbc, hcbor, hcbdata, hcbeq⟩ :
      ∃ c, (c = ' ' ∨ c = 'x') ∧
        ((if t.status = "done" then "[x]" else "[ ]" : String)).data = ['[', c, ']'] ∧
        (if t.status = "done" then 'x' else ' ') = c := by
    by_cases hdone : t.status = "done"
    · exact ⟨'x', Or.inr rfl, by simp [hdone], by simp [hdone]⟩
    · exact ⟨' ', Or.inl rfl, by simp [hdone], by simp [hdone]⟩
  rw [hcbeq]
  cases howner : t.owner_model with
  | none =>
    rw [howner] at h8
    have h8b : titleStartsWithTag t.title = false := by simpa [ownerKey] using h8
    have htag : takeTag t.title.data = none := by
      unfold titleStartsWithTag at h8b
      cases htk : takeTag t.title.data with
      | none => rfl
      | some v => rw [htk] at h8b; simp at h8b
    have hdata : (renderTaskLineStr t).data =
        '-' :: ' ' :: '[' :: cbc :: ']' :: ' ' :: '(' :: 't' :: 'a' :: 's' :: 'k' :: ':' ::
          (t.id.data ++ ')' :: (' ' :: '[' :: (t.priority.data ++ ']' ::
            (' ' :: t.title.data)))) := by
      unfold renderTaskLineStr
      rw [howner]
      simp only [String.data_append, hA1, hcbdata, hA3, hA4, hA5, hA7, hA8,
        List.cons_append, List.nil_append, List.append_assoc]
    rw [hdata, parseTaskLine_shape cbc hcbor t.id.data hid hidc _,
      tailMatch_noowner t.priority.data t.title.data hprioNoBr htine hthead htag]
    rfl
  | some o =>
    rw [howner] at h9
    dsimp only at h9
    by_cases ho : o = ""
    · subst ho
      rw [howner] at h8
      have h8b : titleStartsWithTag t.title = false := by simpa [ownerKey] using h8
      have htag : takeTag t.title.data = none := by
        unfold titleStartsWithTag at h8b
        cases htk : takeTag t.title.data with
        | none => rfl
        | some v => rw [htk] at h8b; simp at h8b
      have hdata : (renderTaskLineStr t).data =
          '-' :: ' ' :: '[' :: cbc :: ']' :: ' ' :: '(' :: 't' :: 'a' :: 's' :: 'k' :: ':' ::
            (t.id.data ++ ')' :: (' ' :: '[' :: (t.priority.data ++ ']' ::
              (' ' :: t.title.data)))) := by
        unfold renderTaskLineStr
        rw [howner]
        simp only [String.data_append, hA1, hcbdata, hA3, hA4, hA5, hA7, hA8, if_pos,
          List.cons_append, List.nil_append, List.append_assoc]
      rw [hdata, parseTaskLine_shape cbc hcbor t.id.data hid hidc _,
        tailMatch_noowner t.priority.data t.title.data hprioNoBr htine hthead htag]
      rfl
    · have h9b : (!o.data.any (fun c => c = ']' || c = '\n' || c = '\r') &&
          !isPriorityTag o) = true := by
        rcases Bool.or_eq_true _ _ |>.mp h9 with h9l | h9r
        · exact absurd (of_decide_eq_true h9l) ho
        · exact h9r
      have hoany : o.data.any (fun c => c = ']' || c = '\n' || c = '\r') = false := by
        have hx := (Bool.and_eq_true _ _ |>.mp h9b).1
        simpa using hx
      have hoNoBr : ∀ c ∈ o.data, c ≠ ']' := by
        intro c hc
        have hx := any_eq_false_forall hoany c hc
        simp only [Bool.or_eq_false_iff, decide_eq_false_iff_not] at hx
        exact hx.1.1
      have hdata : (renderTaskLineStr t).data =
          '-' :: ' ' :: '[' :: cbc :: ']' :: ' ' :: '(' :: 't' :: 'a' :: 's' :: 'k' :: ':' ::
            (t.id.data ++ ')' :: (' ' :: '[' :: (t.priority.data ++ ']' ::
              (' ' :: '[' :: (o.data ++ ']' :: ' ' :: t.title.data))))) := by
        unfold renderTaskLineStr
        rw [howner]
        simp only [String.data_append, hA1, hcbdata, hA3, hA4, hA5, hA6, hA7, if_neg ho,
          List.cons_append, List.nil_append, List.append_assoc]
      rw [hdata, parseTaskLine_shape cbc hcbor t.id.data hid hidc _,
        tailMatch_owner t.priority.data o.data t.title.data hprioNoBr hoNoBr htine hthead]
      simp [normOwner, ho, string_mk_data]

/-! ### Round trip (C4): classifying the other projected lines -/

theorem headerStatusOf_dash (l : List Char) : headerStatusOf ('-' :: l) = none := rfl

theorem headerStatusOf_space (l : List Char) : headerStatusOf (' ' :: l) = none := rfl

theorem headerStatusOf_nil : headerStatusOf [] = none := rfl

theorem parseTaskLine_nil : parseTaskLine [] = none := rfl

theorem parseTaskLine_space (l : List Char) : parseTaskLine (' ' :: l) = none := rfl

theorem noteOf_nil : noteOf [] = none := rfl

theorem noteOf_dash (l : List Char) : noteOf ('-' :: l) = none := rfl

theorem dropWhile_idem (p : Char → Bool) (l : List Char) :
    (l.dropWhile p).dropWhile p = l.dropWhile p := by
  induction l with
  | nil => rfl
  | cons a l ih =>
    by_cases ha : p a
    · rw [List.dropWhile_cons_of_pos ha]
      exact ih
    · rw [List.dropWhile_cons_of_neg ha, List.dropWhile_cons_of_neg ha]

theorem jsTrimList_dropWhile (l : List Char) :
    jsTrimList (l.dropWhile isJsSpace) = jsTrimList l := by
  unfold jsTrimList
  rw [dropWhile_idem]

theorem getLastD_mem (a : Char) (l : List Char) (d : Char) : (a :: l).getLastD d ∈ a :: l := by
  induction l generalizing a with
  | nil => simp [List.getLastD]
  | cons b l ih =>
    rw [List.getLastD_cons]
    exact List.mem_cons_of_mem a (ih b)

theorem renderTaskLine_head (t : Task) : ∃ r, (renderTaskLineStr t).data = '-' :: ' ' :: r := by
  unfold renderTaskLineStr
  simp only [String.data_append, List.append_assoc]
  exact ⟨_, rfl⟩

theorem headerStatusOf_render (t : Task) : headerStatusOf (renderTaskLineStr t).data = none := by
  obtain ⟨r, hr⟩ := renderTaskLine_head t
  rw [hr]
  exact headerStatusOf_dash _

theorem noteOf_render (t : Task) : noteOf (renderTaskLineStr t).data = none := by
  obtain ⟨r, hr⟩ := renderTaskLine_head t
  rw [hr]
  exact noteOf_dash _

theorem noteLine_data (n : String) :
    ("  - note: " ++ n).data =
      ' ' :: ' ' :: '-' :: ' ' :: 'n' :: 'o' :: 't' :: 'e' :: ':' :: ' ' :: n.data := by
  rw [String.data_append]
  rfl

theorem headerStatusOf_noteLine (n : String) :
    headerStatusOf ("  - note: " ++ n).data = none := by
  rw [noteLine_data]
  exact headerStatusOf_space _

theorem parseTaskLine_noteLine (n : String) :
    parseTaskLine ("  - note: " ++ n).data = none := by
  rw [noteLine_data]
  exact parseTaskLine_space _

/-- The note-line lookahead applied to a rendered note line recovers the
trimmed note, including the degenerate all-whitespace case, where the
regex backtracks to the last character and trimming erases it. -/
theorem noteOf_noteLine (n : String) (hne : n ≠ "") :
    noteOf ("  - note: " ++ n).data = some (jsTrimS n) := by
  rw [noteLine_data]
  unfold noteOf
  rw [show (' ' :: ' ' :: '-' :: ' ' :: 'n' :: 'o' :: 't' :: 'e' :: ':' :: ' ' ::
      n.data).takeWhile isJsSpace = ' ' :: ' ' :: [] from by
    rw [List.takeWhile_cons_of_pos (by decide), List.takeWhile_cons_of_pos (by decide),
      List.takeWhile_cons_of_neg (by decide)]]
  rw [show (' ' :: ' ' :: '-' :: ' ' :: 'n' :: 'o' :: 't' :: 'e' :: ':' :: ' ' ::
      n.data).dropWhile isJsSpace =
      '-' :: ' ' :: 'n' :: 'o' :: 't' :: 'e' :: ':' :: ' ' :: n.data from by
    rw [List.dropWhile_cons_of_pos (by decide), List.dropWhile_cons_of_pos (by decide),
      List.dropWhile_cons_of_neg (by decide)]]
  rw [if_neg (by decide)]
  rw [show expect ['-', ' ', 'n', 'o', 't', 'e', ':']
      ('-' :: ' ' :: 'n' :: 'o' :: 't' :: 'e' :: ':' :: ' ' :: n.data) =
      some (' ' :: n.data) from rfl]
  dsimp only
  have hnd : n.data ≠ [] := fun h => hne (by
    have := congrArg String.mk h
    simpa [string_mk_data] using this)
  by_cases hsp : n.data.dropWhile isJsSpace = []
  · have hall : ∀ c ∈ n.data, isJsSpace c = true := by
      intro c hcm
      exact List.dropWhile_eq_nil_iff.mp hsp c hcm
    have hmt : matchTitle (' ' :: n.data) = some [(' ' :: n.data).getLastD ' '] := by
      unfold matchTitle
      rw [if_neg (by simp)]
      rw [show (' ' :: n.data).dropWhile isJsSpace = n.data.dropWhile isJsSpace from by
        rw [List.dropWhile_cons_of_pos (by decide)]]
      rw [hsp]
      rfl
    rw [hmt]
    have hlastmem : (' ' :: n.data).getLastD ' ' ∈ ' ' :: n.data := getLastD_mem ' ' n.data ' '
    have hlast : isJsSpace ((' ' :: n.data).getLastD ' ') = true := by
      rcases List.mem_cons.mp hlastmem with heq | hmem2
      · rw [heq]; decide
      · exact hall _ hmem2
    have hj1 : jsTrimList [(' ' :: n.data).getLastD ' '] = [] := by
      unfold jsTrimList
      rw [List.dropWhile_cons_of_pos hlast]
      rfl
    have hj2 : jsTrimList n.data = [] := by
      unfold jsTrimList
      rw [hsp]
      rfl
    show some (String.mk (jsTrimList [(' ' :: n.data).getLastD ' '])) = some (jsTrimS n)
    unfold jsTrimS
    rw [hj1, hj2]
  · have hmt : matchTitle (' ' :: n.data) = some (n.data.dropWhile isJsSpace) := by
      unfold matchTitle
      rw [if_neg (by simp)]
      rw [show (' ' :: n.data).dropWhile isJsSpace = n.data.dropWhile isJsSpace from by
        rw [List.dropWhile_cons_of_pos (by decide)]]
      rw [if_neg (by simpa [List.isEmpty_iff] using hsp)]
    rw [hmt]
    show some (String.mk (jsTrimList (n.data.dropWhile isJsSpace))) = some (jsTrimS n)
    rw [jsTrimList_dropWhile]
    rfl

theorem canonicalTask_trim (t : Task) (hc : canonicalTask t = true) :
    jsTrimS t.title = t.title := by
  unfold canonicalTask at hc
  simp only [Bool.and_eq_true] at hc
  exact of_decide_eq_true hc.1.1.1.1.2

theorem canonicalTask_prio (t : Task) (hc : canonicalTask t = true) :
    isPriorityTag t.priority = true := by
  unfold canonicalTask at hc
  simp only [Bool.and_eq_true] at hc
  exact hc.1.1.1.1.1.1.2

theorem canonicalTask_status (t : Task) (hc : canonicalTask t = true) :
    statusEnum.contains t.status = true := by
  unfold canonicalTask at hc
  simp only [Bool.and_eq_true] at hc
  exact hc.1.1.1.1.1.1.1.2

theorem isPriorityTag_ne_empty (p : String) (h : isPriorityTag p = true) : p ≠ "" := by
  obtain ⟨d, hpd, _⟩ := isPriorityTag_shape p h
  intro h0
  rw [h0] at hpd
  rw [show ("" : String).data = [] from rfl] at hpd
  cases hpd

theorem normOwner_some (x : Option String) (o : String) (h : normOwner x = some o) :
    x = some o ∧ o ≠ "" := by
  cases x with
  | none => cases h
  | some s =>
    unfold normOwner at h
    dsimp only at h
    by_cases hs : s = ""
    · rw [if_pos hs] at h
      cases h
    · rw [if_neg hs] at h
      cases h
      exact ⟨rfl, hs⟩

theorem canonicalTask_owner_not_prio (t : Task) (hc : canonicalTask t = true) (o : String)
    (ho : t.owner_model = some o) (hone : o ≠ "") : isPriorityTag o = false := by
  unfold canonicalTask at hc
  simp only [Bool.and_eq_true] at hc
  have h9 := hc.1.2
  rw [ho] at h9
  dsimp only at h9
  rcases (Bool.or_eq_true _ _).mp h9 with h | h
  · exact absurd (of_decide_eq_true h) hone
  · simpa using ((Bool.and_eq_true _ _).mp h).2

theorem classifyTags_std (prio : String) (ow : Option String)
    (hpne : prio ≠ "") (hpt : isPriorityTag prio = true)
    (how : ∀ o, ow = some o → o ≠ "" ∧ isPriorityTag o = false) :
    classifyTags (some prio) ow = (prio, ow) := by
  unfold classifyTags classifyTag
  dsimp only
  rw [if_neg hpne, if_pos hpt]
  cases ow with
  | none => rfl
  | some o =>
    obtain ⟨ho1, ho2⟩ := how o rfl
    dsimp only
    rw [if_neg ho1, if_neg (by simp [ho2])]

theorem renderTaskLine_no_break (t : Task) (hc : canonicalTask t = true) :
    ∀ c ∈ (renderTaskLineStr t).data, c ≠ '\n' ∧ c ≠ '\r' := by
  unfold canonicalTask at hc
  simp only [Bool.and_eq_true] at hc
  obtain ⟨⟨⟨⟨⟨⟨⟨⟨⟨h1, h2⟩, h3⟩, h4⟩, h5⟩, h6⟩, h7⟩, h8⟩, h9⟩, h10⟩ := hc
  obtain ⟨d, hpd, hdd⟩ := isPriorityTag_shape t.priority h4
  have hidc := List.all_eq_true.mp h2
  have htch := any_eq_false_forall
    (show t.title.data.any (fun c => c = '\n' || c = '\r') = false by simpa using h7)
  intro c hcm
  unfold renderTaskLineStr at hcm
  simp only [String.data_append, List.mem_append] at hcm
  rcases hcm with ((((((((hm | hm) | hm) | hm) | hm) | hm) | hm) | hm) | hm) | hm
  · constructor <;> rintro rfl <;> revert hm <;> decide
  · constructor <;> rintro rfl <;> revert hm <;> (intro hm; revert hm; split_ifs <;> decide)
  · constructor <;> rintro rfl <;> revert hm <;> decide
  · exact isIdChar_no_break c (hidc c hm)
  · constructor <;> rintro rfl <;> revert hm <;> decide
  · rw [hpd] at hm
    rcases List.mem_cons.mp hm with rfl | hm2
    · constructor <;> decide
    · rcases List.mem_cons.mp hm2 with rfl | hm3
      · exact ⟨(isDigitChar_facts c hdd).1, (isDigitChar_facts c hdd).2.1⟩
      · cases hm3
  · constructor <;> rintro rfl <;> revert hm <;> decide
  · cases howner : t.owner_model with
    | none =>
      rw [howner] at hm
      dsimp only at hm
      cases hm
    | some o =>
      rw [howner] at hm
      dsimp only at hm
      rw [howner] at h9
      dsimp only at h9
      by_cases ho : o = ""
      · rw [if_pos ho] at hm
        rw [show ("" : String).data = [] from rfl] at hm
        cases hm
      · rw [if_neg ho] at hm
        have h9b := (Bool.or_eq_true _ _).mp h9
        rcases h9b with h9l | h9r
        · exact absurd (of_decide_eq_true h9l) ho
        · have hoany : (o.data.any fun x =>
              decide (x = ']') || decide (x = '\n') || decide (x = '\r')) = false := by
            simpa using ((Bool.and_eq_true _ _).mp h9r).1
          simp only [String.data_append, List.mem_append] at hm
          rcases hm with (hm | hm) | hm
          · constructor <;> rintro rfl <;> revert hm <;> decide
          · have hx := any_eq_false_forall hoany c hm
            simp only [Bool.or_eq_false_iff, decide_eq_false_iff_not] at hx
            exact ⟨hx.1.2, hx.2⟩
          · constructor <;> rintro rfl <;> revert hm <;> decide
  · constructor <;> rintro rfl <;> revert hm <;> decide
  · have hx := htch c hm
    simp only [Bool.or_eq_false_iff, decide_eq_false_iff_not] at hx
    exact hx

theorem noteLine_no_break (t : Task) (hc : canonicalTask t = true) (n : String)
    (hn : t.notes = some n) : ∀ c ∈ ("  - note: " ++ n).data, c ≠ '\n' ∧ c ≠ '\r' := by
  have h10 : (match t.notes with
      | some m => !m.data.any (fun c => c = '\n' || c = '\r')
      | none => true) = true := by
    unfold canonicalTask at hc
    simp only [Bool.and_eq_true] at hc
    exact hc.2
  rw [hn] at h10
  dsimp only at h10
  have hnc := any_eq_false_forall (show n.data.any (fun c => c = '\n' || c = '\r') = false by
    simpa using h10)
  intro c hcm
  rw [noteLine_data] at hcm
  simp only [List.mem_cons] at hcm
  rcases hcm with rfl | rfl | rfl | rfl | rfl | rfl | rfl | rfl | rfl | rfl | hm
  · constructor <;> decide
  · constructor <;> decide
  · constructor <;> decide
  · constructor <;> decide
  · constructor <;> decide
  · constructor <;> decide
  · constructor <;> decide
  · constructor <;> decide
  · constructor <;> decide
  · constructor <;> decide
  · have hx := hnc c hm
    simp only [Bool.or_eq_false_iff, decide_eq_false_iff_not] at hx
    exact hx

theorem mem_sortSection (x : Task) (l : List Task) : x ∈ sortSection l ↔ x ∈ l :=
  (sortBy_perm prioIdLeB l).mem_iff

theorem bodyLines_no_break (tasks : List Task)
    (hcanon : ∀ t ∈ tasks, canonicalTask t = true) :
    ∀ l ∈ bodyLines tasks, '\n' ∉ l ∧ '\r' ∉ l := by
  intro l hl
  unfold bodyLines at hl
  rw [List.mem_flatMap] at hl
  obtain ⟨st, hstm, hlm⟩ := hl
  unfold sectionLines at hlm
  rcases List.mem_cons.mp hlm with rfl | hlm2
  · fin_cases hstm <;> exact ⟨by decide, by decide⟩
  · dsimp only at hlm2
    by_cases hsec : (sortSection (tasks.filter (fun x => x.status = st))).isEmpty
    · rw [if_pos hsec] at hlm2
      simp only [List.mem_singleton] at hlm2
      subst hlm2
      exact ⟨by simp, by simp⟩
    · rw [if_neg hsec] at hlm2
      rcases List.mem_append.mp hlm2 with hfm | hbl
      · rw [List.mem_flatMap] at hfm
        obtain ⟨t, htm, hltl⟩ := hfm
        have htc : canonicalTask t = true :=
          hcanon t (List.mem_filter.mp ((mem_sortSection t _).mp htm)).1
        unfold taskLines at hltl
        rcases List.mem_cons.mp hltl with rfl | hnote
        · have hch := renderTaskLine_no_break t htc
          exact ⟨fun hmem => (hch _ hmem).1 rfl, fun hmem => (hch _ hmem).2 rfl⟩
        · cases hnt : t.notes with
          | none =>
            rw [hnt] at hnote
            cases hnote
          | some n =>
            rw [hnt] at hnote
            dsimp only at hnote
            by_cases hn0 : n = ""
            · rw [if_pos hn0] at hnote
              cases hnote
            · rw [if_neg hn0] at hnote
              simp only [List.mem_singleton] at hnote
              subst hnote
              have hch := noteLine_no_break t htc n hnt
              exact ⟨fun hmem => (hch _ hmem).1 rfl, fun hmem => (hch _ hmem).2 rfl⟩
      · simp only [List.mem_singleton] at hbl
        subst hbl
        exact ⟨by simp, by simp⟩

theorem statusHeader_parse :
    ∀ st ∈ STATUS_ORDER, headerStatusOf ("## " ++ statusHeaderName st).data = some (some st) := by
  decide

/-! ### Round trip (C4): the parse loop over the projected lines -/

theorem parseLoop_cons (slug : String) (line : List Char) (rest : List (List Char))
    (cur : Option String) :
    parseLoop slug (line :: rest) cur =
      lineRecords slug line rest cur ++ parseLoop slug rest (nextStatus line cur) := rfl

theorem nextStatus_of_none {line : List Char} (cur : Option String)
    (h : headerStatusOf line = none) : nextStatus line cur = cur := by
  unfold nextStatus
  rw [h]

theorem nextStatus_of_some {line : List Char} {ns : Option String} (cur : Option String)
    (h : headerStatusOf line = some ns) : nextStatus line cur = ns := by
  unfold nextStatus
  rw [h]

theorem lineRecords_header {line : List Char} {ns : Option String} (slug : String)
    (rest : List (List Char)) (cur : Option String) (h : headerStatusOf line = some ns) :
    lineRecords slug line rest cur = [] := by
  unfold lineRecords
  rw [h]

theorem lineRecords_noneCur {line : List Char} (slug : String) (rest : List (List Char))
    (h : headerStatusOf line = none) : lineRecords slug line rest none = [] := by
  unfold lineRecords
  rw [h]

theorem lineRecords_noTask {line : List Char} (slug : String) (rest : List (List Char))
    (st : String) (h1 : headerStatusOf line = none) (h2 : parseTaskLine line = none) :
    lineRecords slug line rest (some st) = [] := by
  unfold lineRecords
  rw [h1]
  dsimp only
  rw [h2]

theorem lineRecords_task {line next : List Char} {rest2 : List (List Char)}
    {st : String} {c : Char} {tid : String} {t1 t2 : Option String} {rawTitle : String}
    (slug : String) (h1 : headerStatusOf line = none)
    (h2 : parseTaskLine line = some (c, tid, t1, t2, rawTitle)) :
    lineRecords slug line (next :: rest2) (some st) =
      [{ id := tid, project_id := slug, title := jsTrimS rawTitle, status := st,
         priority := (classifyTags t1 t2).1, owner_model := (classifyTags t1 t2).2,
         notes := noteOf next, source_file := "tasks/" ++ slug ++ "-tasks.md" }] := by
  unfold lineRecords
  rw [h1]
  dsimp only
  rw [h2]

theorem parseLoop_blank (slug : String) (rest : List (List Char)) (st : String) :
    parseLoop slug ([] :: rest) (some st) = parseLoop slug rest (some st) := rfl

theorem parseLoop_skip_headerless (slug : String) (hs : List (List Char))
    (hh : ∀ l ∈ hs, headerStatusOf l = none) (rest : List (List Char)) :
    parseLoop slug (hs ++ rest) none = parseLoop slug rest none := by
  induction hs with
  | nil => rfl
  | cons l hs ih =>
    show parseLoop slug (l :: (hs ++ rest)) none = parseLoop slug rest none
    rw [parseLoop_cons, lineRecords_noneCur slug (hs ++ rest) (hh l (List.mem_cons_self l hs)),
        nextStatus_of_none none (hh l (List.mem_cons_self l hs)), List.nil_append]
    exact ih (fun x hx => hh x (List.mem_cons_of_mem l hx))

/-- Processing the rendered blocks of one section: each canonical task
parses back to its `reparse` image, and the trailing blank line stops the
block run. -/
theorem parseLoop_taskBlocks (slug st : String) (sec : List Task) (rest : List (List Char))
    (hsec : ∀ t ∈ sec, canonicalTask t = true ∧ t.status = st) :
    parseLoop slug (sec.flatMap taskLines ++ [] :: rest) (some st) =
      sec.map (reparse slug) ++ parseLoop slug ([] :: rest) (some st) := by
  induction sec with
  | nil => rfl
  | cons t sec2 ih =>
    obtain ⟨hct, hst⟩ := hsec t (List.mem_cons_self t sec2)
    have ih2 := ih (fun x hx => hsec x (List.mem_cons_of_mem t hx))
    have hpt := canonicalTask_prio t hct
    have hcls := classifyTags_std t.priority (normOwner t.owner_model)
      (isPriorityTag_ne_empty _ hpt) hpt
      (fun o hoo =>
        have hns := normOwner_some _ o hoo
        ⟨hns.2, canonicalTask_owner_not_prio t hct o hns.1 hns.2⟩)
    have htrim : jsTrimS t.title = t.title := canonicalTask_trim t hct
    rw [List.map_cons]
    cases hnt : t.notes with
    | none =>
      have htl : taskLines t = [(renderTaskLineStr t).data] := by
        unfold taskLines
        rw [hnt]
      have hrep : reparse slug t =
          { id := t.id, project_id := slug, title := t.title, status := st,
            priority := t.priority, owner_model := normOwner t.owner_model,
            notes := none, source_file := "tasks/" ++ slug ++ "-tasks.md" } := by
        unfold reparse
        rw [hnt, hst]
      rw [hrep]
      rw [show ((t :: sec2).flatMap taskLines ++ [] :: rest) =
          (renderTaskLineStr t).data :: (sec2.flatMap taskLines ++ [] :: rest) from by
        rw [List.flatMap_cons, htl]
        simp]
      rw [parseLoop_cons, nextStatus_of_none _ (headerStatusOf_render t)]
      cases sec2 with
      | nil =>
        simp only [List.flatMap_nil, List.nil_append]
        rw [lineRecords_task slug (headerStatusOf_render t) (parseTaskLine_render t hct),
            noteOf_nil, hcls]
        dsimp only
        rw [htrim]
        rfl
      | cons t2 s2 =>
        have hX : (t2 :: s2).flatMap taskLines ++ [] :: rest =
            (renderTaskLineStr t2).data ::
              ((taskLines t2).tail ++ (s2.flatMap taskLines ++ [] :: rest)) := by
          rw [List.flatMap_cons,
            show taskLines t2 = (renderTaskLineStr t2).data :: (taskLines t2).tail from rfl]
          simp [List.cons_append, List.append_assoc]
        rw [hX,
            lineRecords_task slug (headerStatusOf_render t) (parseTaskLine_render t hct),
            noteOf_render t2, hcls]
        dsimp only
        rw [htrim, ← hX, ih2]
        rfl
    | some n =>
      by_cases hn0 : n = ""
      · have htl : taskLines t = [(renderTaskLineStr t).data] := by
          unfold taskLines
          rw [hnt]
          dsimp only
          rw [if_pos hn0]
        have hrep : reparse slug t =
            { id := t.id, project_id := slug, title := t.title, status := st,
              priority := t.priority, owner_model := normOwner t.owner_model,
              notes := none, source_file := "tasks/" ++ slug ++ "-tasks.md" } := by
          unfold reparse
          rw [hnt, hst]
          dsimp only
          rw [if_pos hn0]
        rw [hrep]
        rw [show ((t :: sec2).flatMap taskLines ++ [] :: rest) =
            (renderTaskLineStr t).data :: (sec2.flatMap taskLines ++ [] :: rest) from by
          rw [List.flatMap_cons, htl]
          simp]
        rw [parseLoop_cons, nextStatus_of_none _ (headerStatusOf_render t)]
        cases sec2 with
        | nil =>
          simp only [List.flatMap_nil, List.nil_append]
          rw [lineRecords_task slug (headerStatusOf_render t) (parseTaskLine_render t hct),
              noteOf_nil, hcls]
          dsimp only
          rw [htrim]
          rfl
        | cons t2 s2 =>
          have hX : (t2 :: s2).flatMap taskLines ++ [] :: rest =
              (renderTaskLineStr t2).data ::
                ((taskLines t2).tail ++ (s2.flatMap taskLines ++ [] :: rest)) := by
            rw [List.flatMap_cons,
              show taskLines t2 = (renderTaskLineStr t2).data :: (taskLines t2).tail from rfl]
            simp [List.cons_append, List.append_assoc]
          rw [hX,
              lineRecords_task slug (headerStatusOf_render t) (parseTaskLine_render t hct),
              noteOf_render t2, hcls]
          dsimp only
          rw [htrim, ← hX, ih2]
          rfl
      · have htl : taskLines t = [(renderTaskLineStr t).data, ("  - note: " ++ n).data] := by
          unfold taskLines
          rw [hnt]
          dsimp only
          rw [if_neg hn0]
        have hrep : reparse slug t =
            { id := t.id, project_id := slug, title := t.title, status := st,
              priority := t.priority, owner_model := normOwner t.owner_model,
              notes := some (jsTrimS n),
              source_file := "tasks/" ++ slug ++ "-tasks.md" } := by
          unfold reparse
          rw [hnt, hst]
          dsimp only
          rw [if_neg hn0]
        rw [hrep]
        rw [show ((t :: sec2).flatMap taskLines ++ [] :: rest) =
            (renderTaskLineStr t).data :: ("  - note: " ++ n).data ::
              (sec2.flatMap taskLines ++ [] :: rest) from by
          rw [List.flatMap_cons, htl]
          simp]
        rw [parseLoop_cons, nextStatus_of_none _ (headerStatusOf_render t),
            lineRecords_task slug (headerStatusOf_render t) (parseTaskLine_render t hct),
            noteOf_noteLine n hn0, hcls]
        dsimp only
        rw [htrim]
        rw [parseLoop_cons, nextStatus_of_none _ (headerStatusOf_noteLine n),
            lineRecords_noTask slug _ st (headerStatusOf_noteLine n) (parseTaskLine_noteLine n),
            List.nil_append, ih2]
        rfl

/-- Processing all rendered sections: each contributes the reparse images
of its sorted member tasks, whatever status context was in scope before. -/
theorem parseLoop_sections (slug : String) (tasks : List Task)
    (hcanon : ∀ t ∈ tasks, canonicalTask t = true) :
    ∀ sts : List String,
      (∀ st ∈ sts, headerStatusOf ("## " ++ statusHeaderName st).data = some (some st)) →
      ∀ cur, parseLoop slug (sts.flatMap (sectionLines tasks) ++ [[]]) cur =
        sts.flatMap (fun st =>
          (sortSection (tasks.filter (fun x => x.status = st))).map (reparse slug)) := by
  intro sts
  induction sts with
  | nil =>
    intro _ cur
    simp only [List.flatMap_nil, List.nil_append]
    cases cur with
    | none => rfl
    | some st => rfl
  | cons st sts ih =>
    intro hst cur
    have hih := ih (fun x hx => hst x (List.mem_cons_of_mem st hx))
    have hsth := hst st (List.mem_cons_self st sts)
    rw [List.flatMap_cons, List.flatMap_cons]
    have hsl : sectionLines tasks st = ("## " ++ statusHeaderName st).data ::
        (if (sortSection (tasks.filter (fun x => x.status = st))).isEmpty then [[]]
         else (sortSection (tasks.filter (fun x => x.status = st))).flatMap taskLines ++
           [[]]) := rfl
    rw [hsl]
    by_cases hsec : (sortSection (tasks.filter (fun x => x.status = st))).isEmpty
    · rw [if_pos hsec]
      simp only [List.cons_append, List.append_assoc, List.nil_append]
      rw [parseLoop_cons, lineRecords_header slug _ cur hsth, nextStatus_of_some cur hsth,
        List.nil_append, parseLoop_blank, hih (some st),
        show sortSection (tasks.filter (fun x => x.status = st)) = [] from
          List.isEmpty_iff.mp hsec]
      simp
    · rw [if_neg hsec]
      have hsecmem : ∀ x ∈ sortSection (tasks.filter (fun y => y.status = st)),
          canonicalTask x = true ∧ x.status = st := by
        intro x hx
        have hxf := List.mem_filter.mp ((mem_sortSection x _).mp hx)
        exact ⟨hcanon x hxf.1, by simpa using hxf.2⟩
      simp only [List.cons_append, List.append_assoc, List.nil_append]
      rw [parseLoop_cons, lineRecords_header slug _ cur hsth, nextStatus_of_some cur hsth,
        List.nil_append]
      rw [parseLoop_taskBlocks slug st _ _ hsecmem, parseLoop_blank, hih (some st)]

/-- Full single-file round trip at the parser level: parsing the projected
file yields exactly the reparse images of the stored tasks, grouped into
the five status sections in canonical order. -/
theorem parse_projectFile (slug header : String) (tasks : List Task)
    (hcanon : ∀ t ∈ tasks, canonicalTask t = true)
    (hheader : ∀ l ∈ splitLines header.data, headerStatusOf l = none)
    (hlast : header.data.getLast? ≠ some '\r') :
    parseTaskFileContent slug (projectFile header tasks) =
      STATUS_ORDER.flatMap (fun st =>
        (sortSection (tasks.filter (fun x => x.status = st))).map (reparse slug)) := by
  unfold parseTaskFileContent
  rw [projectFile_lines header tasks hlast (bodyLines_no_break tasks hcanon)]
  rw [show splitLines header.data ++ [] :: (bodyLines tasks ++ [[]]) =
      (splitLines header.data ++ [[]]) ++ (bodyLines tasks ++ [[]]) from by simp]
  rw [parseLoop_skip_headerless slug (splitLines header.data ++ [[]])
      (fun l hl => by
        rcases List.mem_append.mp hl with h | h
        · exact hheader l h
        · simp only [List.mem_singleton] at h
          subst h
          rfl)
      (bodyLines tasks ++ [[]])]
  unfold bodyLines
  exact parseLoop_sections slug tasks hcanon STATUS_ORDER statusHeader_parse none

/-! ### Round trip (C4): gathering the sections back into the task set -/

theorem flatMap_filter_perm (sts : List String) (hnd : sts.Nodup) :
    ∀ ts : List Task, (∀ t ∈ ts, t.status ∈ sts) →
      (sts.flatMap (fun st => ts.filter (fun x => x.status = st))).Perm ts := by
  intro ts
  induction ts with
  | nil =>
    intro _
    rw [show sts.flatMap (fun st => ([] : List Task).filter (fun x => x.status = st)) =
        sts.flatMap (fun _ => ([] : List Task)) from
      List.flatMap_congr (fun x _ => rfl)]
    simp
  | cons t ts ih =>
    intro hmem
    have hst : t.status ∈ sts := hmem t (List.mem_cons_self t ts)
    obtain ⟨pre, post, hsplit⟩ := List.append_of_mem hst
    have hih := ih (fun x hx => hmem x (List.mem_cons_of_mem t hx))
    subst hsplit
    obtain ⟨hnd1, hnd2, hdisj⟩ := List.nodup_append.mp hnd
    have hpre : t.status ∉ pre := fun hc => hdisj hc (List.mem_cons_self _ _)
    have hfpre : pre.flatMap (fun st => (t :: ts).filter (fun x => x.status = st)) =
        pre.flatMap (fun st => ts.filter (fun x => x.status = st)) :=
      List.flatMap_congr (fun st hstm => by
        rw [List.filter_cons_of_neg (by
          simp only [decide_eq_true_eq]
          intro h
          exact hpre (by rwa [h]))])
    have hfpost : post.flatMap (fun st => (t :: ts).filter (fun x => x.status = st)) =
        post.flatMap (fun st => ts.filter (fun x => x.status = st)) :=
      List.flatMap_congr (fun st hstm => by
        rw [List.filter_cons_of_neg (by
          simp only [decide_eq_true_eq]
          intro h
          exact (List.nodup_cons.mp hnd2).1 (by rwa [h]))])
    rw [List.flatMap_append, List.flatMap_cons, hfpre, hfpost,
      List.filter_cons_of_pos (by simp)]
    have hmid : (pre.flatMap (fun st => ts.filter (fun x => x.status = st)) ++
        ((t :: ts.filter (fun x => x.status = t.status)) ++
          post.flatMap (fun st => ts.filter (fun x => x.status = st)))) =
        (pre.flatMap (fun st => ts.filter (fun x => x.status = st)) ++
          t :: (ts.filter (fun x => x.status = t.status) ++
            post.flatMap (fun st => ts.filter (fun x => x.status = st)))) := by
      simp
    rw [hmid]
    refine List.Perm.trans List.perm_middle ?_
    refine List.Perm.cons t ?_
    have hflat : (pre.flatMap (fun st => ts.filter (fun x => x.status = st)) ++
        (ts.filter (fun x => x.status = t.status) ++
          post.flatMap (fun st => ts.filter (fun x => x.status = st)))) =
        ((pre ++ t.status :: post).flatMap (fun st => ts.filter (fun x => x.status = st))) := by
      rw [List.flatMap_append, List.flatMap_cons]
    rw [hflat]
    exact hih

theorem flatMap_perm_of_pointwise {α β : Type} (l : List α) (f g : α → List β)
    (h : ∀ x ∈ l, (f x).Perm (g x)) : (l.flatMap f).Perm (l.flatMap g) := by
  induction l with
  | nil => simp
  | cons a l ih =>
    rw [List.flatMap_cons, List.flatMap_cons]
    exact (h a (List.mem_cons_self a l)).append
      (ih (fun x hx => h x (List.mem_cons_of_mem a hx)))

theorem statusEnum_mem_STATUS_ORDER (s : String) (h : statusEnum.contains s = true) :
    s ∈ STATUS_ORDER := by
  have hm : s ∈ statusEnum := by simpa using h
  unfold statusEnum at hm
  fin_cases hm <;> decide

/-- The five sections of the projected file gather a permutation of the
stored tasks, provided every stored status is one of the five. -/
theorem gather_perm (tasks : List Task)
    (hcanon : ∀ t ∈ tasks, canonicalTask t = true) :
    (STATUS_ORDER.flatMap (fun st =>
      sortSection (tasks.filter (fun x => x.status = st)))).Perm tasks := by
  refine List.Perm.trans
    (flatMap_perm_of_pointwise STATUS_ORDER _ _
      (fun st _ => sortBy_perm prioIdLeB (tasks.filter (fun x => x.status = st)))) ?_
  exact flatMap_filter_perm STATUS_ORDER (by decide) tasks
    (fun t ht => statusEnum_mem_STATUS_ORDER t.status
      (canonicalTask_status t (hcanon t ht)))

theorem normOwner_idem (x : Option String) : normOwner (normOwner x) = normOwner x := by
  cases x with
  | none => rfl
  | some s =>
    by_cases hs : s = ""
    · rw [show normOwner (some s) = none from by
        unfold normOwner
        dsimp only
        rw [if_pos hs]]
      rfl
    · rw [show normOwner (some s) = some s from by
        unfold normOwner
        dsimp only
        rw [if_neg hs]]
      rw [show normOwner (some s) = some s from by
        unfold normOwner
        dsimp only
        rw [if_neg hs]]

/-- Two record sets with unique ids, matching on ids and on every compared
field, produce an empty diff. -/
theorem diffTasks_nil_of_matching (F D : List Task)
    (hF : (F.map Task.id).Nodup) (hD : (D.map Task.id).Nodup)
    (hFD : ∀ ft ∈ F, ∃ dt ∈ D, dt.id = ft.id ∧ comparedEq ft dt)
    (hDF : ∀ dt ∈ D, ∃ ft ∈ F, ft.id = dt.id) :
    diffTasks F D = [] := by
  rw [diffTasks_eq_of_nodup F D hF hD]
  rw [List.append_eq_nil]
  constructor
  · rw [List.filterMap_eq_nil_iff]
    intro ft hft
    obtain ⟨dt, hdtD, hdtid, hcmp⟩ := hFD ft hft
    unfold diffLeft
    rw [find_by_key_unique Task.id D ft.id dt hD hdtD hdtid]
    dsimp only
    rw [show changesOf ft dt = [] from (changesOf_eq_nil ft dt).mpr hcmp]
    rfl
  · rw [List.filterMap_eq_nil_iff]
    intro dt hdt
    obtain ⟨ft, hftF, hfid⟩ := hDF dt hdt
    unfold diffRight
    rw [if_pos (List.any_eq_true.mpr ⟨ft, hftF, decide_eq_true hfid⟩)]

/-- Claim C4 counterexample: a stored row whose owner is itself shaped like
a priority tag (`P3` matches `/^P\d$/`) projects to `[P1] [P3]`, and on
re-parse the tag classifier treats both bracket groups as priority tags —
the record comes back with priority `P3` and no owner, so the "project,
then parse" diff is not empty for every store state. -/
theorem ownerPriorityTag_breaks_roundTrip :
    diffTasks
      (parseTaskFileContent "p" (projectFile "# Tasks: p"
        [⟨"a-001", "p", "T", "backlog", "P1", some "P3", none, "tasks/p-tasks.md"⟩]))
      [⟨"a-001", "p", "T", "backlog", "P1", some "P3", none, "tasks/p-tasks.md"⟩] ≠ [] := by
  decide

/-- Claim C4 (amended): projecting store→text and then parsing text→store
produces an empty diff for every store whose rows are syntactically
canonical — unique well-formed ids, statuses and `P<digit>` priorities from
the schema enumerations, non-empty trim-stable single-line titles that do
not start with a bracket group when no owner tag is emitted, owner tags
(when present) that are bracket-free, newline-free and not themselves
shaped like priority tags, single-line notes — under a preserved preamble
none of whose lines is a section heading and which does not end in a bare
carriage return.  Every such stored task, rendered by the projector and
re-parsed by the record parser, yields a record field-equal on id, status,
priority, owner (up to the `'' / NULL` coercion the diff applies) and
title. -/
theorem roundTrip_empty_diff (slug header : String) (tasks : List Task)
    (hnd : (tasks.map Task.id).Nodup)
    (hcanon : ∀ t ∈ tasks, canonicalTask t = true)
    (hheader : ∀ l ∈ splitLines header.data, headerStatusOf l = none)
    (hlast : header.data.getLast? ≠ some '\r') :
    diffTasks (parseTaskFileContent slug (projectFile header tasks)) tasks = [] := by
  rw [parse_projectFile slug header tasks hcanon hheader hlast]
  have hgperm := gather_perm tasks hcanon
  have hmapeq : STATUS_ORDER.flatMap (fun st =>
      (sortSection (tasks.filter (fun x => x.status = st))).map (reparse slug)) =
      (STATUS_ORDER.flatMap (fun st =>
        sortSection (tasks.filter (fun x => x.status = st)))).map (reparse slug) :=
    (List.map_flatMap _ _ _).symm
  rw [hmapeq]
  have hidmap : ((STATUS_ORDER.flatMap (fun st =>
      sortSection (tasks.filter (fun x => x.status = st)))).map (reparse slug)).map Task.id =
      (STATUS_ORDER.flatMap (fun st =>
        sortSection (tasks.filter (fun x => x.status = st)))).map Task.id := by
    rw [List.map_map]
    exact List.map_congr_left (fun x _ => rfl)
  apply diffTasks_nil_of_matching
  · rw [hidmap]
    exact (hgperm.map Task.id).nodup_iff.mpr hnd
  · exact hnd
  · intro ft hft
    obtain ⟨g, hgG, hfteq⟩ := List.mem_map.mp hft
    refine ⟨g, hgperm.mem_iff.mp hgG, by rw [← hfteq]; rfl, ?_⟩
    rw [← hfteq]
    exact ⟨rfl, rfl, normOwner_idem g.owner_model, rfl⟩
  · intro dt hdt
    exact ⟨reparse slug dt, List.mem_map.mpr ⟨dt, hgperm.mem_iff.mpr hdt, rfl⟩, rfl⟩

/-- Claim C4 witness: a concrete two-task store (one owned task with a
note, one unowned done task) whose projection parses back to an empty
diff. -/
theorem roundTrip_empty_diff_witness :
    ((([⟨"a-001", "demo", "Fix parser", "backlog", "P1", some "opus", some "edge cases",
          "tasks/demo-tasks.md"⟩,
        ⟨"b-002", "demo", "Ship it", "done", "P2", none, none,
          "tasks/demo-tasks.md"⟩] : List Task).map Task.id).Nodup ∧
      (∀ t ∈ ([⟨"a-001", "demo", "Fix parser", "backlog", "P1", some "opus",
          some "edge cases", "tasks/demo-tasks.md"⟩,
        ⟨"b-002", "demo", "Ship it", "done", "P2", none, none,
          "tasks/demo-tasks.md"⟩] : List Task), canonicalTask t = true) ∧
      (∀ l ∈ splitLines ("# Tasks: demo" : String).data, headerStatusOf l = none) ∧
      ("# Tasks: demo" : String).data.getLast? ≠ some '\r') ∧
    diffTasks
      (parseTaskFileContent "demo" (projectFile "# Tasks: demo"
        [⟨"a-001", "demo", "Fix parser", "backlog", "P1", some "opus", some "edge cases",
          "tasks/demo-tasks.md"⟩,
         ⟨"b-002", "demo", "Ship it", "done", "P2", none, none, "tasks/demo-tasks.md"⟩]))
      [⟨"a-001", "demo", "Fix parser", "backlog", "P1", some "opus", some "edge cases",
          "tasks/demo-tasks.md"⟩,
       ⟨"b-002", "demo", "Ship it", "done", "P2", none, none, "tasks/demo-tasks.md"⟩] = [] :=
  ⟨⟨by decide, by decide, by decide, by decide⟩,
   roundTrip_empty_diff "demo" "# Tasks: demo"
     [⟨"a-001", "demo", "Fix parser", "backlog", "P1", some "opus", some "edge cases",
        "tasks/demo-tasks.md"⟩,
      ⟨"b-002", "demo", "Ship it", "done", "P2", none, none, "tasks/demo-tasks.md"⟩]
     (by decide) (by decide) (by decide) (by decide)⟩

end TaskFlow
